import Mathlib

/-!
# voxlattice: text-to-speech request pipeline

A shallow embedding of the parts of `src/voxlattice` that the specification
talks about (`tts.go`, `voices.go`, `config.go`), followed by theorems about
them.

Conventions of the embedding.

* A Go `string` / `[]byte` is a list of bytes, `GoString := List Nat`; a byte is
  a natural number below 256.  All operations are total on `List Nat`; a
  number that is not a byte is treated like an invalid UTF-8 byte.
* Go `error` results are values of `Except`.
* Machine integers are natural numbers, reduced `% 2 ^ w` where the source
  converts to a `w`-bit unsigned type.
-/

namespace Voxlattice

/-- A Go string (or byte slice): its bytes, in order. -/
abbrev GoString := List Nat

/-! ## config.go -/

def sampleRateHz : Nat := 24000
def channels : Nat := 1
def bitsPerSample : Nat := 16
def maxTextLen : Nat := 10000

/-! ## tts.go : pcmToWav -/

/-- The errors `pcmToWav` could hand back (those of `binary.Write`). -/
inductive WavError where
  | writeFailed
  deriving DecidableEq, Repr

/-- `buf.WriteString(s)` / `buf.Write(p)` on a `bytes.Buffer`. -/
def bufWrite (buf : List Nat) (p : List Nat) : List Nat := buf ++ p

/-- `binary.Write(buf, binary.LittleEndian, uint32(v))`: four bytes, least
significant first.  Writing a fixed-size value into a `bytes.Buffer` cannot
fail. -/
def binaryWriteUint32 (buf : List Nat) (v : Nat) : Except WavError (List Nat) :=
  let w := v % 4294967296
  .ok (buf ++ [w % 256, w / 256 % 256, w / 65536 % 256, w / 16777216 % 256])

/-- `binary.Write(buf, binary.LittleEndian, uint16(v))`. -/
def binaryWriteUint16 (buf : List Nat) (v : Nat) : Except WavError (List Nat) :=
  let w := v % 65536
  .ok (buf ++ [w % 256, w / 256 % 256])

/-- The bytes of the four-character tags written with `buf.WriteString`. -/
def tagRIFF : List Nat := [0x52, 0x49, 0x46, 0x46]
def tagWAVE : List Nat := [0x57, 0x41, 0x56, 0x45]
def tagFmt : List Nat := [0x66, 0x6D, 0x74, 0x20]
def tagData : List Nat := [0x64, 0x61, 0x74, 0x61]

/-- `pcmToWav` of tts.go.  `len(pcm)` is converted to `uint32`, and
`36 + dataLen` is computed in `uint32`. -/
def pcmToWav (pcm : List Nat) : Except WavError (List Nat) := do
  let byteRate := sampleRateHz * channels * bitsPerSample / 8
  let blockAlign := channels * bitsPerSample / 8
  let dataLen := pcm.length % 4294967296
  let riffLen := (36 + dataLen) % 4294967296
  let buf := bufWrite [] tagRIFF
  let buf ← binaryWriteUint32 buf riffLen
  let buf := bufWrite buf tagWAVE
  let buf := bufWrite buf tagFmt
  let buf ← binaryWriteUint32 buf 16
  let buf ← binaryWriteUint16 buf 1
  let buf ← binaryWriteUint16 buf channels
  let buf ← binaryWriteUint32 buf sampleRateHz
  let buf ← binaryWriteUint32 buf byteRate
  let buf ← binaryWriteUint16 buf blockAlign
  let buf ← binaryWriteUint16 buf bitsPerSample
  let buf := bufWrite buf tagData
  let buf ← binaryWriteUint32 buf dataLen
  let buf := bufWrite buf pcm
  return buf

/-- `binary.LittleEndian.Uint32(b[off:])`: how a reader decodes a 32-bit
header field (0 when fewer than four bytes are left, where Go would panic). -/
def readUint32LE (b : List Nat) (off : Nat) : Nat :=
  match b.drop off with
  | b0 :: b1 :: b2 :: b3 :: _ => b0 + 256 * b1 + 65536 * b2 + 16777216 * b3
  | _ => 0

/-- `binary.LittleEndian.Uint16(b[off:])`. -/
def readUint16LE (b : List Nat) (off : Nat) : Nat :=
  match b.drop off with
  | b0 :: b1 :: _ => b0 + 256 * b1
  | _ => 0

/-- The bytes `b[lo:hi]`. -/
def byteSlice (b : List Nat) (lo hi : Nat) : List Nat := (b.drop lo).take (hi - lo)

/-! ## Go strings: UTF-8, `range`, package `strings` -/

/-- `utf8.RuneError`, U+FFFD. -/
def runeError : Nat := 0xFFFD

/-- A UTF-8 continuation byte: `locb <= b && b <= hicb`. -/
def isCont (b : Nat) : Bool := decide (0x80 ≤ b ∧ b ≤ 0xBF)

/-- The rune a `range` loop reads at the start of `s`, and its width in bytes:
a byte below `utf8.RuneSelf` is itself, otherwise `runtime.decoderune`, which
gives `(RuneError, 1)` for anything that is not a shortest-form encoding of a
Unicode scalar value.  The masks and shifts are written as `%` and `*`. -/
def decodeRune : List Nat → Nat × Nat
  | [] => (runeError, 1)
  | b0 :: rest =>
    if b0 < 0x80 then (b0, 1)
    else if 0xC0 ≤ b0 ∧ b0 < 0xE0 then
      match rest with
      | b1 :: _ =>
        if isCont b1 = true ∧ 0x7F < b0 % 32 * 64 + b1 % 64 then
          (b0 % 32 * 64 + b1 % 64, 2)
        else (runeError, 1)
      | _ => (runeError, 1)
    else if 0xE0 ≤ b0 ∧ b0 < 0xF0 then
      match rest with
      | b1 :: b2 :: _ =>
        if isCont b1 = true ∧ isCont b2 = true
            ∧ 0x7FF < b0 % 16 * 4096 + b1 % 64 * 64 + b2 % 64
            ∧ ¬ (0xD800 ≤ b0 % 16 * 4096 + b1 % 64 * 64 + b2 % 64
                  ∧ b0 % 16 * 4096 + b1 % 64 * 64 + b2 % 64 ≤ 0xDFFF) then
          (b0 % 16 * 4096 + b1 % 64 * 64 + b2 % 64, 3)
        else (runeError, 1)
      | _ => (runeError, 1)
    else if 0xF0 ≤ b0 ∧ b0 < 0xF8 then
      match rest with
      | b1 :: b2 :: b3 :: _ =>
        if isCont b1 = true ∧ isCont b2 = true ∧ isCont b3 = true
            ∧ 0xFFFF < b0 % 8 * 262144 + b1 % 64 * 4096 + b2 % 64 * 64 + b3 % 64
            ∧ b0 % 8 * 262144 + b1 % 64 * 4096 + b2 % 64 * 64 + b3 % 64 ≤ 0x10FFFF then
          (b0 % 8 * 262144 + b1 % 64 * 4096 + b2 % 64 * 64 + b3 % 64, 4)
        else (runeError, 1)
      | _ => (runeError, 1)
    else (runeError, 1)

/-- `utf8.AppendRune` (what `strings.Builder.WriteRune` appends): the UTF-8
encoding of `r`, or that of U+FFFD when `r` is a surrogate or out of range. -/
def encodeRune (r : Nat) : List Nat :=
  if r ≤ 0x7F then [r]
  else if r ≤ 0x7FF then [0xC0 + r / 64, 0x80 + r % 64]
  else if r < 0xD800 ∨ (0xDFFF < r ∧ r ≤ 0xFFFF) then
    [0xE0 + r / 4096, 0x80 + r / 64 % 64, 0x80 + r % 64]
  else if 0xFFFF < r ∧ r ≤ 0x10FFFF then
    [0xF0 + r / 262144, 0x80 + r / 4096 % 64, 0x80 + r / 64 % 64, 0x80 + r % 64]
  else [0xEF, 0xBF, 0xBD]

/-- The pieces a `range` loop over `s` visits, in order: each rune together
with the bytes it was decoded from.  The first argument bounds the number of
pieces; `units` passes the length of the string, which is always enough. -/
def unitsAux : Nat → List Nat → List (Nat × List Nat)
  | 0, _ => []
  | _ + 1, [] => []
  | n + 1, b :: rest =>
    ((decodeRune (b :: rest)).1, (b :: rest).take (decodeRune (b :: rest)).2)
      :: unitsAux n (rest.drop ((decodeRune (b :: rest)).2 - 1))

def units (s : GoString) : List (Nat × List Nat) := unitsAux s.length s

/-- The runes of `for _, r := range s`. -/
def runes (s : GoString) : List Nat := (units s).map Prod.fst

/-- `unicode.IsSpace`: the Latin-1 spaces and the `White_Space` table. -/
def isSpace (r : Nat) : Bool :=
  decide (r = 0x09 ∨ r = 0x0A ∨ r = 0x0B ∨ r = 0x0C ∨ r = 0x0D ∨ r = 0x20
    ∨ r = 0x85 ∨ r = 0xA0 ∨ r = 0x1680 ∨ (0x2000 ≤ r ∧ r ≤ 0x200A)
    ∨ r = 0x2028 ∨ r = 0x2029 ∨ r = 0x202F ∨ r = 0x205F ∨ r = 0x3000)

/-- `strings.TrimSpace`: the string without its leading and trailing white
space.  The library walks the runes from both ends; what it cuts off is the
longest run of white-space pieces at the start and at the end. -/
def trimSpace (s : GoString) : GoString :=
  ((List.rdropWhile (fun u => isSpace u.1)
      ((units s).dropWhile (fun u => isSpace u.1))).map Prod.snd).flatten

/-- `strings.TrimRight(s, cutset)` for a cutset of ASCII bytes: trailing bytes
in the cutset are removed. -/
def trimRight (s : GoString) (cutset : List Nat) : GoString :=
  List.rdropWhile (fun b => decide (b ∈ cutset)) s

/-- `strings.ReplaceAll(s, old, new)` for a non-empty `old`: the
non-overlapping occurrences of `old`, found from the left, become `new`.  The
first argument bounds the number of steps. -/
def replaceAllAux (old new : List Nat) : Nat → List Nat → List Nat
  | 0, s => s
  | _ + 1, [] => []
  | n + 1, b :: rest =>
    if old.isPrefixOf (b :: rest) = true then
      new ++ replaceAllAux old new n ((b :: rest).drop old.length)
    else b :: replaceAllAux old new n rest

def replaceAll (s old new : GoString) : GoString := replaceAllAux old new s.length s

/-- `strings.Split(s, sep)` for a one-byte separator. -/
def split (sep : Nat) : List Nat → List (List Nat)
  | [] => [[]]
  | b :: rest =>
    if b = sep then [] :: split sep rest
    else
      match split sep rest with
      | [] => [[b]]
      | l :: ls => (b :: l) :: ls

/-- `strings.Join(elems, sep)`. -/
def join (sep : List Nat) : List (List Nat) → List Nat
  | [] => []
  | [a] => a
  | a :: b :: rest => a ++ sep ++ join sep (b :: rest)

/-! ## tts.go : normalizeText -/

/-- The errors of `normalizeText`, one per `errors.New` / `fmt.Errorf`. -/
inductive TextError where
  /-- "text is empty" -/
  | empty
  /-- "text is empty after cleaning" -/
  | emptyAfterCleaning
  /-- "text is empty after normalization" -/
  | emptyAfterNormalization
  /-- "text too long: %d > %d" -/
  | tooLong (len max : Nat)
  deriving DecidableEq, Repr

/-- One turn of the loop over the runes of `s` (tts.go 157-166): line feed and
tab are written, other runes below 32 and 127 are skipped, everything else is
written. -/
def cleanStep (b : List Nat) (r : Nat) : List Nat :=
  if r = 0x0A ∨ r = 0x09 then b ++ encodeRune r
  else if r < 32 ∨ r = 127 then b
  else b ++ encodeRune r

/-- The state of the loop over the lines: `out` and `emptyRun`. -/
structure LineState where
  out : List GoString
  emptyRun : Nat
  deriving DecidableEq, Repr

/-- One turn of the loop over the lines (tts.go 175-187). -/
def lineStep (st : LineState) (line : GoString) : LineState :=
  let line := trimRight line [0x20, 0x09]
  if trimSpace line = [] then
    let emptyRun := st.emptyRun + 1
    if emptyRun > 1 then { st with emptyRun := emptyRun }
    else { out := st.out ++ [[]], emptyRun := emptyRun }
  else { out := st.out ++ [line], emptyRun := 0 }

/-- `normalizeText` of tts.go. -/
def normalizeText (input : GoString) : Except TextError GoString :=
  let s := replaceAll input [0x0D, 0x0A] [0x0A]
  let s := replaceAll s [0x0D] [0x0A]
  let s := trimSpace s
  if s = [] then .error .empty
  else
    let clean := (runes s).foldl cleanStep []
    if clean = [] then .error .emptyAfterCleaning
    else
      let lines := split 0x0A clean
      let out := (lines.foldl lineStep { out := [], emptyRun := 0 }).out
      let result := trimSpace (join [0x0A] out)
      if result = [] then .error .emptyAfterNormalization
      else if result.length > maxTextLen then .error (.tooLong result.length maxTextLen)
      else .ok result

/-- A Unicode scalar value: what `utf8.ValidRune` accepts. -/
def validRune (r : Nat) : Prop := r < 0xD800 ∨ (0xDFFF < r ∧ r ≤ 0x10FFFF)

instance (r : Nat) : Decidable (validRune r) := by unfold validRune; infer_instance

instance {ε α : Type} [DecidableEq ε] [DecidableEq α] : DecidableEq (Except ε α)
  | .ok a, .ok b => if h : a = b then isTrue (by rw [h]) else isFalse (by intro h2; cases h2; exact h rfl)
  | .error a, .error b => if h : a = b then isTrue (by rw [h]) else isFalse (by intro h2; cases h2; exact h rfl)
  | .ok _, .error _ => isFalse (by intro h; cases h)
  | .error _, .ok _ => isFalse (by intro h; cases h)

/-! ## Auxiliary definitions used in the proofs -/

/-- The UTF-8 encoding of a sequence of runes. -/
def encodeAll (rs : List Nat) : List Nat := rs.flatMap encodeRune

/-- The runes the cleaning loop of `normalizeText` writes: line feed, tab, and
everything that is neither below 32 nor 127. -/
def keepRune (r : Nat) : Bool := decide (r = 0x0A ∨ r = 0x09 ∨ ¬ (r < 32 ∨ r = 127))

/-- `strings.TrimSpace` on a sequence of runes. -/
def trimRunes (rs : List Nat) : List Nat :=
  List.rdropWhile isSpace (rs.dropWhile isSpace)

/-- The loop over the lines of `normalizeText` on lines given as runes, as a
recursion: what it appends to `out`, from the state "the previous line was
blank" (`emptyRun > 0`). -/
def collapseFrom : Bool → List (List Nat) → List (List Nat)
  | _, [] => []
  | prevBlank, l :: ls =>
    if trimRunes (trimRight l [0x20, 0x09]) = [] then
      if prevBlank = true then collapseFrom true ls else [] :: collapseFrom true ls
    else trimRight l [0x20, 0x09] :: collapseFrom false ls

/-- What `normalizeText` does to the runes that survive cleaning: split into
lines, run the loop over the lines, join, trim. -/
def normalizeRunes (rs : List Nat) : List Nat :=
  trimRunes (join [0x0A] (collapseFrom false (split 0x0A rs)))

/-- Leading white space removed from a text given as its lines: blank leading
lines go, and the first line that is not blank loses its leading white space. -/
def ltrimLines : List (List Nat) → List (List Nat)
  | [] => []
  | l :: ls => if l.dropWhile isSpace = [] then ltrimLines ls else l.dropWhile isSpace :: ls

/-- Trailing white space removed from a text given as its lines. -/
def rtrimLines : List (List Nat) → List (List Nat)
  | [] => []
  | l :: ls =>
    if rtrimLines ls = [] then
      (if List.rdropWhile isSpace l = [] then [] else [List.rdropWhile isSpace l])
    else l :: rtrimLines ls

/-- The lines the loop over the lines leaves alone, from the state "the
previous line was blank": an empty line is not preceded by a blank one, and
every other line holds a rune that is not white space and does not end in a
space or a tab. -/
def Fixed : Bool → List (List Nat) → Prop
  | _, [] => True
  | b, l :: ls =>
    if l = [] then b = false ∧ Fixed true ls
    else (trimRight l [0x20, 0x09] = l ∧ trimRunes l ≠ []) ∧ Fixed false ls

/-- The string `normalizeText` hands to `range`: the input with its line ends
unified and its outer white space trimmed (tts.go 148-150). -/
def unifyAndTrim (input : GoString) : GoString :=
  trimSpace (replaceAll (replaceAll input [0x0D, 0x0A] [0x0A]) [0x0D] [0x0A])

/-- The runes the cleaning loop writes for `input`. -/
def cleanedRunes (input : GoString) : List Nat := (runes (unifyAndTrim input)).filter keepRune

/-- The value of `result` in `normalizeText` (tts.go 188), for an input that got
that far: the text before the checks for emptiness and length. -/
def normalizedResult (input : GoString) : GoString :=
  trimSpace (join [0x0A]
    ((split 0x0A ((runes (unifyAndTrim input)).foldl cleanStep [])).foldl lineStep
      { out := [], emptyRun := 0 }).out)

/-- `strings.ReplaceAll(s, "\r\n", "\n")` as a recursion over the bytes (or
over the runes): a carriage return that stands before a line feed goes. -/
def dropCRBeforeLF : List Nat → List Nat
  | [] => []
  | [b] => [b]
  | a :: b :: rest =>
    if a = 0x0D ∧ b = 0x0A then 0x0A :: dropCRBeforeLF rest
    else a :: dropCRBeforeLF (b :: rest)

/-- `strings.ReplaceAll(s, "\r", "\n")` on one byte (or rune). -/
def crToLF (b : Nat) : Nat := if b = 0x0D then 0x0A else b

/-- A control character the cleaning loop of `normalizeText` strips: below 32
or 127, and neither line feed nor tab. -/
def strippedControl (r : Nat) : Bool := decide ((r < 32 ∨ r = 127) ∧ r ≠ 0x0A ∧ r ≠ 0x09)

/-- The three "text is empty ..." errors of `normalizeText`. -/
def TextError.isEmptyText : TextError → Bool
  | .empty => true
  | .emptyAfterCleaning => true
  | .emptyAfterNormalization => true
  | .tooLong _ _ => false

/-- The value of `clean` in `normalizeText` (tts.go 167): what the cleaning
loop has written. -/
def cleanedText (input : GoString) : GoString :=
  (runes (unifyAndTrim input)).foldl cleanStep []

/-! ## tts.go : the receive loop of ttsHandler -/

/-- `genai.Blob`, as far as the handler reads it: `Data`. -/
structure Blob where
  data : List Nat
  deriving DecidableEq, Repr

/-- `genai.Part`, as far as the handler reads it: `InlineData`, which may be
nil. -/
structure Part where
  inlineData : Option Blob
  deriving DecidableEq, Repr

/-- `genai.Content`: `Parts`. -/
structure Content where
  parts : List Part
  deriving DecidableEq, Repr

/-- `genai.LiveServerContent`: `ModelTurn` (may be nil), `TurnComplete`,
`GenerationComplete`. -/
structure LiveServerContent where
  modelTurn : Option Content
  turnComplete : Bool
  generationComplete : Bool
  deriving DecidableEq, Repr

/-- `genai.LiveServerMessage`: `ServerContent` (may be nil). -/
structure LiveServerMessage where
  serverContent : Option LiveServerContent
  deriving DecidableEq, Repr

/-- What one call of `session.Receive()` returns: a message, or an error with
its text. -/
abbrev ReceiveResult := Except GoString LiveServerMessage

/-- The loop over the parts of one message (tts.go 316-320): the data of every
part that has non-empty inline data is written to the buffer. -/
def writeParts (pcm : List Nat) (parts : List Part) : List Nat :=
  parts.foldl
    (fun pcm p =>
      match p.inlineData with
      | some blob => if blob.data.length > 0 then bufWrite pcm blob.data else pcm
      | none => pcm)
    pcm

/-- The body of the receive loop up to its exit test (tts.go 315-321). -/
def writeMessage (pcm : List Nat) (msg : LiveServerMessage) : List Nat :=
  match msg.serverContent with
  | some sc =>
    match sc.modelTurn with
    | some turn => writeParts pcm turn.parts
    | none => pcm
  | none => pcm

/-- The exit test of the receive loop (tts.go 323). -/
def isTerminal (msg : LiveServerMessage) : Bool :=
  match msg.serverContent with
  | some sc => sc.turnComplete || sc.generationComplete
  | none => false

/-- How the receive loop ends. -/
inductive LoopResult where
  /-- `break`: the buffer goes to the encoder -/
  | complete (pcm : List Nat)
  /-- `session.Receive()` returned an error -/
  | readFailed (err : GoString)
  /-- every result so far was read and none ended the loop: the handler is still
  blocked in `session.Receive()` -/
  | receiving (pcm : List Nat)
  deriving DecidableEq, Repr

/-- The receive loop (tts.go 307-326) over the results that successive calls of
`session.Receive()` return. -/
def receiveLoop : List ReceiveResult → List Nat → LoopResult
  | [], pcm => .receiving pcm
  | .error err :: _, _ => .readFailed err
  | .ok msg :: rest, pcm =>
    if isTerminal msg = true then .complete (writeMessage pcm msg)
    else receiveLoop rest (writeMessage pcm msg)

/-- An HTTP response: status, `Content-Type`, body. -/
structure Response where
  status : Nat
  contentType : GoString
  body : GoString
  deriving DecidableEq, Repr

/-- The bytes of an ASCII string literal. -/
def ascii (s : String) : GoString := s.toList.map Char.toNat

/-- `http.Error(w, msg, code)`: plain text, the message and a line feed. -/
def httpError (msg : GoString) (code : Nat) : Response :=
  { status := code, contentType := ascii "text/plain; charset=utf-8", body := msg ++ [0x0A] }

/-- The text of the one error `pcmToWav` could return. -/
def WavError.text : WavError → GoString
  | .writeFailed => ascii "write failed"

/-- The end of `ttsHandler` (tts.go 307-338), from the first `session.Receive()`
on: the response, or `none` while the handler is still receiving. -/
def receiveAndRespond (results : List ReceiveResult) : Option Response :=
  match receiveLoop results [] with
  | .receiving _ => none
  | .readFailed err => some (httpError (ascii "read failed: " ++ err) 502)
  | .complete pcm =>
    match pcmToWav pcm with
    | .error e => some (httpError (ascii "wav encode failed: " ++ e.text) 500)
    | .ok wav => some { status := 200, contentType := ascii "audio/wav", body := wav }

/-- The inline-data bytes of one message, in part order. -/
def messageAudio (msg : LiveServerMessage) : List Nat :=
  match msg.serverContent with
  | some sc =>
    match sc.modelTurn with
    | some turn =>
      turn.parts.flatMap (fun p => match p.inlineData with
        | some blob => blob.data
        | none => [])
    | none => []
  | none => []

/-! ## encoding/json

`json.Unmarshal` is read on parsed JSON values: the members of an object and
the elements of an array in document order.  A text that is not valid JSON
makes every `json.Unmarshal` fail and is not a value of `JSON`. -/

/-- A JSON value. -/
inductive JSON where
  | null
  | bool (b : Bool)
  | number (literal : GoString)
  | string (s : GoString)
  | array (elems : List JSON)
  | object (members : List (GoString × JSON))

/-- The error `json.Unmarshal` returns for a value of the wrong kind
(`*json.UnmarshalTypeError`).  The library records the first such error and
goes on decoding; every caller in this repository drops the decoded value when
the error is not nil, so the embedding stops at the first one. -/
inductive JSONError where
  | unmarshalType
  deriving DecidableEq, Repr

/-- `json.Unmarshal(v, &s)` for a Go string `s` that holds `cur`: a JSON string
is stored, `null` leaves `s` as it is and is no error, anything else is an
error. -/
def decodeString (cur : GoString) : JSON → Except JSONError GoString
  | .string s => .ok s
  | .null => .ok cur
  | _ => .error .unmarshalType

/-- The elements of an array decoded into the elements of a `[]string`: every
element is decoded as a string into a fresh element, so `null` gives "". -/
def decodeStringElems : List JSON → Except JSONError (List GoString)
  | [] => .ok []
  | e :: rest =>
    match decodeString [] e with
    | .error err => .error err
    | .ok s =>
      match decodeStringElems rest with
      | .error err => .error err
      | .ok ss => .ok (s :: ss)

/-- `json.Unmarshal(v, &arr)` for `arr []string`. -/
def decodeStringSlice : JSON → Except JSONError (List GoString)
  | .array elems => decodeStringElems elems
  | .null => .ok []
  | _ => .error .unmarshalType

/-- `json.Unmarshal(v, &arr)` for `arr []interface{}`: any array decodes; the
elements keep their kind. -/
def decodeAnySlice : JSON → Except JSONError (List JSON)
  | .array elems => .ok elems
  | .null => .ok []
  | _ => .error .unmarshalType

/-- `json.Unmarshal(body, &raw)` for `raw map[string]json.RawMessage`: the
members of an object, a later member replacing an earlier one of the same
key. -/
def decodeRawMap : JSON → Except JSONError (List (GoString × JSON))
  | .object members => .ok members
  | .null => .ok []
  | _ => .error .unmarshalType

/-- `raw[key]`: the last member with that key. -/
def rawGet (raw : List (GoString × JSON)) (key : GoString) : Option JSON :=
  (raw.reverse.find? (fun m => m.1 == key)).map Prod.snd

/-! ## tts.go : parseTTSRequest -/

/-- The `ttsReq` of config.go. -/
structure ttsReq where
  Text : GoString
  Voice : GoString
  Lang : GoString
  deriving DecidableEq, Repr

/-- The errors of `parseTTSRequest`. -/
inductive RequestError where
  /-- the body could not be read or is not a JSON object -/
  | invalidBody
  /-- "text is required" -/
  | textRequired
  /-- "text array must contain strings only" -/
  | textArrayNotStrings
  /-- "invalid text format" -/
  | invalidTextFormat
  deriving DecidableEq, Repr

/-- `_ = json.Unmarshal(v, &out.Voice)`: the error is dropped, and a value that
is not a string leaves the field empty. -/
def decodeOptionalString (v : Option JSON) : GoString :=
  match v with
  | some j =>
    match decodeString [] j with
    | .ok s => s
    | .error _ => []
  | none => []

/-- The loop over `arrAny` (tts.go 132-139). -/
def collectStrings : List JSON → Except RequestError (List GoString)
  | [] => .ok []
  | .string s :: rest =>
    match collectStrings rest with
    | .ok parts => .ok (s :: parts)
    | .error e => .error e
  | _ :: _ => .error .textArrayNotStrings

/-- `parseTTSRequest` of tts.go on the body of the request: `none` when the
body cannot be read or is not valid JSON. -/
def parseTTSRequest (body : Option JSON) : Except RequestError ttsReq :=
  match body with
  | none => .error .invalidBody
  | some data =>
    match decodeRawMap data with
    | .error _ => .error .invalidBody
    | .ok raw =>
      let voice := decodeOptionalString (rawGet raw (ascii "voice"))
      let lang := decodeOptionalString (rawGet raw (ascii "lang"))
      match rawGet raw (ascii "text") with
      | none => .error .textRequired
      | some textRaw =>
        match decodeString [] textRaw with
        | .ok text => .ok { Text := text, Voice := voice, Lang := lang }
        | .error _ =>
          match decodeStringSlice textRaw with
          | .ok arr => .ok { Text := join [0x0A] arr, Voice := voice, Lang := lang }
          | .error _ =>
            match decodeAnySlice textRaw with
            | .ok arrAny =>
              match collectStrings arrAny with
              | .ok parts => .ok { Text := join [0x0A] parts, Voice := voice, Lang := lang }
              | .error e => .error e
            | .error _ => .error .invalidTextFormat

/-- A JSON string. -/
def JSON.isString : JSON → Bool
  | .string _ => true
  | _ => false

/-- JSON `null`. -/
def JSON.isNull : JSON → Bool
  | .null => true
  | _ => false

/-- What a `[]string` element holds after a JSON string or `null` was decoded
into it. -/
def JSON.stringOrEmpty : JSON → GoString
  | .string s => s
  | _ => []

/-! ## The Go runtime and library, taken as given -/

/-- A `time.Time`. -/
abbrev Time := Int

/-- What the embedding takes from the Go runtime and library without modelling
it. -/
structure GoEnv where
  /-- `unicode.To(unicode.LowerCase, r)`, the lower-case table, which
  `unicode.ToLower` consults for a rune above `unicode.MaxASCII` -/
  lowerTable : Nat → Nat
  /-- the order in which a `range` loop visits the entries of a map, given as a
  function of the entries; Go leaves the order unspecified -/
  rangeOrder : List (GoString × GoString) → List (GoString × GoString)
  /-- `time.Parse(time.RFC3339, value)`: the time, or `none` for an error -/
  parseRFC3339 : GoString → Option Time

/-- `unicode.ToLower`. -/
def unicodeToLower (env : GoEnv) (r : Nat) : Nat :=
  if r ≤ 0x7F then (if 0x41 ≤ r ∧ r ≤ 0x5A then r + 32 else r)
  else env.lowerTable r

/-- `strings.ToLower`: a string of ASCII bytes is lower-cased byte by byte,
any other string goes through `strings.Map(unicode.ToLower, s)`, which also
turns every invalid byte into U+FFFD. -/
def toLower (env : GoEnv) (s : GoString) : GoString :=
  if s.all (fun b => decide (b < 0x80)) = true then
    s.map (fun c => if 0x41 ≤ c ∧ c ≤ 0x5A then c + 32 else c)
  else (runes s).flatMap (fun r => encodeRune (unicodeToLower env r))

/-! ## Go maps -/

/-- A `map[string]string`: its entries, no key twice.  The order of the list is
not an order of the map; `range` visits the entries in the order
`GoEnv.rangeOrder` gives. -/
abbrev GoMap := List (GoString × GoString)

/-- `m[key]`, with whether the key is present. -/
def mapGet : GoMap → GoString → Option GoString
  | [], _ => none
  | (k, v) :: rest, key => if k = key then some v else mapGet rest key

/-- `m[key] = value`. -/
def mapSet : GoMap → GoString → GoString → GoMap
  | [], key, value => [(key, value)]
  | (k, v) :: rest, key, value =>
    if k = key then (key, value) :: rest else (k, v) :: mapSet rest key value

/-! ## encoding/json : decoding into the types of config.go -/

/-- The fold of a rune as far as it matters for a name of ASCII letters and
underscores: letters fold to upper case, and so do the Kelvin sign U+212A (to
K) and the long s U+017F (to S), the only other runes that fold to an ASCII
letter. -/
def foldRune (r : Nat) : Nat :=
  if 0x61 ≤ r ∧ r ≤ 0x7A then r - 32
  else if r = 0x212A then 0x4B
  else if r = 0x17F then 0x53
  else r

/-- Whether the key of a member selects the struct field of the given (ASCII)
name: the library takes an exact match and otherwise a match ignoring case.
No two fields of one struct of config.go match the same key. -/
def nameMatches (key field : GoString) : Bool :=
  decide ((runes key).map foldRune = (runes field).map foldRune)

/-- The `voiceItem` of config.go. -/
structure voiceItem where
  Name : GoString
  Description : GoString
  deriving DecidableEq, Repr

/-- The `voicesEnvelope` of config.go. -/
structure voicesEnvelope where
  GeneratedAt : GoString
  Voices : List voiceItem
  deriving DecidableEq, Repr

/-- The `voicesMapEnvelope` of config.go. -/
structure voicesMapEnvelope where
  GeneratedAt : GoString
  Voices : GoMap
  deriving DecidableEq, Repr

/-- The members of an object decoded into a `voiceItem`, in order. -/
def decodeVoiceItemMembers : voiceItem → List (GoString × JSON) → Except JSONError voiceItem
  | item, [] => .ok item
  | item, (key, v) :: rest =>
    if nameMatches key (ascii "name") = true then
      match decodeString item.Name v with
      | .error e => .error e
      | .ok s => decodeVoiceItemMembers { item with Name := s } rest
    else if nameMatches key (ascii "description") = true then
      match decodeString item.Description v with
      | .error e => .error e
      | .ok s => decodeVoiceItemMembers { item with Description := s } rest
    else decodeVoiceItemMembers item rest

/-- A JSON value decoded into a `voiceItem` that holds `cur`. -/
def decodeVoiceItem (cur : voiceItem) : JSON → Except JSONError voiceItem
  | .object members => decodeVoiceItemMembers cur members
  | .null => .ok cur
  | _ => .error .unmarshalType

/-- The elements of an array decoded into the elements of a `[]voiceItem` whose
backing array holds `store`: the element with index `i` is decoded into what
the backing array holds at `i` (what an earlier value of the same member left
there), and into a fresh element behind the end of `store`. -/
def decodeVoiceItemElems : List voiceItem → List JSON → Except JSONError (List voiceItem)
  | _, [] => .ok []
  | store, e :: rest =>
    match decodeVoiceItem (store.headD { Name := [], Description := [] }) e with
    | .error err => .error err
    | .ok item =>
      match decodeVoiceItemElems store.tail rest with
      | .error err => .error err
      | .ok items => .ok (item :: items)

/-- A JSON value decoded into a `[]voiceItem` whose backing array holds `store`:
the slice, and what the backing array holds behind the end of the slice.  The
library does not clear the slice first: it decodes into the elements that are
there, cuts the slice to the number of elements of the array, and gives a new
empty slice for an array without elements and for `null`. -/
def decodeVoiceItems (store : List voiceItem) :
    JSON → Except JSONError (List voiceItem × List voiceItem)
  | .array [] => .ok ([], [])
  | .array (e :: rest) =>
    match decodeVoiceItemElems store (e :: rest) with
    | .error err => .error err
    | .ok items => .ok (items, store.drop items.length)
  | .null => .ok ([], [])
  | _ => .error .unmarshalType

/-- `json.Unmarshal(data, &items)` for `var items []voiceItem`. -/
def unmarshalItems (data : JSON) : Except JSONError (List voiceItem) :=
  match decodeVoiceItems [] data with
  | .error err => .error err
  | .ok (items, _) => .ok items

/-- The members of an object decoded into a `map[string]string`, in order; the
value is decoded into a fresh string, so `null` gives "". -/
def decodeStringMapMembers : GoMap → List (GoString × JSON) → Except JSONError GoMap
  | m, [] => .ok m
  | m, (key, v) :: rest =>
    match decodeString [] v with
    | .error e => .error e
    | .ok s => decodeStringMapMembers (mapSet m key s) rest

/-- A JSON value decoded into a `map[string]string` that holds `cur`. -/
def decodeStringMap (cur : GoMap) : JSON → Except JSONError GoMap
  | .object members => decodeStringMapMembers cur members
  | .null => .ok []
  | _ => .error .unmarshalType

/-- The members of an object decoded into a `voicesEnvelope`; `spare` is what
the backing array of `Voices` holds behind the end of the slice. -/
def decodeEnvelopeMembers :
    voicesEnvelope → List voiceItem → List (GoString × JSON) → Except JSONError voicesEnvelope
  | env, _, [] => .ok env
  | env, spare, (key, v) :: rest =>
    if nameMatches key (ascii "generated_at") = true then
      match decodeString env.GeneratedAt v with
      | .error e => .error e
      | .ok s => decodeEnvelopeMembers { env with GeneratedAt := s } spare rest
    else if nameMatches key (ascii "voices") = true then
      match decodeVoiceItems (env.Voices ++ spare) v with
      | .error e => .error e
      | .ok (items, spare') => decodeEnvelopeMembers { env with Voices := items } spare' rest
    else decodeEnvelopeMembers env spare rest

/-- `json.Unmarshal(data, &env)` for `env voicesEnvelope`. -/
def unmarshalEnvelope : JSON → Except JSONError voicesEnvelope
  | .object members => decodeEnvelopeMembers { GeneratedAt := [], Voices := [] } [] members
  | .null => .ok { GeneratedAt := [], Voices := [] }
  | _ => .error .unmarshalType

/-- The members of an object decoded into a `voicesMapEnvelope`. -/
def decodeMapEnvelopeMembers :
    voicesMapEnvelope → List (GoString × JSON) → Except JSONError voicesMapEnvelope
  | env, [] => .ok env
  | env, (key, v) :: rest =>
    if nameMatches key (ascii "generated_at") = true then
      match decodeString env.GeneratedAt v with
      | .error e => .error e
      | .ok s => decodeMapEnvelopeMembers { env with GeneratedAt := s } rest
    else if nameMatches key (ascii "voices") = true then
      match decodeStringMap env.Voices v with
      | .error e => .error e
      | .ok m => decodeMapEnvelopeMembers { env with Voices := m } rest
    else decodeMapEnvelopeMembers env rest

/-- `json.Unmarshal(data, &envMap)` for `envMap voicesMapEnvelope`. -/
def unmarshalMapEnvelope : JSON → Except JSONError voicesMapEnvelope
  | .object members => decodeMapEnvelopeMembers { GeneratedAt := [], Voices := [] } members
  | .null => .ok { GeneratedAt := [], Voices := [] }
  | _ => .error .unmarshalType

/-- The members of an object decoded into the `wrapper` struct of
`parseVoicesJSONWithTimestamp`, whose one field is `Voices`. -/
def decodeWrapperMembers : GoMap → List (GoString × JSON) → Except JSONError GoMap
  | m, [] => .ok m
  | m, (key, v) :: rest =>
    if nameMatches key (ascii "voices") = true then
      match decodeStringMap m v with
      | .error e => .error e
      | .ok m' => decodeWrapperMembers m' rest
    else decodeWrapperMembers m rest

/-- `json.Unmarshal(data, &wrapper)`: the `Voices` of the wrapper. -/
def unmarshalWrapper : JSON → Except JSONError GoMap
  | .object members => decodeWrapperMembers [] members
  | .null => .ok []
  | _ => .error .unmarshalType

/-! ## voices.go -/

/-- The errors of the functions of voices.go that load a catalog. -/
inductive VoiceError where
  /-- "voices list is empty" -/
  | emptyList
  /-- "invalid voice entry: name=%q desc=%q" -/
  | invalidEntry (name desc : GoString)
  /-- "invalid voice item: name=%q desc=%q" -/
  | invalidItem (name desc : GoString)
  /-- "voices list is empty after normalization" -/
  | emptyAfterNormalization
  /-- "invalid generated_at: %w" -/
  | invalidGeneratedAt
  /-- "invalid voices json" -/
  | invalidVoicesJSON
  deriving DecidableEq, Repr

/-- The loop of `normalizeVoiceMap` (voices.go 58-65) over the entries in the
order `range` visits them. -/
def normalizeVoiceMapLoop (env : GoEnv) : GoMap → List (GoString × GoString) →
    Except VoiceError GoMap
  | out, [] => .ok out
  | out, (name, desc) :: rest =>
    let n := toLower env (trimSpace name)
    let d := trimSpace desc
    if n = [] ∨ d = [] then .error (.invalidEntry name desc)
    else normalizeVoiceMapLoop env (mapSet out n d) rest

/-- `normalizeVoiceMap` of voices.go. -/
def normalizeVoiceMap (env : GoEnv) (input : GoMap) : Except VoiceError GoMap :=
  if input.length = 0 then .error .emptyList
  else
    match normalizeVoiceMapLoop env [] (env.rangeOrder input) with
    | .error e => .error e
    | .ok out => if out.length = 0 then .error .emptyAfterNormalization else .ok out

/-- The loop of `normalizeVoiceItems` (voices.go 77-84). -/
def normalizeVoiceItemsLoop (env : GoEnv) : GoMap → List voiceItem → Except VoiceError GoMap
  | out, [] => .ok out
  | out, item :: rest =>
    let n := toLower env (trimSpace item.Name)
    let d := trimSpace item.Description
    if n = [] ∨ d = [] then .error (.invalidItem item.Name item.Description)
    else normalizeVoiceItemsLoop env (mapSet out n d) rest

/-- `normalizeVoiceItems` of voices.go. -/
def normalizeVoiceItems (env : GoEnv) (items : List voiceItem) : Except VoiceError GoMap :=
  if items.length = 0 then .error .emptyList
  else
    match normalizeVoiceItemsLoop env [] items with
    | .error e => .error e
    | .ok out => if out.length = 0 then .error .emptyAfterNormalization else .ok out

/-- `parseGeneratedAt` of voices.go: the time and whether there is one, as an
`Option`. -/
def parseGeneratedAt (env : GoEnv) (value : GoString) : Except VoiceError (Option Time) :=
  if trimSpace value = [] then .ok none
  else
    match env.parseRFC3339 value with
    | none => .error .invalidGeneratedAt
    | some ts => .ok (some ts)

/-- The body of `parseVoicesJSONWithTimestamp`, on what its five calls of
`json.Unmarshal` return. -/
def parseVoicesFrom (env : GoEnv)
    (asEnvelope : Except JSONError voicesEnvelope)
    (asMapEnvelope : Except JSONError voicesMapEnvelope)
    (asItems : Except JSONError (List voiceItem))
    (asMap : Except JSONError GoMap)
    (asWrapper : Except JSONError GoMap) : Except VoiceError (GoMap × Option Time) :=
  match asEnvelope with
  | .ok e =>
    if e.Voices.length > 0 then
      match normalizeVoiceItems env e.Voices with
      | .error err => .error err
      | .ok voices =>
        match parseGeneratedAt env e.GeneratedAt with
        | .error err => .error err
        | .ok ts => .ok (voices, ts)
    else parseVoicesFrom2 asMapEnvelope
  | .error _ => parseVoicesFrom2 asMapEnvelope
where
  parseVoicesFrom2 (asMapEnvelope : Except JSONError voicesMapEnvelope) :=
    match asMapEnvelope with
    | .ok e =>
      if e.Voices.length > 0 then
        match normalizeVoiceMap env e.Voices with
        | .error err => .error err
        | .ok voices =>
          match parseGeneratedAt env e.GeneratedAt with
          | .error err => .error err
          | .ok ts => .ok (voices, ts)
      else parseVoicesFrom3
    | .error _ => parseVoicesFrom3
  parseVoicesFrom3 :=
    match asItems with
    | .ok items =>
      if items.length > 0 then
        match normalizeVoiceItems env items with
        | .error err => .error err
        | .ok voices => .ok (voices, none)
      else parseVoicesFrom4
    | .error _ => parseVoicesFrom4
  parseVoicesFrom4 :=
    match asMap with
    | .ok m =>
      if m.length > 0 then
        match normalizeVoiceMap env m with
        | .error err => .error err
        | .ok voices => .ok (voices, none)
      else parseVoicesFrom5
    | .error _ => parseVoicesFrom5
  parseVoicesFrom5 :=
    match asWrapper with
    | .ok m =>
      if m.length > 0 then
        match normalizeVoiceMap env m with
        | .error err => .error err
        | .ok voices => .ok (voices, none)
      else .error .invalidVoicesJSON
    | .error _ => .error .invalidVoicesJSON

/-- `parseVoicesJSONWithTimestamp` of voices.go on data that is valid JSON. -/
def parseVoicesJSONWithTimestamp (env : GoEnv) (data : JSON) :
    Except VoiceError (GoMap × Option Time) :=
  parseVoicesFrom env (unmarshalEnvelope data) (unmarshalMapEnvelope data)
    (unmarshalItems data) (decodeStringMap [] data) (unmarshalWrapper data)

/-- What the catalog invariant asks of an entry: the key is not empty and is
its own trimmed, lower-cased form, the value is not empty and is its own
trimmed form. -/
def EntryNormal (env : GoEnv) (kv : GoString × GoString) : Prop :=
  kv.1 ≠ [] ∧ toLower env (trimSpace kv.1) = kv.1 ∧ kv.2 ≠ [] ∧ trimSpace kv.2 = kv.2

/-- The catalog invariant: the map is not empty and every entry is normal. -/
def CatalogInvariant (env : GoEnv) (m : GoMap) : Prop :=
  m ≠ [] ∧ ∀ kv ∈ m, EntryNormal env kv

/-- The facts about `unicode.ToLower` that the proofs use: lower-casing a
lower-cased rune changes nothing, no rune becomes white space by lower-casing,
and a Unicode scalar value stays one.  For ASCII they hold by the definition
of `unicodeToLower`; for the other runes they are facts about the lower-case
table of the `unicode` package. -/
structure LowerCaseLaws (env : GoEnv) : Prop where
  idempotent : ∀ r, unicodeToLower env (unicodeToLower env r) = unicodeToLower env r
  notSpace : ∀ r, isSpace (unicodeToLower env r) = true → isSpace r = true
  valid : ∀ r, validRune r → validRune (unicodeToLower env r)

/-- An environment whose lower-case table leaves every rune above ASCII alone,
whose `range` visits the entries of a map last to first, and that parses no
timestamp but "2026-01-01T00:00:00Z". -/
def sampleEnv : GoEnv where
  lowerTable := fun r => r
  rangeOrder := fun m => m.reverse
  parseRFC3339 := fun v => if v = ascii "2026-01-01T00:00:00Z" then some 1767225600 else none

/-! ## The four shapes of a catalog file -/

/-- `{"name": ..., "description": ...}` for one name/description pair. -/
def itemObject (p : GoString × GoString) : JSON :=
  .object [(ascii "name", .string p.1), (ascii "description", .string p.2)]

/-- An object that maps each name to its description. -/
def mapObject (pairs : List (GoString × GoString)) : JSON :=
  .object (pairs.map (fun p => (p.1, JSON.string p.2)))

/-- The `generated_at` member of an envelope, when there is one. -/
def generatedAtMember (generatedAt : Option GoString) : List (GoString × JSON) :=
  match generatedAt with
  | none => []
  | some v => [(ascii "generated_at", .string v)]

/-- Shape (a): an envelope with a `voices` array of objects. -/
def shapeEnvelopeArray (generatedAt : Option GoString) (pairs : List (GoString × GoString)) :
    JSON :=
  .object (generatedAtMember generatedAt ++ [(ascii "voices", .array (pairs.map itemObject))])

/-- Shape (b): an envelope with a `voices` object. -/
def shapeEnvelopeMap (generatedAt : Option GoString) (pairs : List (GoString × GoString)) :
    JSON :=
  .object (generatedAtMember generatedAt ++ [(ascii "voices", mapObject pairs)])

/-- Shape (c): a bare array of objects. -/
def shapeArray (pairs : List (GoString × GoString)) : JSON := .array (pairs.map itemObject)

/-- Shape (d): a bare object that maps each name to its description. -/
def shapeMap (pairs : List (GoString × GoString)) : JSON := mapObject pairs

/-- Two results of a load carry the same catalog: both are catalogs with the
same value under every key, or both are errors. -/
def SameCatalog (r1 r2 : Except VoiceError (GoMap × Option Time)) : Prop :=
  match r1, r2 with
  | .ok (m1, _), .ok (m2, _) => ∀ key, mapGet m1 key = mapGet m2 key
  | .error _, .error _ => True
  | _, _ => False

/-- The name a pair gets in the catalog: trimmed and lower-cased. -/
def normalName (env : GoEnv) (p : GoString × GoString) : GoString :=
  toLower env (trimSpace p.1)

/-- The `voiceItem` a name/description pair decodes to. -/
def toItem (p : GoString × GoString) : voiceItem := { Name := p.1, Description := p.2 }

/-- The entry a pair gets in the catalog. -/
def normalEntry (env : GoEnv) (p : GoString × GoString) : GoString × GoString :=
  (normalName env p, trimSpace p.2)

/-- The map after the entries have been assigned one after the other. -/
def assignAll (m : GoMap) (entries : List (GoString × GoString)) : GoMap :=
  entries.foldl (fun m e => mapSet m e.1 e.2) m

/-! ## sort.Strings -/

/-- `a < b` on Go strings: the bytes are compared in order, and a proper prefix
is smaller. -/
def stringLess : GoString → GoString → Bool
  | [], [] => false
  | [], _ :: _ => true
  | _ :: _, [] => false
  | a :: as, b :: bs => if a < b then true else if b < a then false else stringLess as bs

/-- `a <= b` on Go strings, that is `!(b < a)`. -/
def stringLE (a b : GoString) : Prop := stringLess b a = false

instance : DecidableRel stringLE := fun a b =>
  inferInstanceAs (Decidable (stringLess b a = false))

/-- `sort.Strings(names)`: the same strings in ascending order.  Equal strings
cannot be told apart, so the result does not depend on how the library sorts;
here it is insertion sort. -/
def sortStrings (names : List GoString) : List GoString := names.insertionSort stringLE

/-! ## voices.go : the listings -/

/-- `m[key]` where only the value is read: "" for a key that is not present. -/
def mapIndex (m : GoMap) (key : GoString) : GoString := (mapGet m key).getD []

/-- `getSupportedVoiceNames` of voices.go, on the value of the global
`supportedVoices`; a nil map has no entries, and the nil slice returned for it
is the slice without elements. -/
def getSupportedVoiceNames (env : GoEnv) (supportedVoices : GoMap) : List GoString :=
  sortStrings ((env.rangeOrder supportedVoices).map Prod.fst)

/-- `voicesHandler` of voices.go: the `list` it hands to the JSON encoder
(voices.go 20-27). -/
def voicesHandler (env : GoEnv) (supportedVoices : GoMap) : List voiceItem :=
  (getSupportedVoiceNames env supportedVoices).map
    (fun name => { Name := name, Description := mapIndex supportedVoices name })

/-- The `list` of `writeVoicesFile` (voices.go 165-176). -/
def writeVoicesList (env : GoEnv) (voices : GoMap) : List voiceItem :=
  let names := sortStrings ((env.rangeOrder voices).map Prod.fst)
  names.map (fun name => { Name := name, Description := mapIndex voices name })

/-- What a reader of a text written by `json.Marshal` decodes for the string
`s`: the encoder writes every byte that is not part of a valid UTF-8 encoding
as the escape of U+FFFD, and every rune, escaped or not, reads back as
itself. -/
def marshalString (s : GoString) : GoString := encodeAll (runes s)

/-- The JSON value `json.Marshal` writes for a `voiceItem`. -/
def marshalVoiceItem (item : voiceItem) : JSON :=
  .object [(ascii "name", .string (marshalString item.Name)),
    (ascii "description", .string (marshalString item.Description))]

/-- The JSON value `json.MarshalIndent` writes for a `voicesEnvelope` whose
`Voices` is not nil. -/
def marshalEnvelope (file : voicesEnvelope) : JSON :=
  .object [(ascii "generated_at", .string (marshalString file.GeneratedAt)),
    (ascii "voices", .array (file.Voices.map marshalVoiceItem))]

/-- `writeVoicesFile` of voices.go: the JSON value of the data it hands to
`os.WriteFile`, when `os.MkdirAll` did not fail.  `now` is the text
`time.Now().UTC().Format(time.RFC3339)` gave.  The layout of the text (the
indentation and the final line feed) is not part of the value. -/
def writeVoicesFile (env : GoEnv) (now : GoString) (voices : GoMap) : Except VoiceError JSON :=
  if voices.length = 0 then .error .emptyList
  else
    let list := writeVoicesList env voices
    let file : voicesEnvelope := { GeneratedAt := now, Voices := list }
    .ok (marshalEnvelope file)

/-! ## tts.go : getRequestAPIKey and the start of ttsHandler -/

/-- An `*http.Request`, as far as `ttsHandler` reads it. -/
structure Request where
  /-- `r.Method` -/
  method : GoString
  /-- `r.Header.Get(key)`: the first value of the header, "" when there is none -/
  header : GoString → GoString
  /-- the JSON value of the body; `none` for a body that cannot be read or is not
  valid JSON -/
  body : Option JSON

/-- `strings.EqualFold(s, t)` for a `t` of ASCII bytes: the runes of both are
compared under simple case folding, and besides the letter in the other case
only U+212A and U+017F fold to an ASCII letter. -/
def equalFold (s t : GoString) : Bool :=
  decide ((runes s).map foldRune = (runes t).map foldRune)

/-- `getRequestAPIKey` of tts.go. -/
def getRequestAPIKey (r : Option Request) : GoString :=
  match r with
  | none => []
  | some r =>
    let v := trimSpace (r.header (ascii "X-Gemini-Api-Key"))
    if v ≠ [] then v
    else
      let v := trimSpace (r.header (ascii "X-API-Key"))
      if v ≠ [] then v
      else
        let auth := trimSpace (r.header (ascii "Authorization"))
        if auth.length ≥ 7 ∧ equalFold (auth.take 7) (ascii "Bearer ") = true then
          trimSpace (auth.drop 7)
        else []

/-- `fmt.Sprintf("%d", n)`. -/
def decimal (n : Nat) : GoString := ascii (toString n)

/-- `err.Error()` for the errors of `normalizeText`. -/
def TextError.text : TextError → GoString
  | .empty => ascii "text is empty"
  | .emptyAfterCleaning => ascii "text is empty after cleaning"
  | .emptyAfterNormalization => ascii "text is empty after normalization"
  | .tooLong len max => ascii "text too long: " ++ decimal len ++ ascii " > " ++ decimal max

/-- `fmt.Sprintf("%v", names)` for a `[]string`. -/
def formatStrings (names : List GoString) : GoString :=
  ascii "[" ++ join (ascii " ") names ++ ascii "]"

/-- The credential block of `ttsHandler` (tts.go 236-243): the key the handler
goes on with, or `none` when it answers 401.  `getenvKey` is
`os.Getenv("GEMINI_API_KEY")`. -/
def resolveAPIKey (r : Request) (getenvKey : GoString) : Option GoString :=
  let apiKey := getRequestAPIKey (some r)
  if apiKey = [] then
    let apiKey := trimSpace getenvKey
    if apiKey = [] ∨ apiKey = ascii "your_api_key_here" then none
    else some apiKey
  else some apiKey

/-- How far `ttsHandler` gets before it turns to the provider. -/
inductive Handled where
  /-- the handler has written this response and returned; `genai.NewClient`
  was not called -/
  | responded (resp : Response)
  /-- the handler calls `genai.NewClient` (tts.go 248) with this key, and goes on
  with this request -/
  | upstream (apiKey : GoString) (req : ttsReq)
  deriving DecidableEq, Repr

/-- `ttsHandler` of tts.go up to the call of `genai.NewClient` (tts.go
198-248), on the request, the value of the global `supportedVoices` and the
value of `os.Getenv("GEMINI_API_KEY")`. -/
def ttsHandler (env : GoEnv) (supportedVoices : GoMap) (getenvKey : GoString) (r : Request) :
    Handled :=
  if r.method = ascii "OPTIONS" then
    .responded { status := 204, contentType := [], body := [] }
  else if r.method ≠ ascii "POST" then
    .responded (httpError (ascii "POST only") 405)
  else
    match parseTTSRequest r.body with
    | .error _ => .responded (httpError (ascii "invalid json") 400)
    | .ok req =>
      match normalizeText req.Text with
      | .error err => .responded (httpError err.text 400)
      | .ok normalized =>
        let req := { req with Text := normalized }
        if req.Voice ≠ [] then
          let req := { req with Voice := toLower env req.Voice }
          if mapGet supportedVoices req.Voice = none then
            .responded (httpError
              (ascii "unsupported voice: " ++ req.Voice ++ ascii ", supported voices: "
                ++ formatStrings (getSupportedVoiceNames env supportedVoices)) 400)
          else credentials req
        else credentials req
where
  credentials (req : ttsReq) : Handled :=
    match resolveAPIKey r getenvKey with
    | none => .responded (httpError (ascii "missing api key") 401)
    | some apiKey => .upstream apiKey req

/-! ## Auxiliary definitions for the later theorems -/

/-- An ASCII letter in lower case; any other byte as it is. -/
def lowerASCII (c : Nat) : Nat := if 0x41 ≤ c ∧ c ≤ 0x5A then c + 32 else c

/-- The token of an `Authorization` header, as the specification words it: what
follows a "Bearer " prefix, in any letter case, of the trimmed value; "" when
the value has no such prefix. -/
def bearerToken (auth : GoString) : GoString :=
  if ((trimSpace auth).take 7).map lowerASCII = ascii "bearer " then
    trimSpace ((trimSpace auth).drop 7)
  else []

/-- What is taken for granted of the text `now` that
`time.Now().UTC().Format(time.RFC3339)` gives: it is ASCII, not blank, and
`time.Parse(time.RFC3339, now)` reads it back as the time `t`. -/
structure TimestampLaws (env : GoEnv) (now : GoString) (t : Time) : Prop where
  isASCII : ∀ b ∈ now, b < 0x80
  notBlank : trimSpace now ≠ []
  parses : env.parseRFC3339 now = some t

/-- A request with the given method, body and headers; the headers are given as
name/value pairs, and a name not among them has no value. -/
def mkRequest (method : GoString) (headers : List (GoString × GoString)) (body : Option JSON) :
    Request :=
  { method := method, header := fun key => mapIndex headers key, body := body }

/-- Persisting a catalog and loading it again: `writeVoicesFile`, then
`parseVoicesJSONWithTimestamp` on the data that was written, as
`loadVoicesFromFile` hands it the content of the file. -/
def writeThenLoad (env : GoEnv) (now : GoString) (voices : GoMap) :
    Except VoiceError (GoMap × Option Time) :=
  match writeVoicesFile env now voices with
  | .error e => .error e
  | .ok data => parseVoicesJSONWithTimestamp env data

/-! # Theorems -/

/-! ## pcmToWav -/

/-- The container is the 44-byte header followed by the payload. -/
theorem pcmToWav_eq (pcm : List Nat) :
    pcmToWav pcm = .ok
      ([0x52, 0x49, 0x46, 0x46,
        (36 + pcm.length % 4294967296) % 4294967296 % 4294967296 % 256,
        (36 + pcm.length % 4294967296) % 4294967296 % 4294967296 / 256 % 256,
        (36 + pcm.length % 4294967296) % 4294967296 % 4294967296 / 65536 % 256,
        (36 + pcm.length % 4294967296) % 4294967296 % 4294967296 / 16777216 % 256,
        0x57, 0x41, 0x56, 0x45, 0x66, 0x6D, 0x74, 0x20,
        16, 0, 0, 0, 1, 0, 1, 0, 0xC0, 0x5D, 0, 0, 0x80, 0xBB, 0, 0, 2, 0, 16, 0,
        0x64, 0x61, 0x74, 0x61,
        pcm.length % 4294967296 % 256,
        pcm.length % 4294967296 / 256 % 256,
        pcm.length % 4294967296 / 65536 % 256,
        pcm.length % 4294967296 / 16777216 % 256] ++ pcm) := by
  simp [pcmToWav, binaryWriteUint32, binaryWriteUint16, bufWrite, tagRIFF, tagWAVE, tagFmt,
    tagData, sampleRateHz, channels, bitsPerSample, bind, Except.bind, pure, Except.pure]

/-- C2: for every PCM byte sequence, `pcmToWav` returns no error and a container
of exactly `44 + len(pcm)` bytes laid out as "RIFF", (size), "WAVE", "fmt ",
fmt size 16, format tag 1, one channel, 24000 Hz, byte rate 48000, block
align 2, 16 bits per sample, "data", (size), and then the payload verbatim
from offset 44 to the end. -/
theorem pcmToWav_layout (pcm : List Nat) :
    ∃ wav, pcmToWav pcm = .ok wav ∧ wav.length = 44 + pcm.length
      ∧ byteSlice wav 0 4 = [0x52, 0x49, 0x46, 0x46]
      ∧ byteSlice wav 8 12 = [0x57, 0x41, 0x56, 0x45]
      ∧ byteSlice wav 12 16 = [0x66, 0x6D, 0x74, 0x20]
      ∧ readUint32LE wav 16 = 16
      ∧ readUint16LE wav 20 = 1
      ∧ readUint16LE wav 22 = channels ∧ channels = 1
      ∧ readUint32LE wav 24 = sampleRateHz ∧ sampleRateHz = 24000
      ∧ readUint32LE wav 28 = 48000
      ∧ readUint16LE wav 32 = 2
      ∧ readUint16LE wav 34 = bitsPerSample ∧ bitsPerSample = 16
      ∧ byteSlice wav 36 40 = [0x64, 0x61, 0x74, 0x61]
      ∧ wav.drop 44 = pcm
      ∧ byteSlice wav 44 wav.length = pcm := by
  refine ⟨_, pcmToWav_eq pcm, ?_⟩
  simp [byteSlice, readUint32LE, readUint16LE, channels, sampleRateHz, bitsPerSample]
  omega

/-- The two length fields hold the payload length reduced to 32 bits: offset 40
holds `len(pcm) mod 2^32` and offset 4 holds `(36 + len(pcm) mod 2^32) mod 2^32`. -/
theorem pcmToWav_length_fields (pcm : List Nat) :
    ∃ wav, pcmToWav pcm = .ok wav
      ∧ readUint32LE wav 4 = (36 + pcm.length % 4294967296) % 4294967296
      ∧ readUint32LE wav 40 = pcm.length % 4294967296 := by
  refine ⟨_, pcmToWav_eq pcm, ?_⟩
  simp [readUint32LE]
  omega

/-- C3 (as amended): whenever `36 + len(pcm)` fits in 32 bits, the field at offset 4
is `36 + len(pcm)` and the field at offset 40 is `len(pcm)`. -/
theorem pcmToWav_declared_lengths (pcm : List Nat) (h : 36 + pcm.length < 4294967296) :
    ∃ wav, pcmToWav pcm = .ok wav
      ∧ readUint32LE wav 4 = 36 + pcm.length
      ∧ readUint32LE wav 40 = pcm.length := by
  obtain ⟨wav, hw, h4, h40⟩ := pcmToWav_length_fields pcm
  refine ⟨wav, hw, ?_, ?_⟩
  · rw [h4]; omega
  · rw [h40]; omega

/-- C3 witness: a three-byte payload. -/
theorem pcmToWav_declared_lengths_witness :
    36 + [1, 2, 3].length < 4294967296 ∧
    ∃ wav, pcmToWav [1, 2, 3] = .ok wav
      ∧ readUint32LE wav 4 = 36 + [1, 2, 3].length
      ∧ readUint32LE wav 40 = [1, 2, 3].length :=
  ⟨by decide, pcmToWav_declared_lengths [1, 2, 3] (by decide)⟩

/-- C3 counterexample: for a payload of `2^32 - 36` zero bytes the field at
offset 4 reads 0, while `36 + len(pcm)` is `2^32`. -/
theorem pcmToWav_declared_lengths_overflow :
    ∃ wav, pcmToWav (List.replicate 4294967260 0) = .ok wav
      ∧ readUint32LE wav 4 = 0
      ∧ 36 + (List.replicate 4294967260 0).length = 4294967296
      ∧ readUint32LE wav 4 ≠ 36 + (List.replicate 4294967260 0).length := by
  obtain ⟨wav, hw, h4, -⟩ := pcmToWav_length_fields (List.replicate 4294967260 0)
  rw [List.length_replicate] at h4
  refine ⟨wav, hw, ?_, ?_, ?_⟩
  · rw [h4]
  · rw [List.length_replicate]
  · rw [h4, List.length_replicate]; decide

/-! ## UTF-8: decoding and encoding -/

theorem decodeRune_encodeRune (r : Nat) (q : List Nat) (h : validRune r) :
    decodeRune (encodeRune r ++ q) = (r, (encodeRune r).length) := by
  unfold validRune at h
  unfold encodeRune
  split_ifs with h1 h2 h3 h4
  · simp [decodeRune]; omega
  · simp only [List.cons_append, List.nil_append, decodeRune, isCont]
    rw [if_neg (by omega), if_pos (by omega), if_pos ⟨by simp; omega, by omega⟩]
    simp; omega
  · simp only [List.cons_append, List.nil_append, decodeRune, isCont]
    rw [if_neg (by omega), if_neg (by omega), if_pos (by omega), if_pos ⟨by simp; omega, by simp; omega, by omega, by omega⟩]
    simp; omega
  · simp only [List.cons_append, List.nil_append, decodeRune, isCont]
    rw [if_neg (by omega), if_neg (by omega), if_neg (by omega), if_pos (by omega), if_pos ⟨by simp; omega, by simp; omega, by simp; omega, by omega, by omega⟩]
    simp; omega
  · omega

theorem decodeRune_cases' (s : List Nat) (hs : s ≠ []) :
    ∃ r w, decodeRune s = (r, w) ∧ ((r = runeError ∧ w = 1) ∨
      (validRune r ∧ s.take w = encodeRune r ∧ w = (encodeRune r).length)) := by
  rcases s with _ | ⟨b0, rest⟩
  · exact absurd rfl hs
  simp only [decodeRune]
  split_ifs with h1 h2 h3 h4
  · refine ⟨_, _, rfl, Or.inr ?_⟩
    refine ⟨by simp [validRune]; omega, ?_, ?_⟩
    · rw [encodeRune, if_pos (by omega)]; rfl
    · rw [encodeRune, if_pos (by omega)]; rfl
  · rcases rest with _ | ⟨b1, rest⟩
    · exact ⟨_, _, rfl, Or.inl ⟨rfl, rfl⟩⟩
    · simp only
      split_ifs with h
      · refine ⟨_, _, rfl, Or.inr ?_⟩
        simp only [isCont, decide_eq_true_eq] at h
        refine ⟨by simp [validRune]; omega, ?_, ?_⟩
        · simp [encodeRune]; rw [if_neg (by omega), if_pos (by omega)]; simp; omega
        · simp [encodeRune]; rw [if_neg (by omega), if_pos (by omega)]; simp
      · exact ⟨_, _, rfl, Or.inl ⟨rfl, rfl⟩⟩
  · rcases rest with _ | ⟨b1, _ | ⟨b2, rest⟩⟩
    · exact ⟨_, _, rfl, Or.inl ⟨rfl, rfl⟩⟩
    · exact ⟨_, _, rfl, Or.inl ⟨rfl, rfl⟩⟩
    · simp only
      split_ifs with h
      · refine ⟨_, _, rfl, Or.inr ?_⟩
        simp only [isCont, decide_eq_true_eq] at h
        refine ⟨by simp [validRune]; omega, ?_, ?_⟩
        · simp [encodeRune]; rw [if_neg (by omega), if_neg (by omega), if_pos (by omega)]; simp; omega
        · simp [encodeRune]; rw [if_neg (by omega), if_neg (by omega), if_pos (by omega)]; simp
      · exact ⟨_, _, rfl, Or.inl ⟨rfl, rfl⟩⟩
  · rcases rest with _ | ⟨b1, _ | ⟨b2, _ | ⟨b3, rest⟩⟩⟩
    · exact ⟨_, _, rfl, Or.inl ⟨rfl, rfl⟩⟩
    · exact ⟨_, _, rfl, Or.inl ⟨rfl, rfl⟩⟩
    · exact ⟨_, _, rfl, Or.inl ⟨rfl, rfl⟩⟩
    · simp only
      split_ifs with h
      · refine ⟨_, _, rfl, Or.inr ?_⟩
        simp only [isCont, decide_eq_true_eq] at h
        refine ⟨by simp [validRune]; omega, ?_, ?_⟩
        · simp [encodeRune]; rw [if_neg (by omega), if_neg (by omega), if_neg (by omega), if_pos (by omega)]; simp; omega
        · simp [encodeRune]; rw [if_neg (by omega), if_neg (by omega), if_neg (by omega), if_pos (by omega)]; simp
      · exact ⟨_, _, rfl, Or.inl ⟨rfl, rfl⟩⟩
  · exact ⟨_, _, rfl, Or.inl ⟨rfl, rfl⟩⟩


theorem decodeRune_width_pos (s : List Nat) : 1 ≤ (decodeRune s).2 := by
  rcases s with _ | ⟨b0, rest⟩
  · simp [decodeRune]
  · obtain ⟨r, w, h, h'⟩ := decodeRune_cases' (b0 :: rest) (by simp)
    rw [h]
    rcases h' with ⟨-, rfl⟩ | ⟨-, -, h3⟩
    · exact le_refl _
    · rw [h3]; unfold encodeRune; split_ifs <;> simp

theorem encodeRune_ne_nil (r : Nat) : encodeRune r ≠ [] := by
  unfold encodeRune; split_ifs <;> simp

theorem unitsAux_fuel : ∀ (n m : Nat) (s : List Nat), s.length ≤ n → s.length ≤ m →
    unitsAux n s = unitsAux m s := by
  intro n
  induction n with
  | zero =>
    intro m s h1 _
    have : s = [] := List.length_eq_zero.mp (Nat.le_zero.mp h1)
    subst this
    cases m <;> simp [unitsAux]
  | succ n ih =>
    intro m s h1 h2
    rcases s with _ | ⟨b, rest⟩
    · cases m <;> simp [unitsAux]
    · cases m with
      | zero => simp at h2
      | succ m =>
        simp only [unitsAux]
        congr 1
        apply ih
        · simp only [List.length_drop, List.length_cons] at *; omega
        · simp only [List.length_drop, List.length_cons] at *; omega

theorem units_nil : units [] = [] := rfl

theorem units_cons (b : Nat) (rest : List Nat) :
    units (b :: rest) =
      ((decodeRune (b :: rest)).1, (b :: rest).take (decodeRune (b :: rest)).2)
        :: units (rest.drop ((decodeRune (b :: rest)).2 - 1)) := by
  show unitsAux (rest.length + 1) (b :: rest) = _
  simp only [unitsAux, units]
  congr 1
  apply unitsAux_fuel
  · simp only [List.length_drop]; omega
  · exact le_refl _

/-- A invalid byte is a piece of its own. -/
theorem units_bad (b : Nat) (q : List Nat) (h : decodeRune (b :: q) = (runeError, 1)) :
    units (b :: q) = (runeError, [b]) :: units q := by
  rw [units_cons, h]; simp

/-- An encoded rune is one piece. -/
theorem units_encodeRune (r : Nat) (q : List Nat) (h : validRune r) :
    units (encodeRune r ++ q) = (r, encodeRune r) :: units q := by
  have hd := decodeRune_encodeRune r q h
  rcases he : encodeRune r with _ | ⟨b, cs⟩
  · exact absurd he (encodeRune_ne_nil r)
  · rw [he, List.cons_append] at hd
    rw [List.cons_append, units_cons, hd]
    simp

/-- Induction over a string piece by piece. -/
theorem units_induction {P : List Nat → Prop} (nil : P [])
    (valid : ∀ r q, validRune r → P q → P (encodeRune r ++ q))
    (bad : ∀ b q, decodeRune (b :: q) = (runeError, 1) → P q → P (b :: q)) :
    ∀ s, P s := by
  suffices H : ∀ n, ∀ s : List Nat, s.length ≤ n → P s from fun s => H _ s (le_refl _)
  intro n
  induction n with
  | zero =>
    intro s hs
    have : s = [] := List.length_eq_zero.mp (Nat.le_zero.mp hs)
    subst this; exact nil
  | succ n ih =>
    intro s hs
    rcases s with _ | ⟨b0, rest⟩
    · exact nil
    · obtain ⟨r, w, hd, hc⟩ := decodeRune_cases' (b0 :: rest) (by simp)
      rcases hc with ⟨rfl, rfl⟩ | ⟨hv, ht, hw⟩
      · exact bad b0 rest hd (ih rest (by simpa using hs))
      · have hsplit : b0 :: rest = encodeRune r ++ (b0 :: rest).drop w := by
          rw [← ht, List.take_append_drop]
        rw [hsplit]
        have hwpos : 1 ≤ w := by
          have := decodeRune_width_pos (b0 :: rest); rw [hd] at this; exact this
        apply valid r _ hv
        apply ih
        simp only [List.length_drop, List.length_cons] at *
        omega

/-! ## Encoded rune sequences -/

theorem encodeRune_ascii (r : Nat) (h : r ≤ 0x7F) : encodeRune r = [r] := by
  rw [encodeRune, if_pos h]

theorem encodeRune_bytes_ge (r : Nat) (h : 0x7F < r) : ∀ b ∈ encodeRune r, 0x80 ≤ b := by
  unfold encodeRune
  split_ifs <;> simp <;> omega

theorem encodeAll_nil : encodeAll [] = [] := rfl

theorem encodeAll_cons (r : Nat) (rs : List Nat) :
    encodeAll (r :: rs) = encodeRune r ++ encodeAll rs := rfl

theorem encodeAll_append (xs ys : List Nat) :
    encodeAll (xs ++ ys) = encodeAll xs ++ encodeAll ys := by
  simp [encodeAll]

theorem encodeAll_eq_nil {rs : List Nat} : encodeAll rs = [] ↔ rs = [] := by
  cases rs with
  | nil => simp [encodeAll]
  | cons r rs => simp [encodeAll_cons, encodeRune_ne_nil]

theorem units_encodeAll (rs : List Nat) (h : ∀ r ∈ rs, validRune r) :
    units (encodeAll rs) = rs.map (fun r => (r, encodeRune r)) := by
  induction rs with
  | nil => rfl
  | cons r rs ih =>
    rw [encodeAll_cons, units_encodeRune r _ (h r (by simp)), ih (fun x hx => h x (by simp [hx]))]
    rfl

theorem runes_encodeAll (rs : List Nat) (h : ∀ r ∈ rs, validRune r) :
    runes (encodeAll rs) = rs := by
  rw [runes, units_encodeAll rs h, List.map_map]
  exact List.map_id _

theorem runes_valid (s : List Nat) : ∀ r ∈ runes s, validRune r := by
  induction s using units_induction with
  | nil => simp [runes, units_nil]
  | valid r q hr ih =>
    intro x hx
    rw [runes, units_encodeRune r q hr] at hx
    simp only [List.map_cons, List.mem_cons] at hx
    rcases hx with rfl | hx
    · exact hr
    · exact ih x hx
  | bad b q hb ih =>
    intro x hx
    rw [runes, units_bad b q hb] at hx
    simp only [List.map_cons, List.mem_cons] at hx
    rcases hx with rfl | hx
    · unfold validRune runeError; omega
    · exact ih x hx

theorem rdropWhile_map {α β : Type} (f : α → β) (p : β → Bool) (l : List α) :
    List.rdropWhile p (l.map f) = (List.rdropWhile (p ∘ f) l).map f := by
  rw [List.rdropWhile, List.rdropWhile, ← List.map_reverse, List.dropWhile_map, List.map_reverse]

theorem trimSpace_encodeAll (rs : List Nat) (h : ∀ r ∈ rs, validRune r) :
    trimSpace (encodeAll rs) = encodeAll (trimRunes rs) := by
  rw [trimSpace, units_encodeAll rs h, List.dropWhile_map, rdropWhile_map]
  simp only [List.map_map, trimRunes, encodeAll, List.flatMap]
  congr 1

/-! ## `split`, `join`, `trimRight`, `replaceAll` on encoded rune sequences -/

theorem split_ne_nil (sep : Nat) (s : List Nat) : split sep s ≠ [] := by
  induction s with
  | nil => simp [split]
  | cons b rest ih =>
    simp only [split]
    split_ifs
    · simp
    · split <;> simp

theorem split_cons_ne (sep b : Nat) (rest : List Nat) (h : b ≠ sep) :
    split sep (b :: rest) = (b :: (split sep rest).headD []) :: (split sep rest).tail := by
  simp only [split, if_neg h]
  split
  · rename_i heq; exact absurd heq (split_ne_nil sep rest)
  · rename_i l ls heq; simp [heq]

theorem split_cons_eq (sep : Nat) (rest : List Nat) :
    split sep (sep :: rest) = [] :: split sep rest := by
  simp [split]

theorem split_append_of_not_mem (sep : Nat) (xs ys : List Nat) (h : sep ∉ xs) :
    split sep (xs ++ ys) = (xs ++ (split sep ys).headD []) :: (split sep ys).tail := by
  induction xs with
  | nil =>
    rcases hs : split sep ys with _ | ⟨l, ls⟩
    · exact absurd hs (split_ne_nil sep ys)
    · simp [hs]
  | cons x xs ih =>
    have hx : x ≠ sep := fun e => h (by simp [e])
    have hxs : sep ∉ xs := fun e => h (by simp [e])
    rw [List.cons_append, split_cons_ne sep x _ hx, ih hxs]
    simp

theorem not_mem_encodeRune (r b : Nat) (hb : b ≤ 0x7F) (h : r ≠ b) : b ∉ encodeRune r := by
  intro hm
  by_cases hr : r ≤ 0x7F
  · rw [encodeRune_ascii r hr] at hm
    simp at hm
    exact h hm.symm
  · have := encodeRune_bytes_ge r (by omega) b hm
    omega

theorem split_encodeAll (rs : List Nat) :
    split 0x0A (encodeAll rs) = (split 0x0A rs).map encodeAll := by
  induction rs with
  | nil => rfl
  | cons r rs ih =>
    by_cases hr : r = 0x0A
    · subst hr
      rw [encodeAll_cons, encodeRune_ascii _ (by decide)]
      simp only [List.singleton_append]
      rw [split_cons_eq, split_cons_eq, ih]
      rfl
    · rw [encodeAll_cons, split_append_of_not_mem _ _ _ (not_mem_encodeRune r _ (by decide) hr),
        split_cons_ne _ _ _ hr, ih]
      rcases hs : split 0x0A rs with _ | ⟨l, ls⟩
      · exact absurd hs (split_ne_nil _ rs)
      · simp [encodeAll_cons]

theorem join_map_encodeAll (ls : List (List Nat)) :
    join [0x0A] (ls.map encodeAll) = encodeAll (join [0x0A] ls) := by
  induction ls with
  | nil => rfl
  | cons a rest ih =>
    cases rest with
    | nil => rfl
    | cons b rest =>
      simp only [List.map_cons, join] at ih ⊢
      rw [ih, encodeAll_append, encodeAll_append]
      rfl

theorem trimRight_encodeAll (rs : List Nat) :
    trimRight (encodeAll rs) [0x20, 0x09] = encodeAll (trimRight rs [0x20, 0x09]) := by
  induction rs using List.reverseRecOn with
  | nil => rfl
  | append_singleton rs r ih =>
    unfold trimRight at ih ⊢
    rw [List.rdropWhile_concat, encodeAll_append]
    by_cases hr : r = 0x20 ∨ r = 0x09
    · have h1 : encodeAll [r] = [r] := by
        rcases hr with rfl | rfl <;> rfl
      rw [h1, List.rdropWhile_concat]
      have h2 : decide (r ∈ [0x20, 0x09]) = true := by
        rcases hr with rfl | rfl <;> decide
      rw [if_pos h2, if_pos h2, ih]
    · have h2 : ¬ (decide (r ∈ [0x20, 0x09]) = true) := by
        simp only [List.mem_cons, List.mem_singleton, decide_eq_true_eq]
        simpa using hr
      rw [if_neg h2]
      have h3 : encodeAll [r] = encodeRune r := by simp [encodeAll]
      rw [h3]
      rcases List.eq_nil_or_concat (encodeRune r) with he | ⟨ini, last, he⟩
      · exact absurd he (encodeRune_ne_nil r)
      · rw [List.concat_eq_append] at he
        have hlast : last ∈ encodeRune r := by rw [he]; simp
        have h4 : ¬ (decide (last ∈ [0x20, 0x09]) = true) := by
          simp only [List.mem_cons, List.mem_singleton, decide_eq_true_eq]
          intro hl
          have hl' : last ∈ [0x20, 0x09] := by simpa using hl
          have hle : last ≤ 0x7F := by rcases hl with rfl | rfl | h <;> simp_all
          by_cases hrl : r = last
          · subst hrl; exact hr (by simpa using hl)
          · exact not_mem_encodeRune r last hle hrl hlast
        rw [he, ← List.append_assoc, List.rdropWhile_concat, if_neg h4, encodeAll_append, h3, he,
          List.append_assoc]

theorem replaceAllAux_of_not_mem (o : Nat) (os new : List Nat) :
    ∀ (n : Nat) (s : List Nat), o ∉ s → replaceAllAux (o :: os) new n s = s := by
  intro n
  induction n with
  | zero => intro s _; rfl
  | succ n ih =>
    intro s hs
    cases s with
    | nil => rfl
    | cons b rest =>
      have hb : o ≠ b := fun e => hs (by simp [e])
      have hr : o ∉ rest := fun e => hs (by simp [e])
      simp only [replaceAllAux, List.isPrefixOf]
      rw [if_neg (by simp [hb])]
      rw [ih rest hr]

theorem replaceAll_of_not_mem (o : Nat) (os new s : List Nat) (h : o ∉ s) :
    replaceAll s (o :: os) new = s :=
  replaceAllAux_of_not_mem o os new _ s h

theorem mem_encodeAll_ascii (rs : List Nat) (b : Nat) (hb : b ≤ 0x7F) (h : b ∈ encodeAll rs) :
    b ∈ rs := by
  induction rs with
  | nil => simp [encodeAll] at h
  | cons r rs ih =>
    rw [encodeAll_cons, List.mem_append] at h
    rcases h with h | h
    · by_cases hr : r = b
      · simp [hr]
      · exact absurd h (not_mem_encodeRune r b hb hr)
    · simp [ih h]

theorem foldl_cleanStep (rs b : List Nat) :
    rs.foldl cleanStep b = b ++ encodeAll (rs.filter keepRune) := by
  induction rs generalizing b with
  | nil => simp [encodeAll]
  | cons r rs ih =>
    rw [List.foldl_cons, ih]
    unfold cleanStep keepRune
    by_cases h1 : r = 0x0A ∨ r = 0x09
    · rw [if_pos h1, List.filter_cons_of_pos (by simp; omega), encodeAll_cons, List.append_assoc]
    · rw [if_neg h1]
      by_cases h2 : r < 32 ∨ r = 127
      · rw [if_pos h2, List.filter_cons_of_neg (by simp; omega)]
      · rw [if_neg h2, List.filter_cons_of_pos (by simp; omega), encodeAll_cons, List.append_assoc]

/-! ## `normalizeText` in terms of runes -/

theorem mem_of_mem_split {sep : Nat} {s l : List Nat} {r : Nat}
    (hl : l ∈ split sep s) (hr : r ∈ l) : r ∈ s := by
  induction s generalizing l with
  | nil => simp [split] at hl; subst hl; simp at hr
  | cons b rest ih =>
    by_cases hb : b = sep
    · subst hb
      rw [split_cons_eq] at hl
      rcases List.mem_cons.mp hl with rfl | hl
      · simp at hr
      · exact List.mem_cons_of_mem _ (ih hl hr)
    · rw [split_cons_ne _ _ _ hb] at hl
      rcases hs : split sep rest with _ | ⟨l0, ls⟩
      · exact absurd hs (split_ne_nil _ _)
      · rw [hs] at hl ih
        simp only [List.headD_cons, List.tail_cons, List.mem_cons] at hl
        rcases hl with rfl | hl
        · rcases List.mem_cons.mp hr with rfl | hr
          · simp
          · exact List.mem_cons_of_mem _ (ih (by simp) hr)
        · exact List.mem_cons_of_mem _ (ih (by simp [hl]) hr)

theorem mem_of_mem_trimRight {l c : List Nat} {r : Nat} (h : r ∈ trimRight l c) : r ∈ l :=
  (List.rdropWhile_prefix _ l).subset h

theorem mem_of_mem_trimRunes {l : List Nat} {r : Nat} (h : r ∈ trimRunes l) : r ∈ l :=
  (List.dropWhile_suffix _).subset ((List.rdropWhile_prefix _ _).subset h)

theorem mem_of_mem_collapseFrom {b : Bool} {ls : List (List Nat)} {l : List Nat} {r : Nat}
    (hl : l ∈ collapseFrom b ls) (hr : r ∈ l) : ∃ l' ∈ ls, r ∈ l' := by
  induction ls generalizing b with
  | nil => simp [collapseFrom] at hl
  | cons a rest ih =>
    simp only [collapseFrom] at hl
    split_ifs at hl with h1 h2
    · obtain ⟨l', h, h'⟩ := ih hl
      exact ⟨l', by simp [h], h'⟩
    · rcases List.mem_cons.mp hl with rfl | hl
      · simp at hr
      · obtain ⟨l', h, h'⟩ := ih hl
        exact ⟨l', by simp [h], h'⟩
    · rcases List.mem_cons.mp hl with rfl | hl
      · exact ⟨a, by simp, mem_of_mem_trimRight hr⟩
      · obtain ⟨l', h, h'⟩ := ih hl
        exact ⟨l', by simp [h], h'⟩

theorem mem_of_mem_join {sep : List Nat} {ls : List (List Nat)} {r : Nat}
    (h : r ∈ join sep ls) : r ∈ sep ∨ ∃ l ∈ ls, r ∈ l := by
  induction ls with
  | nil => simp [join] at h
  | cons a rest ih =>
    cases rest with
    | nil => right; exact ⟨a, by simp, by simpa [join] using h⟩
    | cons b rest =>
      simp only [join, List.mem_append] at h
      rcases h with (h | h) | h
      · right; exact ⟨a, by simp, h⟩
      · left; exact h
      · rcases ih h with h | ⟨l, hl, hr⟩
        · left; exact h
        · right; exact ⟨l, by simp [List.mem_cons.mp hl], hr⟩

/-- Every rune of the normal form is a rune of the input or a line feed. -/
theorem mem_of_mem_normalizeRunes {rs : List Nat} {r : Nat} (h : r ∈ normalizeRunes rs) :
    r = 0x0A ∨ r ∈ rs := by
  rcases mem_of_mem_join (mem_of_mem_trimRunes h) with h | ⟨l, hl, hr⟩
  · left; simpa using h
  · obtain ⟨l', hl', hr'⟩ := mem_of_mem_collapseFrom hl hr
    right; exact mem_of_mem_split hl' hr'

theorem foldl_lineStep_out (lines : List (List Nat)) (hv : ∀ l ∈ lines, ∀ r ∈ l, validRune r) :
    ∀ st : LineState,
      ((lines.map encodeAll).foldl lineStep st).out
        = st.out ++ (collapseFrom (decide (0 < st.emptyRun)) lines).map encodeAll := by
  induction lines with
  | nil => intro st; simp [collapseFrom]
  | cons l ls ih =>
    intro st
    have hvl : ∀ r ∈ trimRight l [0x20, 0x09], validRune r :=
      fun r hr => hv l (by simp) r (mem_of_mem_trimRight hr)
    rw [List.map_cons, List.foldl_cons, ih (fun l' hl' => hv l' (by simp [hl']))]
    simp only [lineStep, collapseFrom, trimRight_encodeAll, trimSpace_encodeAll _ hvl,
      encodeAll_eq_nil]
    by_cases h1 : trimRunes (trimRight l [0x20, 0x09]) = []
    · simp only [h1, if_true]
      by_cases h2 : 0 < st.emptyRun
      · have h3 : st.emptyRun + 1 > 1 := by omega
        simp [h2, h3]
      · have h3 : ¬ (st.emptyRun + 1 > 1) := by omega
        simp [h2, h3, encodeAll]
    · simp [h1]

theorem cleaned_eq_encodeAll (input : GoString) :
    (runes (unifyAndTrim input)).foldl cleanStep [] = encodeAll (cleanedRunes input) := by
  rw [foldl_cleanStep, List.nil_append, cleanedRunes]

/-- The text `normalizeText` checks and returns is the encoding of the normal
form of the cleaned runes. -/
theorem normalizedResult_eq (input : GoString) :
    normalizedResult input = encodeAll (normalizeRunes (cleanedRunes input)) := by
  have hrs : ∀ r ∈ cleanedRunes input, validRune r :=
    fun r hr => runes_valid _ r (List.mem_filter.mp hr).1
  have hlines : ∀ l ∈ split 0x0A (cleanedRunes input), ∀ r ∈ l, validRune r :=
    fun l hl r hr => hrs r (mem_of_mem_split hl hr)
  have hjoin : ∀ r ∈ join [0x0A] (collapseFrom false (split 0x0A (cleanedRunes input))),
      validRune r := by
    intro r hr
    rcases mem_of_mem_join hr with h | ⟨l, hl, hr⟩
    · have : r = 0x0A := by simpa using h
      subst this; unfold validRune; omega
    · obtain ⟨l', hl', hr'⟩ := mem_of_mem_collapseFrom hl hr
      exact hlines l' hl' r hr'
  rw [normalizedResult, cleaned_eq_encodeAll, split_encodeAll, foldl_lineStep_out _ hlines]
  simp only [List.nil_append, lt_self_iff_false, decide_False]
  rw [join_map_encodeAll, trimSpace_encodeAll _ hjoin]
  rfl

/-- `normalizeText` in terms of `normalizedResult`: the source, with its local
variables named. -/
theorem normalizeText_def (input : GoString) :
    normalizeText input =
      if unifyAndTrim input = [] then .error .empty
      else if (runes (unifyAndTrim input)).foldl cleanStep [] = [] then
        .error .emptyAfterCleaning
      else if normalizedResult input = [] then .error .emptyAfterNormalization
      else if (normalizedResult input).length > maxTextLen then
        .error (.tooLong (normalizedResult input).length maxTextLen)
      else .ok (normalizedResult input) := rfl

/-- `normalizeText`, with everything after the cleaning loop read on runes. -/
theorem normalizeText_eq (input : GoString) :
    normalizeText input =
      if unifyAndTrim input = [] then .error .empty
      else if cleanedRunes input = [] then .error .emptyAfterCleaning
      else if normalizeRunes (cleanedRunes input) = [] then .error .emptyAfterNormalization
      else if (encodeAll (normalizeRunes (cleanedRunes input))).length > maxTextLen then
        .error (.tooLong (encodeAll (normalizeRunes (cleanedRunes input))).length maxTextLen)
      else .ok (encodeAll (normalizeRunes (cleanedRunes input))) := by
  rw [normalizeText_def, normalizedResult_eq, cleaned_eq_encodeAll]
  simp only [encodeAll_eq_nil]

/-! ## Lists of lines -/

theorem join_cons_of_ne_nil (sep l : List Nat) (ls : List (List Nat)) (h : ls ≠ []) :
    join sep (l :: ls) = l ++ sep ++ join sep ls := by
  cases ls with
  | nil => exact absurd rfl h
  | cons b rest => rfl

theorem join_singleton (sep l : List Nat) : join sep [l] = l := rfl

theorem rdropWhile_append (p : Nat → Bool) (xs ys : List Nat) :
    List.rdropWhile p (xs ++ ys) =
      if List.rdropWhile p ys = [] then List.rdropWhile p xs else xs ++ List.rdropWhile p ys := by
  induction ys using List.reverseRecOn with
  | nil => simp
  | append_singleton ys y ih =>
    rw [← List.append_assoc, List.rdropWhile_concat, List.rdropWhile_concat]
    by_cases hy : p y = true
    · simp only [hy, if_true]; exact ih
    · simp [hy]

theorem dropWhile_join (Z : List (List Nat)) :
    (join [0x0A] Z).dropWhile isSpace = join [0x0A] (ltrimLines Z) := by
  induction Z with
  | nil => rfl
  | cons l ls ih =>
    rw [ltrimLines]
    by_cases hls : ls = []
    · subst hls
      simp only [join_singleton]
      split_ifs with h
      · rw [h]; rfl
      · rfl
    · rw [join_cons_of_ne_nil _ _ _ hls, List.append_assoc, List.dropWhile_append]
      by_cases h : l.dropWhile isSpace = []
      · rw [if_pos h, h]
        simp only [List.isEmpty_nil, if_true]
        rw [show ([0x0A] : List Nat) ++ join [0x0A] ls = 0x0A :: join [0x0A] ls
          from rfl, List.dropWhile_cons_of_pos (by decide)]
        exact ih
      · have h' : (l.dropWhile isSpace).isEmpty = false := by
          cases hd : l.dropWhile isSpace with
          | nil => exact absurd hd h
          | cons _ _ => rfl
        rw [if_neg h, h']
        simp only [Bool.false_eq_true, if_false]
        rw [join_cons_of_ne_nil _ _ _ hls, List.append_assoc]

theorem join_rtrimLines_ne_nil (Z : List (List Nat)) (h : rtrimLines Z ≠ []) :
    join [0x0A] (rtrimLines Z) ≠ [] := by
  cases Z with
  | nil => exact absurd rfl h
  | cons l ls =>
    simp only [rtrimLines] at h ⊢
    split_ifs at h ⊢ with h1 h2
    · exact absurd rfl h
    · simpa [join_singleton] using h2
    · rw [join_cons_of_ne_nil _ _ _ h1]; simp

theorem rdropWhile_join (Z : List (List Nat)) :
    List.rdropWhile isSpace (join [0x0A] Z) = join [0x0A] (rtrimLines Z) := by
  induction Z with
  | nil => rfl
  | cons l ls ih =>
    rw [rtrimLines]
    by_cases hls : ls = []
    · subst hls
      simp only [join_singleton, rtrimLines, if_true]
      split_ifs with h
      · rw [h]; rfl
      · rfl
    · rw [join_cons_of_ne_nil _ _ _ hls, List.append_assoc, rdropWhile_append,
        rdropWhile_append, ih]
      have hnl : List.rdropWhile isSpace [0x0A] = [] := by
        rw [List.rdropWhile_eq_nil_iff]; intro x hx; simp at hx; subst hx; decide
      by_cases h : rtrimLines ls = []
      · rw [if_pos h, h]
        have hj : join [0x0A] ([] : List (List Nat)) = [] := rfl
        rw [hj, if_pos rfl, hnl, if_pos rfl]
        split_ifs with h2
        · rw [h2]; rfl
        · rfl
      · have h2 := join_rtrimLines_ne_nil _ h
        rw [if_neg h, if_neg h2, if_neg (by simp), join_cons_of_ne_nil _ _ _ h,
          List.append_assoc]

theorem trimRunes_join (Z : List (List Nat)) :
    trimRunes (join [0x0A] Z) = join [0x0A] (rtrimLines (ltrimLines Z)) := by
  rw [trimRunes, dropWhile_join, rdropWhile_join]

theorem not_mem_of_mem_split {sep : Nat} {s l : List Nat} (hl : l ∈ split sep s) : sep ∉ l := by
  induction s generalizing l with
  | nil => simp [split] at hl; subst hl; simp
  | cons b rest ih =>
    by_cases hb : b = sep
    · subst hb
      rw [split_cons_eq] at hl
      rcases List.mem_cons.mp hl with rfl | hl
      · simp
      · exact ih hl
    · rw [split_cons_ne _ _ _ hb] at hl
      rcases hs : split sep rest with _ | ⟨l0, ls⟩
      · exact absurd hs (split_ne_nil _ _)
      · rw [hs] at hl ih
        simp only [List.headD_cons, List.tail_cons, List.mem_cons] at hl
        rcases hl with rfl | hl
        · have := ih (l := l0) (by simp)
          simp only [List.mem_cons, not_or]
          exact ⟨fun e => hb e.symm, this⟩
        · exact ih (by simp [hl])

theorem split_join (W : List (List Nat)) (hne : W ≠ []) (h : ∀ l ∈ W, 0x0A ∉ l) :
    split 0x0A (join [0x0A] W) = W := by
  induction W with
  | nil => exact absurd rfl hne
  | cons l ls ih =>
    cases ls with
    | nil =>
      rw [join_singleton]
      have := split_append_of_not_mem 0x0A l [] (h l (by simp))
      simpa [split] using this
    | cons b rest =>
      rw [join_cons_of_ne_nil _ _ _ (by simp), List.append_assoc,
        split_append_of_not_mem _ _ _ (h l (by simp))]
      rw [show ([0x0A] : List Nat) ++ join [0x0A] (b :: rest) = 0x0A :: join [0x0A] (b :: rest)
        from rfl, split_cons_eq, ih (by simp) (fun l' hl' => h l' (by simp [List.mem_cons.mp hl']))]
      simp

theorem join_split (s : List Nat) : join [0x0A] (split 0x0A s) = s := by
  induction s with
  | nil => rfl
  | cons b rest ih =>
    by_cases hb : b = 0x0A
    · subst hb
      rw [split_cons_eq, join_cons_of_ne_nil _ _ _ (split_ne_nil _ _), ih]; rfl
    · rw [split_cons_ne _ _ _ hb]
      rcases hs : split 0x0A rest with _ | ⟨l0, ls⟩
      · exact absurd hs (split_ne_nil _ _)
      · rw [hs] at ih
        simp only [List.headD_cons, List.tail_cons]
        cases ls with
        | nil => rw [join_singleton] at ih ⊢; rw [ih]
        | cons c cs =>
          rw [join_cons_of_ne_nil _ _ _ (by simp)] at ih ⊢
          rw [← ih]; simp

/-! ## White space at the ends of a rune sequence -/

theorem filter_dropWhile_not (p : Nat → Bool) (l : List Nat) :
    (l.dropWhile p).filter (fun r => !p r) = l.filter (fun r => !p r) := by
  induction l with
  | nil => rfl
  | cons a l ih =>
    by_cases h : p a = true
    · rw [List.dropWhile_cons_of_pos h, ih, List.filter_cons_of_neg (by simp [h])]
    · rw [List.dropWhile_cons_of_neg h]

theorem filter_rdropWhile_not (p q : Nat → Bool) (hq : ∀ x, q x = true → p x = true)
    (l : List Nat) :
    (List.rdropWhile q l).filter (fun r => !p r) = l.filter (fun r => !p r) := by
  induction l using List.reverseRecOn with
  | nil => rfl
  | append_singleton l a ih =>
    rw [List.rdropWhile_concat]
    by_cases h : q a = true
    · rw [if_pos h, ih, List.filter_append, List.filter_cons_of_neg (by simp [hq a h])]
      simp
    · rw [if_neg h]

theorem trimRunes_eq_nil_iff (l : List Nat) :
    trimRunes l = [] ↔ ∀ x ∈ l, isSpace x = true := by
  unfold trimRunes
  rw [List.rdropWhile_eq_nil_iff]
  constructor
  · intro h
    rw [← List.dropWhile_eq_nil_iff]
    rcases hd : l.dropWhile isSpace with _ | ⟨a, t⟩
    · rfl
    · exfalso
      have h1 := List.head?_dropWhile_not isSpace l
      rw [hd] at h1 h
      simp only [List.head?_cons] at h1
      have h2 := h a (by simp)
      simp [h2] at h1
  · intro h x hx
    exact h x ((List.dropWhile_suffix _).subset hx)

theorem trimRunes_ne_nil_iff (l : List Nat) :
    trimRunes l ≠ [] ↔ ∃ x ∈ l, isSpace x = false := by
  rw [Ne, trimRunes_eq_nil_iff]
  push_neg
  simp

theorem filter_trimRunes (l : List Nat) :
    (trimRunes l).filter (fun r => !isSpace r) = l.filter (fun r => !isSpace r) := by
  rw [trimRunes, filter_rdropWhile_not isSpace isSpace (fun _ h => h), filter_dropWhile_not]

theorem trimRunes_idem (l : List Nat) : trimRunes (trimRunes l) = trimRunes l := by
  have key : (trimRunes l).dropWhile isSpace = trimRunes l := by
    rcases ht : trimRunes l with _ | ⟨a, t⟩
    · rfl
    · have hpre : trimRunes l <+: l.dropWhile isSpace := List.rdropWhile_prefix _ _
      rw [ht] at hpre
      obtain ⟨u, hu⟩ := hpre
      have h1 := List.head?_dropWhile_not isSpace l
      rw [← hu] at h1
      simp only [List.cons_append, List.head?_cons] at h1
      rw [List.dropWhile_cons_of_neg (by simpa using h1)]
  show List.rdropWhile isSpace ((trimRunes l).dropWhile isSpace) = trimRunes l
  rw [key]
  exact List.rdropWhile_idempotent _ _

theorem trimRight_eq_self_iff (l c : List Nat) :
    trimRight l c = l ↔ ∀ ini x, l = ini ++ [x] → x ∉ c := by
  unfold trimRight
  rcases List.eq_nil_or_concat l with rfl | ⟨ini, x, rfl⟩
  · simp
  · rw [List.concat_eq_append, List.rdropWhile_concat]
    constructor
    · intro h ini' x' he
      obtain ⟨-, hxx⟩ := List.append_inj' he rfl
      have hxx' : x = x' := by simpa using hxx
      subst hxx'
      intro hx
      rw [if_pos (by simpa using hx)] at h
      have := (List.rdropWhile_prefix (fun b => decide (b ∈ c)) ini).length_le
      rw [h] at this
      simp at this
    · intro h
      rw [if_neg (by simpa using h ini x rfl)]

theorem trimRight_idem (l c : List Nat) : trimRight (trimRight l c) c = trimRight l c :=
  List.rdropWhile_idempotent _ _

theorem isSpace_of_mem_cutset {x : Nat} (h : x ∈ [0x20, 0x09]) : isSpace x = true := by
  simp only [List.mem_cons, List.mem_singleton, List.not_mem_nil, or_false] at h
  rcases h with rfl | rfl <;> decide

theorem filter_trimRight (l : List Nat) :
    (trimRight l [0x20, 0x09]).filter (fun r => !isSpace r) = l.filter (fun r => !isSpace r) :=
  filter_rdropWhile_not isSpace _ (fun x h => isSpace_of_mem_cutset (by simpa using h)) l

theorem trimRunes_eq_nil_iff_filter (l : List Nat) :
    trimRunes l = [] ↔ l.filter (fun r => !isSpace r) = [] := by
  rw [trimRunes_eq_nil_iff, List.filter_eq_nil_iff]
  simp

theorem trimRunes_trimRight_eq_nil_iff (l : List Nat) :
    trimRunes (trimRight l [0x20, 0x09]) = [] ↔ trimRunes l = [] := by
  rw [trimRunes_eq_nil_iff_filter, trimRunes_eq_nil_iff_filter, filter_trimRight]

/-- A line that holds a rune that is not white space keeps one when its leading
white space goes, and still does not end in a space or a tab. -/
theorem content_dropWhile {l : List Nat} (h1 : trimRight l [0x20, 0x09] = l)
    (h2 : trimRunes l ≠ []) :
    l.dropWhile isSpace ≠ [] ∧ trimRight (l.dropWhile isSpace) [0x20, 0x09] = l.dropWhile isSpace
      ∧ trimRunes (l.dropWhile isSpace) ≠ [] := by
  have h3 : trimRunes (l.dropWhile isSpace) = trimRunes l := by
    unfold trimRunes; rw [List.dropWhile_idempotent]
  refine ⟨?_, ?_, by rw [h3]; exact h2⟩
  · intro h; apply h2; unfold trimRunes; rw [h]; rfl
  · rw [trimRight_eq_self_iff] at h1 ⊢
    intro ini x he
    obtain ⟨u, hu⟩ := List.dropWhile_suffix (l := l) isSpace
    exact h1 (u ++ ini) x (by rw [← hu, he, List.append_assoc])

theorem content_rdropWhile {l : List Nat} (h2 : trimRunes l ≠ []) :
    List.rdropWhile isSpace l ≠ []
      ∧ trimRight (List.rdropWhile isSpace l) [0x20, 0x09] = List.rdropWhile isSpace l
      ∧ trimRunes (List.rdropWhile isSpace l) ≠ [] := by
  have h3 : trimRunes (List.rdropWhile isSpace l) ≠ [] := by
    rw [Ne, trimRunes_eq_nil_iff_filter, filter_rdropWhile_not isSpace isSpace (fun _ h => h),
      ← trimRunes_eq_nil_iff_filter]
    exact h2
  refine ⟨?_, ?_, h3⟩
  · intro h; rw [h] at h3; exact h3 rfl
  · rw [trimRight_eq_self_iff]
    intro ini x he hx
    have hne : List.rdropWhile isSpace l ≠ [] := by rw [he]; simp
    have := List.rdropWhile_last_not isSpace l hne
    simp only [he, List.getLast_append_singleton] at this
    exact this (isSpace_of_mem_cutset hx)

/-! ## The loop over the lines -/

theorem fixed_of_fixed_true {W : List (List Nat)} (h : Fixed true W) : Fixed false W := by
  cases W with
  | nil => trivial
  | cons l ls =>
    simp only [Fixed] at h ⊢
    split_ifs at h ⊢ with hl
    · exact absurd h.1 (by simp)
    · exact h

theorem fixed_collapseFrom (b : Bool) (L : List (List Nat)) : Fixed b (collapseFrom b L) := by
  induction L generalizing b with
  | nil => trivial
  | cons l ls ih =>
    simp only [collapseFrom]
    split_ifs with h1 h2
    · subst h2; exact ih true
    · have hb : b = false := by simpa using h2
      subst hb
      simp only [Fixed, if_true]
      exact ⟨trivial, ih true⟩
    · have hne : trimRight l [0x20, 0x09] ≠ [] := by
        intro h; apply h1; rw [h]; rfl
      simp only [Fixed, if_neg hne]
      exact ⟨⟨trimRight_idem _ _, h1⟩, ih false⟩

theorem collapseFrom_of_fixed (b : Bool) (W : List (List Nat)) (h : Fixed b W) :
    collapseFrom b W = W := by
  induction W generalizing b with
  | nil => rfl
  | cons l ls ih =>
    simp only [Fixed] at h
    split_ifs at h with hl
    · subst hl
      obtain ⟨rfl, h⟩ := h
      have : trimRunes (trimRight [] [0x20, 0x09]) = [] := rfl
      simp only [collapseFrom, this, if_true]
      rw [ih true h]
      simp
    · obtain ⟨⟨h1, h2⟩, h⟩ := h
      simp only [collapseFrom, h1, h2, if_false]
      rw [ih false h]

theorem fixed_ltrimLines (b : Bool) (Z : List (List Nat)) (h : Fixed b Z) :
    Fixed false (ltrimLines Z) := by
  induction Z generalizing b with
  | nil => trivial
  | cons l ls ih =>
    simp only [Fixed] at h
    rw [ltrimLines]
    split_ifs at h with hl
    · subst hl
      simp only [List.dropWhile_nil, if_true]
      exact ih true h.2
    · obtain ⟨⟨h1, h2⟩, h⟩ := h
      obtain ⟨h3, h4, h5⟩ := content_dropWhile h1 h2
      rw [if_neg h3]
      simp only [Fixed, if_neg h3]
      exact ⟨⟨h4, h5⟩, h⟩

theorem fixed_rtrimLines (b : Bool) (Z : List (List Nat)) (h : Fixed b Z) :
    Fixed b (rtrimLines Z) := by
  induction Z generalizing b with
  | nil => trivial
  | cons l ls ih =>
    simp only [Fixed] at h
    rw [rtrimLines]
    split_ifs at h with hl
    · subst hl
      obtain ⟨rfl, h⟩ := h
      by_cases h1 : rtrimLines ls = []
      · rw [if_pos h1]
        have : List.rdropWhile isSpace ([] : List Nat) = [] := rfl
        rw [if_pos this]; trivial
      · rw [if_neg h1]
        simp only [Fixed, if_true]
        exact ⟨trivial, ih true h⟩
    · obtain ⟨⟨h1, h2⟩, h⟩ := h
      by_cases h3 : rtrimLines ls = []
      · rw [if_pos h3]
        obtain ⟨h4, h5, h6⟩ := content_rdropWhile h2
        rw [if_neg h4]
        simp only [Fixed, if_neg h4]
        exact ⟨⟨h5, h6⟩, trivial⟩
      · rw [if_neg h3]
        simp only [Fixed, if_neg hl]
        exact ⟨⟨h1, h2⟩, ih false h⟩

theorem mem_of_mem_ltrimLines {Z : List (List Nat)} {l : List Nat} (h : l ∈ ltrimLines Z) :
    ∃ l' ∈ Z, ∀ r ∈ l, r ∈ l' := by
  induction Z with
  | nil => simp [ltrimLines] at h
  | cons a ls ih =>
    rw [ltrimLines] at h
    split_ifs at h with h1
    · obtain ⟨l', h2, h3⟩ := ih h
      exact ⟨l', by simp [h2], h3⟩
    · rcases List.mem_cons.mp h with rfl | h
      · exact ⟨a, by simp, fun r hr => (List.dropWhile_suffix _).subset hr⟩
      · exact ⟨l, by simp [h], fun r hr => hr⟩

theorem mem_of_mem_rtrimLines {Z : List (List Nat)} {l : List Nat} (h : l ∈ rtrimLines Z) :
    ∃ l' ∈ Z, ∀ r ∈ l, r ∈ l' := by
  induction Z with
  | nil => simp [rtrimLines] at h
  | cons a ls ih =>
    rw [rtrimLines] at h
    split_ifs at h with h1 h2
    · simp at h
    · have : l = List.rdropWhile isSpace a := by simpa using h
      subst this
      exact ⟨a, by simp, fun r hr => (List.rdropWhile_prefix _ _).subset hr⟩
    · rcases List.mem_cons.mp h with rfl | h
      · exact ⟨l, by simp, fun r hr => hr⟩
      · obtain ⟨l', h2, h3⟩ := ih h
        exact ⟨l', by simp [h2], h3⟩

/-- The normal form as lines: the loop over the lines, then the outer trim. -/
theorem normalizeRunes_eq_join (rs : List Nat) :
    normalizeRunes rs
      = join [0x0A] (rtrimLines (ltrimLines (collapseFrom false (split 0x0A rs)))) := by
  rw [normalizeRunes, trimRunes_join]

theorem not_mem_normal_lines {rs l : List Nat}
    (h : l ∈ rtrimLines (ltrimLines (collapseFrom false (split 0x0A rs)))) : 0x0A ∉ l := by
  intro hm
  obtain ⟨l1, h1, h1'⟩ := mem_of_mem_rtrimLines h
  obtain ⟨l2, h2, h2'⟩ := mem_of_mem_ltrimLines h1
  obtain ⟨l3, h3, h3'⟩ := mem_of_mem_collapseFrom h2 (h2' _ (h1' _ hm))
  exact not_mem_of_mem_split h3 h3'

theorem fixed_normal_lines (rs : List Nat) :
    Fixed false (rtrimLines (ltrimLines (collapseFrom false (split 0x0A rs)))) :=
  fixed_rtrimLines _ _ (fixed_ltrimLines _ _ (fixed_collapseFrom _ _))

theorem trimRunes_normalizeRunes (rs : List Nat) :
    trimRunes (normalizeRunes rs) = normalizeRunes rs := trimRunes_idem _

/-- The line normalisation is idempotent on runes. -/
theorem normalizeRunes_idem (rs : List Nat) :
    normalizeRunes (normalizeRunes rs) = normalizeRunes rs := by
  by_cases hW : rtrimLines (ltrimLines (collapseFrom false (split 0x0A rs))) = []
  · rw [normalizeRunes_eq_join rs, hW]; rfl
  · have h1 := normalizeRunes_eq_join rs
    conv_lhs => rw [normalizeRunes, h1, split_join _ hW (fun l hl => not_mem_normal_lines hl),
      collapseFrom_of_fixed _ _ (fixed_normal_lines rs), ← h1]
    exact trimRunes_normalizeRunes rs

/-- A successful result of `normalizeText` is the encoding of the normal form
of the cleaned runes. -/
theorem normalizeText_ok {input y : GoString} (h : normalizeText input = .ok y) :
    unifyAndTrim input ≠ [] ∧ cleanedRunes input ≠ []
      ∧ normalizeRunes (cleanedRunes input) ≠ []
      ∧ y = encodeAll (normalizeRunes (cleanedRunes input))
      ∧ y.length ≤ maxTextLen := by
  rw [normalizeText_eq] at h
  split_ifs at h with h1 h2 h3 h4
  have hy := Except.ok.inj h
  subst hy
  exact ⟨h1, h2, h3, rfl, Nat.le_of_not_lt h4⟩

theorem cleanedRunes_valid (input : GoString) : ∀ r ∈ cleanedRunes input, validRune r :=
  fun r hr => runes_valid _ r (List.mem_filter.mp hr).1

theorem cleanedRunes_keep (input : GoString) : ∀ r ∈ cleanedRunes input, keepRune r = true :=
  fun _ hr => (List.mem_filter.mp hr).2

theorem normalizeRunes_valid {rs : List Nat} (h : ∀ r ∈ rs, validRune r) :
    ∀ r ∈ normalizeRunes rs, validRune r := by
  intro r hr
  rcases mem_of_mem_normalizeRunes hr with rfl | hr
  · unfold validRune; omega
  · exact h r hr

theorem normalizeRunes_keep {rs : List Nat} (h : ∀ r ∈ rs, keepRune r = true) :
    ∀ r ∈ normalizeRunes rs, keepRune r = true := by
  intro r hr
  rcases mem_of_mem_normalizeRunes hr with rfl | hr
  · decide
  · exact h r hr

/-- `normalizeText` on an encoded rune sequence that is already in normal
form. -/
theorem normalizeText_of_normal (ys : List Nat) (hv : ∀ r ∈ ys, validRune r)
    (hk : ∀ r ∈ ys, keepRune r = true) (hn : normalizeRunes ys = ys) (hne : ys ≠ [])
    (hlen : (encodeAll ys).length ≤ maxTextLen) :
    normalizeText (encodeAll ys) = .ok (encodeAll ys) := by
  have h13 : 0x0D ∉ encodeAll ys := by
    intro h
    have := hk _ (mem_encodeAll_ascii ys _ (by decide) h)
    revert this; decide
  have htrim : trimRunes ys = ys := by
    have := trimRunes_normalizeRunes ys
    rwa [hn] at this
  have hfilter : ys.filter keepRune = ys := List.filter_eq_self.mpr hk
  have h1 : unifyAndTrim (encodeAll ys) = encodeAll ys := by
    rw [unifyAndTrim, replaceAll_of_not_mem _ _ _ _ h13, replaceAll_of_not_mem _ _ _ _ h13,
      trimSpace_encodeAll _ hv, htrim]
  have h2 : cleanedRunes (encodeAll ys) = ys := by
    rw [cleanedRunes, h1, runes_encodeAll _ hv, hfilter]
  rw [normalizeText_eq, h1, h2, hn]
  rw [if_neg (by rw [encodeAll_eq_nil]; exact hne), if_neg hne, if_neg hne,
    if_neg (Nat.not_lt.mpr hlen)]

/-- C1: `normalizeText` is idempotent: a successful result is normalised to
itself. -/
theorem normalizeText_idempotent (x y : GoString) (h : normalizeText x = .ok y) :
    normalizeText y = .ok y := by
  obtain ⟨-, -, h3, h4, h5⟩ := normalizeText_ok h
  rw [h4] at h5 ⊢
  exact normalizeText_of_normal (normalizeRunes (cleanedRunes x))
    (normalizeRunes_valid (cleanedRunes_valid x))
    (normalizeRunes_keep (cleanedRunes_keep x)) (normalizeRunes_idem (cleanedRunes x)) h3 h5

/-- C1 witness: the input "  a \r\n\r\n\r\n b\t" gives "a\n\n b", which is
normalised to itself. -/
theorem normalizeText_idempotent_witness :
    normalizeText [0x20, 0x20, 0x61, 0x20, 0x0D, 0x0A, 0x0D, 0x0A, 0x0D, 0x0A, 0x20, 0x62, 0x09]
        = .ok [0x61, 0x0A, 0x0A, 0x20, 0x62]
      ∧ normalizeText [0x61, 0x0A, 0x0A, 0x20, 0x62] = .ok [0x61, 0x0A, 0x0A, 0x20, 0x62] :=
  ⟨by decide,
    normalizeText_idempotent
      [0x20, 0x20, 0x61, 0x20, 0x0D, 0x0A, 0x0D, 0x0A, 0x0D, 0x0A, 0x20, 0x62, 0x09]
      [0x61, 0x0A, 0x0A, 0x20, 0x62] (by decide)⟩

/-! ## `replaceAll` and `trimSpace` on arbitrary byte strings -/

theorem dropCRBeforeLF_cons_ne (a : Nat) (rest : List Nat) (h : a ≠ 0x0D) :
    dropCRBeforeLF (a :: rest) = a :: dropCRBeforeLF rest := by
  cases rest with
  | nil => rfl
  | cons b rest => rw [dropCRBeforeLF, if_neg (fun hh => h hh.1)]

theorem dropCRBeforeLF_crlf (rest : List Nat) :
    dropCRBeforeLF (0x0D :: 0x0A :: rest) = 0x0A :: dropCRBeforeLF rest := by
  rw [dropCRBeforeLF, if_pos ⟨rfl, rfl⟩]

theorem dropCRBeforeLF_cr_ne (rest : List Nat) (h : ∀ t, rest ≠ 0x0A :: t) :
    dropCRBeforeLF (0x0D :: rest) = 0x0D :: dropCRBeforeLF rest := by
  cases rest with
  | nil => rfl
  | cons b rest =>
    rw [dropCRBeforeLF, if_neg]
    rintro ⟨-, rfl⟩
    exact h rest rfl

theorem replaceAllAux_crlf : ∀ (n : Nat) (s : List Nat), s.length ≤ n →
    replaceAllAux [0x0D, 0x0A] [0x0A] n s = dropCRBeforeLF s := by
  intro n
  induction n with
  | zero =>
    intro s hs
    have : s = [] := List.length_eq_zero.mp (Nat.le_zero.mp hs)
    subst this; rfl
  | succ n ih =>
    intro s hs
    rcases s with _ | ⟨a, _ | ⟨b, rest⟩⟩
    · rfl
    · simp [replaceAllAux, List.isPrefixOf, dropCRBeforeLF]
      cases n <;> simp [replaceAllAux]
    · simp only [replaceAllAux, List.isPrefixOf, dropCRBeforeLF]
      by_cases h : a = 0x0D ∧ b = 0x0A
      · obtain ⟨rfl, rfl⟩ := h
        simp only [beq_self_eq_true, Bool.and_self, if_true, and_self]
        rw [show List.drop [0x0D, 0x0A].length (0x0D :: 0x0A :: rest) = rest from rfl,
          ih rest (by simp only [List.length_cons] at hs; omega)]
        rfl
      · have h' : ¬ ((0x0D == a && (0x0A == b && true)) = true) := by
          intro hh
          simp only [Bool.and_true, Bool.and_eq_true, beq_iff_eq] at hh
          exact h ⟨hh.1.symm, hh.2.symm⟩
        rw [if_neg h, if_neg h', ih (b :: rest) (by simpa using hs)]

theorem replaceAll_crlf (s : List Nat) :
    replaceAll s [0x0D, 0x0A] [0x0A] = dropCRBeforeLF s :=
  replaceAllAux_crlf _ s (le_refl _)

theorem replaceAllAux_cr : ∀ (n : Nat) (s : List Nat), s.length ≤ n →
    replaceAllAux [0x0D] [0x0A] n s = s.map crToLF := by
  intro n
  induction n with
  | zero =>
    intro s hs
    have : s = [] := List.length_eq_zero.mp (Nat.le_zero.mp hs)
    subst this; rfl
  | succ n ih =>
    intro s hs
    rcases s with _ | ⟨a, rest⟩
    · rfl
    · simp only [replaceAllAux, List.isPrefixOf, List.map_cons, crToLF]
      by_cases h : a = 0x0D
      · subst h
        simp only [beq_self_eq_true, Bool.and_self, if_true]
        rw [show List.drop [0x0D].length (0x0D :: rest) = rest from rfl,
          ih rest (by simpa using hs)]
        rfl
      · have h' : ¬ ((0x0D == a && true) = true) := by
          intro hh
          simp only [Bool.and_true, beq_iff_eq] at hh
          exact h hh.symm
        rw [if_neg h, if_neg h', ih rest (by simpa using hs)]

theorem replaceAll_cr (s : List Nat) : replaceAll s [0x0D] [0x0A] = s.map crToLF :=
  replaceAllAux_cr _ s (le_refl _)

theorem encodeRune_length_runeError : (encodeRune runeError).length = 3 := by decide

/-- What is read as an invalid byte is still one when the bytes after it change,
as long as every run of bytes of 0x80 and above that starts the new tail also
starts the old one. -/
theorem decodeRune_bad_stable (b : Nat) (q q' : List Nat)
    (h : decodeRune (b :: q) = (runeError, 1))
    (hq : ∀ cs rest', q' = cs ++ rest' → (∀ c ∈ cs, 0x80 ≤ c) → ∃ rest, q = cs ++ rest) :
    decodeRune (b :: q') = (runeError, 1) := by
  obtain ⟨r, w, hd, hc⟩ := decodeRune_cases' (b :: q') (by simp)
  rcases hc with ⟨rfl, rfl⟩ | ⟨hv, ht, hw⟩
  · exact hd
  · exfalso
    have hsplit : b :: q' = encodeRune r ++ (b :: q').drop w := by
      rw [← ht, List.take_append_drop]
    rcases he : encodeRune r with _ | ⟨b0, cs⟩
    · exact encodeRune_ne_nil r he
    · rw [he, List.cons_append] at hsplit
      obtain ⟨hb, hq'⟩ := List.cons.inj hsplit
      subst hb
      have hcs : ∀ c ∈ cs, 0x80 ≤ c := by
        intro c hc
        by_cases hr : r ≤ 0x7F
        · rw [encodeRune_ascii r hr] at he
          obtain ⟨-, rfl⟩ := List.cons.inj he
          simp at hc
        · exact encodeRune_bytes_ge r (by omega) c (by rw [he]; simp [hc])
      obtain ⟨rest, hrest⟩ := hq cs _ hq' hcs
      have := decodeRune_encodeRune r rest hv
      rw [he, List.cons_append, ← hrest, h] at this
      obtain ⟨h1, h2⟩ := Prod.mk.inj this
      rw [← he, ← h1, encodeRune_length_runeError] at h2
      omega

theorem decodeRune_ascii (b : Nat) (q : List Nat) (h : b < 0x80) :
    decodeRune (b :: q) = (b, 1) := by
  simp only [decodeRune, if_pos h]

theorem not_bad_of_ascii {b : Nat} {q : List Nat} (h : decodeRune (b :: q) = (runeError, 1)) :
    0x80 ≤ b := by
  by_contra hb
  rw [decodeRune_ascii b q (by omega)] at h
  obtain ⟨h1, -⟩ := Prod.mk.inj h
  rw [h1] at hb
  exact hb (by decide)

theorem runes_nil : runes [] = [] := rfl

theorem runes_encodeRune (r : Nat) (q : List Nat) (h : validRune r) :
    runes (encodeRune r ++ q) = r :: runes q := by
  rw [runes, units_encodeRune r q h]; rfl

theorem runes_bad (b : Nat) (q : List Nat) (h : decodeRune (b :: q) = (runeError, 1)) :
    runes (b :: q) = runeError :: runes q := by
  rw [runes, units_bad b q h]; rfl

theorem runes_cons_ascii (b : Nat) (q : List Nat) (h : b ≤ 0x7F) :
    runes (b :: q) = b :: runes q := by
  have := runes_encodeRune b q (by unfold validRune; omega)
  rwa [encodeRune_ascii b h] at this

theorem map_crToLF_eq_of_high (cs : List Nat) (h : ∀ c ∈ cs, c ≠ 0x0D) :
    cs.map crToLF = cs := by
  induction cs with
  | nil => rfl
  | cons c cs ih =>
    rw [List.map_cons, ih (fun x hx => h x (by simp [hx])), crToLF, if_neg (h c (by simp))]

theorem runes_map_crToLF (s : List Nat) : runes (s.map crToLF) = (runes s).map crToLF := by
  induction s using units_induction with
  | nil => rfl
  | valid r q hr ih =>
    rw [runes_encodeRune r q hr, List.map_append, List.map_cons, ← ih]
    by_cases h13 : r = 0x0D
    · subst h13
      exact runes_cons_ascii _ _ (by decide)
    · rw [map_crToLF_eq_of_high _ (fun c hc e => not_mem_encodeRune r _ (by decide) h13 (e ▸ hc)),
        runes_encodeRune r _ hr, crToLF, if_neg h13]
  | bad b q hb ih =>
    have hb80 := not_bad_of_ascii hb
    rw [runes_bad b q hb, List.map_cons, List.map_cons, ← ih, crToLF, if_neg (by omega)]
    have hru : crToLF runeError = runeError := by decide
    rw [hru]
    apply runes_bad
    apply decodeRune_bad_stable b q _ hb
    intro cs rest' he hcs
    obtain ⟨q1, q2, rfl, h1, h2⟩ := List.map_eq_append_iff.mp he
    refine ⟨q2, ?_⟩
    congr 1
    rw [← h1]
    symm
    apply map_crToLF_eq_of_high
    intro c hc e
    subst e
    have : crToLF 0x0D ∈ cs := by rw [← h1]; exact List.mem_map_of_mem _ hc
    have := hcs _ this
    revert this; decide

theorem dropCRBeforeLF_append_of_not_mem (cs q : List Nat) (h : 0x0D ∉ cs) :
    dropCRBeforeLF (cs ++ q) = cs ++ dropCRBeforeLF q := by
  induction cs with
  | nil => rfl
  | cons c cs ih =>
    rw [List.cons_append, dropCRBeforeLF_cons_ne _ _ (fun e => h (by simp [e])),
      ih (fun e => h (by simp [e]))]
    rfl

theorem dropCRBeforeLF_high_prefix (cs : List Nat) (hcs : ∀ c ∈ cs, 0x80 ≤ c) :
    ∀ q rest', dropCRBeforeLF q = cs ++ rest' → ∃ rest, q = cs ++ rest := by
  induction cs with
  | nil => intro q _ _; exact ⟨q, rfl⟩
  | cons c cs ih =>
    intro q rest' he
    have hc := hcs c (by simp)
    rcases q with _ | ⟨a, q⟩
    · simp [dropCRBeforeLF] at he
    · by_cases ha : a = 0x0D
      · subst ha
        exfalso
        rcases q with _ | ⟨b, q⟩
        · simp only [dropCRBeforeLF, List.cons_append, List.cons.injEq] at he
          omega
        · rw [dropCRBeforeLF] at he
          split_ifs at he
          · simp only [List.cons_append, List.cons.injEq] at he; omega
          · simp only [List.cons_append, List.cons.injEq] at he; omega
      · rw [dropCRBeforeLF_cons_ne _ _ ha, List.cons_append] at he
        obtain ⟨hac, he2⟩ := List.cons.inj he
        obtain ⟨rest, hrest⟩ := ih (fun x hx => hcs x (by simp [hx])) q rest' he2
        exact ⟨rest, by rw [hac, hrest]; rfl⟩

theorem runes_dropCRBeforeLF (s : List Nat) :
    runes (dropCRBeforeLF s) = dropCRBeforeLF (runes s) := by
  induction s using units_induction with
  | nil => rfl
  | valid r q hr ih =>
    rw [runes_encodeRune r q hr]
    by_cases h13 : r = 0x0D
    · subst h13
      rw [encodeRune_ascii _ (by decide), List.singleton_append]
      rcases q with _ | ⟨b, q⟩
      · rfl
      · by_cases hb : b = 0x0A
        · subst hb
          rw [runes_cons_ascii _ _ (by decide), dropCRBeforeLF_crlf, dropCRBeforeLF_crlf,
            runes_cons_ascii _ _ (by decide)]
          rw [runes_cons_ascii _ _ (by decide), dropCRBeforeLF_cons_ne _ _ (by decide),
            dropCRBeforeLF_cons_ne _ _ (by decide), runes_cons_ascii _ _ (by decide)] at ih
          rw [(List.cons.inj ih).2]
        · have h1 : ∀ t, b :: q ≠ 0x0A :: t := fun t e => hb (List.cons.inj e).1
          rw [dropCRBeforeLF_cr_ne _ h1, runes_cons_ascii _ _ (by decide), ih]
          rw [dropCRBeforeLF_cr_ne]
          intro t e
          by_cases hb80 : b ≤ 0x7F
          · rw [runes_cons_ascii _ _ hb80] at e
            exact hb (List.cons.inj e).1
          · obtain ⟨r', w, hd, hc⟩ := decodeRune_cases' (b :: q) (by simp)
            have hhead : (runes (b :: q)).head? = some r' := by
              rw [runes, units_cons, hd]; rfl
            rw [e] at hhead
            have hr' : r' = 0x0A := by simpa using hhead.symm
            subst hr'
            rcases hc with ⟨h1', -⟩ | ⟨-, ht, hw⟩
            · revert h1'; decide
            · rw [encodeRune_ascii _ (by decide)] at ht hw
              simp only [List.length_singleton] at hw
              subst hw
              simp only [List.take_succ_cons, List.take_zero, List.cons.injEq, and_true] at ht
              omega
    · rw [dropCRBeforeLF_append_of_not_mem _ _ (not_mem_encodeRune r _ (by decide) h13),
        runes_encodeRune r _ hr, ih, dropCRBeforeLF_cons_ne _ _ h13]
  | bad b q hb ih =>
    have hb80 := not_bad_of_ascii hb
    have hru : runeError ≠ 0x0D := by decide
    rw [runes_bad b q hb, dropCRBeforeLF_cons_ne _ _ (by omega), dropCRBeforeLF_cons_ne _ _ hru,
      ← ih]
    apply runes_bad
    apply decodeRune_bad_stable b q _ hb
    intro cs rest' he hcs
    exact dropCRBeforeLF_high_prefix cs hcs q rest' he

theorem flatten_units (s : List Nat) : ((units s).map Prod.snd).flatten = s := by
  induction s using units_induction with
  | nil => rfl
  | valid r q hr ih =>
    rw [units_encodeRune r q hr, List.map_cons, List.flatten_cons, ih]
  | bad b q hb ih =>
    rw [units_bad b q hb, List.map_cons, List.flatten_cons, ih]; rfl

/-- The pieces of a string from some piece on are the pieces of the rest of the
string. -/
theorem units_suffix (s : List Nat) : ∀ A M : List (Nat × List Nat), units s = A ++ M →
    units (M.map Prod.snd).flatten = M := by
  induction s using units_induction with
  | nil =>
    intro A M h
    rw [units_nil] at h
    have := List.append_eq_nil.mp h.symm
    rw [this.2]; rfl
  | valid r q hr ih =>
    intro A M h
    rcases A with _ | ⟨a, A⟩
    · rw [List.nil_append] at h
      rw [← h, flatten_units]
    · rw [units_encodeRune r q hr, List.cons_append] at h
      exact ih A M (List.cons.inj h).2
  | bad b q hb ih =>
    intro A M h
    rcases A with _ | ⟨a, A⟩
    · rw [List.nil_append] at h
      rw [← h, flatten_units]
    · rw [units_bad b q hb, List.cons_append] at h
      exact ih A M (List.cons.inj h).2

/-- The pieces of a string up to some piece are the pieces of that part of the
string. -/
theorem units_prefix (s : List Nat) : ∀ M B : List (Nat × List Nat), units s = M ++ B →
    units (M.map Prod.snd).flatten = M := by
  induction s using units_induction with
  | nil =>
    intro M B h
    rw [units_nil] at h
    have := List.append_eq_nil.mp h.symm
    rw [this.1]; rfl
  | valid r q hr ih =>
    intro M B h
    rcases M with _ | ⟨u, M⟩
    · rfl
    · rw [units_encodeRune r q hr, List.cons_append] at h
      obtain ⟨hu, hq⟩ := List.cons.inj h
      rw [← hu, List.map_cons, List.flatten_cons, units_encodeRune r _ hr, ih M B hq]
  | bad b q hb ih =>
    intro M B h
    rcases M with _ | ⟨u, M⟩
    · rfl
    · rw [units_bad b q hb, List.cons_append] at h
      obtain ⟨hu, hq⟩ := List.cons.inj h
      rw [← hu, List.map_cons, List.flatten_cons]
      have hq2 : q = (M.map Prod.snd).flatten ++ (B.map Prod.snd).flatten := by
        conv_lhs => rw [← flatten_units q, hq, List.map_append, List.flatten_append]
      have hbad : decodeRune (b :: (M.map Prod.snd).flatten) = (runeError, 1) := by
        apply decodeRune_bad_stable b q _ hb
        intro cs rest' he _
        exact ⟨rest' ++ (B.map Prod.snd).flatten, by rw [hq2, he, List.append_assoc]⟩
      rw [List.singleton_append, units_bad b _ hbad, ih M B hq]

theorem units_trimSpace (s : List Nat) :
    units (trimSpace s)
      = List.rdropWhile (fun u => isSpace u.1) ((units s).dropWhile (fun u => isSpace u.1)) := by
  unfold trimSpace
  have h1 : units ((((units s).dropWhile (fun u => isSpace u.1)).map Prod.snd).flatten)
      = (units s).dropWhile (fun u => isSpace u.1) :=
    units_suffix s _ _ (List.takeWhile_append_dropWhile _ _).symm
  obtain ⟨B, hB⟩ := List.rdropWhile_prefix (fun u : Nat × List Nat => isSpace u.1)
    ((units s).dropWhile (fun u => isSpace u.1))
  exact units_prefix _ _ B (by rw [h1, hB])

/-- `strings.TrimSpace` removes the white-space runes at both ends, whatever
the bytes are. -/
theorem runes_trimSpace (s : List Nat) : runes (trimSpace s) = trimRunes (runes s) := by
  rw [runes, units_trimSpace, runes, trimRunes, List.dropWhile_map, rdropWhile_map]
  rfl

theorem trimSpace_eq_nil_iff (s : List Nat) : trimSpace s = [] ↔ trimRunes (runes s) = [] := by
  rw [← runes_trimSpace]
  constructor
  · intro h; rw [h]; rfl
  · intro h
    have h2 : units (trimSpace s) = [] := by
      have : (units (trimSpace s)).map Prod.fst = [] := h
      simpa using this
    rw [← flatten_units (trimSpace s), h2]; rfl

/-! ## The runes that are not white space -/

theorem keepRune_eq_not_stripped (r : Nat) : keepRune r = !strippedControl r := by
  unfold keepRune strippedControl
  by_cases h1 : r = 0x0A
  · subst h1; decide
  · by_cases h2 : r = 0x09
    · subst h2; decide
    · by_cases h3 : r < 32 <;> by_cases h4 : r = 127 <;> simp [h1, h2, h3, h4]

theorem filter_join_not_space (Z : List (List Nat)) :
    (join [0x0A] Z).filter (fun r => !isSpace r)
      = (Z.map (List.filter (fun r => !isSpace r))).flatten := by
  induction Z with
  | nil => rfl
  | cons l ls ih =>
    by_cases hls : ls = []
    · subst hls; simp [join_singleton]
    · rw [join_cons_of_ne_nil _ _ _ hls, List.filter_append, List.filter_append, ih]
      have : List.filter (fun r => !isSpace r) [0x0A] = [] := by decide
      rw [this]; simp

theorem filter_collapseFrom (b : Bool) (L : List (List Nat)) :
    ((collapseFrom b L).map (List.filter (fun r => !isSpace r))).flatten
      = (L.map (List.filter (fun r => !isSpace r))).flatten := by
  induction L generalizing b with
  | nil => rfl
  | cons l ls ih =>
    simp only [collapseFrom]
    have hblank : trimRunes (trimRight l [0x20, 0x09]) = [] →
        l.filter (fun r => !isSpace r) = [] := by
      intro h
      rw [trimRunes_trimRight_eq_nil_iff, trimRunes_eq_nil_iff_filter] at h
      exact h
    split_ifs with h1 h2
    · rw [ih, List.map_cons, List.flatten_cons, hblank h1]; rfl
    · rw [List.map_cons, List.flatten_cons, ih, List.map_cons, List.flatten_cons, hblank h1]; rfl
    · rw [List.map_cons, List.flatten_cons, ih, List.map_cons, List.flatten_cons,
        filter_trimRight]

/-- The normal form keeps exactly the runes that are not white space, in
order. -/
theorem filter_normalizeRunes (rs : List Nat) :
    (normalizeRunes rs).filter (fun r => !isSpace r) = rs.filter (fun r => !isSpace r) := by
  rw [normalizeRunes, filter_trimRunes, filter_join_not_space, filter_collapseFrom,
    ← filter_join_not_space, join_split]

theorem normalizeRunes_eq_nil_iff (rs : List Nat) :
    normalizeRunes rs = [] ↔ rs.filter (fun r => !isSpace r) = [] := by
  rw [← filter_normalizeRunes, ← trimRunes_eq_nil_iff_filter, trimRunes_normalizeRunes]

theorem filter_good_map_crToLF (rs : List Nat) :
    (rs.map crToLF).filter (fun r => !isSpace r) = rs.filter (fun r => !isSpace r) := by
  induction rs with
  | nil => rfl
  | cons r rs ih =>
    rw [List.map_cons]
    by_cases h : r = 0x0D
    · subst h
      rw [List.filter_cons_of_neg (by decide), List.filter_cons_of_neg (by decide), ih]
    · rw [crToLF, if_neg h, List.filter_cons, List.filter_cons, ih]

theorem filter_good_dropCRBeforeLF : ∀ (n : Nat) (rs : List Nat), rs.length ≤ n →
    (dropCRBeforeLF rs).filter (fun r => !isSpace r) = rs.filter (fun r => !isSpace r) := by
  intro n
  induction n with
  | zero =>
    intro rs h
    have : rs = [] := List.length_eq_zero.mp (Nat.le_zero.mp h)
    subst this; rfl
  | succ n ih =>
    intro rs h
    rcases rs with _ | ⟨a, _ | ⟨b, rest⟩⟩
    · rfl
    · rfl
    · rw [dropCRBeforeLF]
      split_ifs with hab
      · obtain ⟨rfl, rfl⟩ := hab
        rw [List.filter_cons_of_neg (by decide), List.filter_cons_of_neg (by decide),
          List.filter_cons_of_neg (by decide),
          ih rest (by simp only [List.length_cons] at h; omega)]
      · rw [List.filter_cons, ih (b :: rest) (by simpa using h)]
        simp only [List.filter_cons]

/-- The runes of the input that are not white space are those of the string
`normalizeText` cleans. -/
theorem filter_runes_unifyAndTrim (x : GoString) :
    (runes (unifyAndTrim x)).filter (fun r => !isSpace r)
      = (runes x).filter (fun r => !isSpace r) := by
  rw [unifyAndTrim, runes_trimSpace, filter_trimRunes, replaceAll_cr, replaceAll_crlf,
    runes_map_crToLF, filter_good_map_crToLF, runes_dropCRBeforeLF,
    filter_good_dropCRBeforeLF _ _ (le_refl _)]

theorem filter_cleanedRunes (x : GoString) :
    (cleanedRunes x).filter (fun r => !isSpace r)
      = (runes x).filter (fun r => keepRune r && !isSpace r) := by
  have h1 : ∀ R : List Nat, (R.filter keepRune).filter (fun r => !isSpace r)
      = (R.filter (fun r => !isSpace r)).filter keepRune := by
    intro R
    rw [List.filter_filter, List.filter_filter]
    congr 1
    funext r
    exact Bool.and_comm _ _
  rw [cleanedRunes, h1, filter_runes_unifyAndTrim, List.filter_filter]

theorem trimRunes_eq_self_ends {l : List Nat} (h : trimRunes l = l) (hne : l ≠ []) :
    (∃ a, l.head? = some a ∧ isSpace a = false)
      ∧ (∃ b, l.getLast? = some b ∧ isSpace b = false) := by
  have hnn : trimRunes l ≠ [] := by rw [h]; exact hne
  constructor
  · rcases l with _ | ⟨a, t⟩
    · exact absurd rfl hne
    · refine ⟨a, rfl, ?_⟩
      by_contra ha
      have ha' : isSpace a = true := by simpa using ha
      have h1 : (trimRunes (a :: t)).length ≤ t.length := by
        unfold trimRunes
        rw [List.dropWhile_cons_of_pos ha']
        exact le_trans (List.rdropWhile_prefix _ _).length_le (List.dropWhile_suffix _).length_le
      rw [h] at h1
      simp at h1
  · rcases List.eq_nil_or_concat l with rfl | ⟨ini, b, hl⟩
    · exact absurd rfl hne
    · rw [List.concat_eq_append] at hl
      subst hl
      refine ⟨b, by simp, ?_⟩
      have hlast : ¬ isSpace ((trimRunes (ini ++ [b])).getLast hnn) = true :=
        List.rdropWhile_last_not isSpace ((ini ++ [b]).dropWhile isSpace) hnn
      have hcongr : ∀ (m : List Nat) (hm : m ≠ []), m = ini ++ [b] → m.getLast hm = b := by
        intro m hm e; subst e; simp
      rw [hcongr _ hnn h] at hlast
      simpa using hlast

/-- C8: `normalizeText` fails with one of its "text is empty" errors exactly
when no rune of the input is both not white space and not a stripped control
character; and a successful result is not empty and neither starts nor ends
with white space. -/
theorem normalizeText_empty_text (x : GoString) :
    ((∃ e, normalizeText x = .error e ∧ e.isEmptyText = true)
        ↔ ∀ r ∈ runes x, isSpace r = true ∨ strippedControl r = true)
      ∧ ∀ y, normalizeText x = .ok y →
          y ≠ [] ∧ trimSpace y = y
            ∧ (∃ a, (runes y).head? = some a ∧ isSpace a = false)
            ∧ (∃ b, (runes y).getLast? = some b ∧ isSpace b = false) := by
  constructor
  · have hgood : (∀ r ∈ runes x, isSpace r = true ∨ strippedControl r = true)
        ↔ (cleanedRunes x).filter (fun r => !isSpace r) = [] := by
      rw [filter_cleanedRunes, List.filter_eq_nil_iff]
      apply forall_congr'
      intro r
      apply imp_congr_right
      intro _
      rw [keepRune_eq_not_stripped]
      cases isSpace r <;> cases strippedControl r <;> simp
    rw [hgood, ← normalizeRunes_eq_nil_iff, normalizeText_eq]
    constructor
    · rintro ⟨e, he, hemp⟩
      split_ifs at he with h1 h2 h3 h4
      · have hr : runes (unifyAndTrim x) = [] := by rw [h1]; rfl
        have hc : cleanedRunes x = [] := by rw [cleanedRunes, hr]; rfl
        rw [hc]; rfl
      · rw [h2]; rfl
      · exact h3
      · have := Except.error.inj he
        subst this
        exact absurd hemp (by simp [TextError.isEmptyText])
    · intro h
      split_ifs with h1 h2
      · exact ⟨_, rfl, rfl⟩
      · exact ⟨_, rfl, rfl⟩
      · exact ⟨_, rfl, rfl⟩
  · intro y hy
    obtain ⟨-, -, h3, h4, -⟩ := normalizeText_ok hy
    have hv := normalizeRunes_valid (cleanedRunes_valid x)
    have hr : runes y = normalizeRunes (cleanedRunes x) := by rw [h4, runes_encodeAll _ hv]
    have ht := trimRunes_normalizeRunes (cleanedRunes x)
    refine ⟨?_, ?_, ?_⟩
    · rw [h4, Ne, encodeAll_eq_nil]; exact h3
    · rw [h4, trimSpace_encodeAll _ hv, ht]
    · rw [hr]; exact trimRunes_eq_self_ends ht h3

/-! ## The length limit -/

/-- `normalizeText` on an encoded rune sequence in normal form: only the
length check is left. -/
theorem normalizeText_of_normal_length (ys : List Nat) (hv : ∀ r ∈ ys, validRune r)
    (hk : ∀ r ∈ ys, keepRune r = true) (hn : normalizeRunes ys = ys) (hne : ys ≠ []) :
    normalizeText (encodeAll ys) =
      if (encodeAll ys).length > maxTextLen then
        .error (.tooLong (encodeAll ys).length maxTextLen)
      else .ok (encodeAll ys) := by
  have h13 : 0x0D ∉ encodeAll ys := by
    intro h
    have := hk _ (mem_encodeAll_ascii ys _ (by decide) h)
    revert this; decide
  have htrim : trimRunes ys = ys := by
    have := trimRunes_normalizeRunes ys
    rwa [hn] at this
  have hfilter : ys.filter keepRune = ys := List.filter_eq_self.mpr hk
  have h1 : unifyAndTrim (encodeAll ys) = encodeAll ys := by
    rw [unifyAndTrim, replaceAll_of_not_mem _ _ _ _ h13, replaceAll_of_not_mem _ _ _ _ h13,
      trimSpace_encodeAll _ hv, htrim]
  have h2 : cleanedRunes (encodeAll ys) = ys := by
    rw [cleanedRunes, h1, runes_encodeAll _ hv, hfilter]
  rw [normalizeText_eq, h1, h2, hn]
  rw [if_neg (by rw [encodeAll_eq_nil]; exact hne), if_neg hne, if_neg hne]

/-- A single line that neither starts nor ends with white space is in normal
form. -/
theorem normalizeRunes_single_line (l : List Nat) (h10 : 0x0A ∉ l) (ht : trimRunes l = l)
    (hne : l ≠ []) : normalizeRunes l = l := by
  have hsplit : split 0x0A l = [l] := by
    have := split_join [l] (by simp) (by simpa using h10)
    rwa [join_singleton] at this
  have hnn : trimRunes l ≠ [] := by rw [ht]; exact hne
  have hright : trimRight l [0x20, 0x09] = l := by
    have := (content_rdropWhile hnn).2.1
    have hr : List.rdropWhile isSpace l = l := by
      have h1 : (trimRunes l).length ≤ (l.dropWhile isSpace).length :=
        (List.rdropWhile_prefix _ _).length_le
      have h2 : l.dropWhile isSpace = l := by
        apply (List.dropWhile_suffix isSpace).eq_of_length
        have := (List.dropWhile_suffix (l := l) isSpace).length_le
        rw [ht] at h1
        omega
      have h3 : trimRunes l = List.rdropWhile isSpace l := by
        unfold trimRunes; rw [h2]
      rw [← h3, ht]
    rwa [hr] at this
  have hfix : Fixed false [l] := by
    simp only [Fixed, if_neg hne]
    exact ⟨⟨hright, hnn⟩, trivial⟩
  rw [normalizeRunes, hsplit, collapseFrom_of_fixed _ _ hfix, join_singleton, ht]

theorem encodeAll_replicate_ascii (n a : Nat) (ha : a ≤ 0x7F) :
    encodeAll (List.replicate n a) = List.replicate n a := by
  induction n with
  | zero => rfl
  | succ n ih => rw [List.replicate_succ, encodeAll_cons, ih, encodeRune_ascii a ha]; rfl

theorem trimRunes_replicate (n a : Nat) (ha : isSpace a = false) :
    trimRunes (List.replicate n a) = List.replicate n a := by
  cases n with
  | zero => rfl
  | succ n =>
    unfold trimRunes
    rw [List.replicate_succ, List.dropWhile_cons_of_neg (by simp [ha]), ← List.replicate_succ,
      List.replicate_succ', List.rdropWhile_concat, if_neg (by simp [ha])]

/-- `normalizeText` on `n` copies of one rune that is kept and is not white
space. -/
theorem normalizeText_replicate (n a : Nat) (hn : 0 < n) (hv : validRune a)
    (hk : keepRune a = true) (hs : isSpace a = false) :
    normalizeText (encodeAll (List.replicate n a)) =
      if (encodeAll (List.replicate n a)).length > maxTextLen then
        .error (.tooLong (encodeAll (List.replicate n a)).length maxTextLen)
      else .ok (encodeAll (List.replicate n a)) := by
  have hmem : ∀ r ∈ List.replicate n a, r = a := fun r hr => (List.mem_replicate.mp hr).2
  have hne : List.replicate n a ≠ [] := by
    intro h
    have := congrArg List.length h
    simp at this
    omega
  exact normalizeText_of_normal_length (List.replicate n a)
    (fun r hr => by rw [hmem r hr]; exact hv)
    (fun r hr => by rw [hmem r hr]; exact hk)
    (normalizeRunes_single_line _
      (fun h => by rw [← hmem _ h] at hs; revert hs; decide)
      (trimRunes_replicate n a hs) hne) hne

theorem encodeAll_replicate_length (n a : Nat) :
    (encodeAll (List.replicate n a)).length = n * (encodeRune a).length := by
  induction n with
  | zero => simp [encodeAll]
  | succ n ih =>
    rw [List.replicate_succ, encodeAll_cons, List.length_append, ih]
    ring

/-- C9: the length limit is on the byte length of the normalised text, with
the boundary at 10,000: an input that passes the empty-text checks gives its
normalised text when that is at most 10,000 bytes long and the too-long error
when it is 10,001 bytes or more; no successful result is longer than 10,000
bytes; 10,000 letters "a" are accepted and 10,001 are rejected; 5,000 letters
"é" (two bytes each) are accepted and 5,001 of them (10,002 bytes) are
rejected. -/
theorem normalizeText_length_limit (x : GoString) :
    ((¬ ∃ e, normalizeText x = .error e ∧ e.isEmptyText = true) →
        ((normalizedResult x).length ≤ 10000 → normalizeText x = .ok (normalizedResult x))
        ∧ (10001 ≤ (normalizedResult x).length →
            normalizeText x = .error (.tooLong (normalizedResult x).length 10000)))
      ∧ (∀ y, normalizeText x = .ok y → y = normalizedResult x ∧ y.length ≤ 10000)
      ∧ normalizeText (List.replicate 10000 0x61) = .ok (List.replicate 10000 0x61)
      ∧ normalizeText (List.replicate 10001 0x61) = .error (.tooLong 10001 10000)
      ∧ normalizeText (encodeAll (List.replicate 5000 0xE9))
          = .ok (encodeAll (List.replicate 5000 0xE9))
      ∧ normalizeText (encodeAll (List.replicate 5001 0xE9))
          = .error (.tooLong 10002 10000) := by
  have hmax : maxTextLen = 10000 := rfl
  have hE9 : (encodeRune 0xE9).length = 2 := by decide
  have h61 : (encodeRune 0x61).length = 1 := by decide
  refine ⟨?_, ?_, ?_, ?_, ?_, ?_⟩
  · intro hpass
    rw [normalizeText_def] at hpass ⊢
    split_ifs at hpass ⊢ with h1 h2 h3 h4
    · exact absurd ⟨_, rfl, rfl⟩ hpass
    · exact absurd ⟨_, rfl, rfl⟩ hpass
    · exact absurd ⟨_, rfl, rfl⟩ hpass
    · rw [hmax] at h4 ⊢
      exact ⟨fun h => absurd h (by omega), fun _ => rfl⟩
    · rw [hmax] at h4
      exact ⟨fun _ => rfl, fun h => absurd h (by omega)⟩
  · intro y hy
    rw [normalizeText_def] at hy
    split_ifs at hy with h1 h2 h3 h4
    have := Except.ok.inj hy
    subst this
    rw [hmax] at h4
    exact ⟨rfl, by omega⟩
  · have h := normalizeText_replicate 10000 0x61 (by decide) (by decide) (by decide) (by decide)
    rw [encodeAll_replicate_length, h61, hmax, if_neg (by decide),
      encodeAll_replicate_ascii _ _ (by decide)] at h
    exact h
  · have h := normalizeText_replicate 10001 0x61 (by decide) (by decide) (by decide) (by decide)
    rw [encodeAll_replicate_length, h61, hmax, if_pos (by decide),
      encodeAll_replicate_ascii _ _ (by decide)] at h
    exact h
  · have h := normalizeText_replicate 5000 0xE9 (by decide) (by decide) (by decide) (by decide)
    rw [encodeAll_replicate_length, hE9, hmax, if_neg (by decide)] at h
    exact h
  · have h := normalizeText_replicate 5001 0xE9 (by decide) (by decide) (by decide) (by decide)
    rw [encodeAll_replicate_length, hE9, hmax, if_pos (by decide)] at h
    exact h

/-! ## Blank lines -/

theorem split_append_sep (sep : Nat) (a b : List Nat) :
    split sep (a ++ sep :: b) = split sep a ++ split sep b := by
  induction a with
  | nil => rw [List.nil_append, split_cons_eq]; rfl
  | cons x a ih =>
    by_cases hx : x = sep
    · subst hx
      rw [List.cons_append, split_cons_eq, split_cons_eq, ih]; rfl
    · rw [List.cons_append, split_cons_ne _ _ _ hx, split_cons_ne _ _ _ hx, ih]
      rcases hs : split sep a with _ | ⟨l, ls⟩
      · exact absurd hs (split_ne_nil _ _)
      · rfl

theorem not_fixed_two_empty (A R : List (List Nat)) :
    ∀ b, ¬ Fixed b (A ++ [] :: [] :: R) := by
  induction A with
  | nil =>
    intro b h
    simp only [List.nil_append, Fixed, if_true] at h
    exact absurd h.2.1 (by simp)
  | cons a A ih =>
    intro b h
    simp only [List.cons_append, Fixed] at h
    split_ifs at h
    · exact ih _ h.2
    · exact ih _ h.2

theorem trimRunes_concat_space (l : List Nat) (x : Nat) (hx : isSpace x = true) :
    trimRunes (l ++ [x]) = trimRunes l := by
  unfold trimRunes
  rw [List.dropWhile_append]
  split_ifs with h
  · have h' : l.dropWhile isSpace = [] := by simpa using h
    rw [h', List.dropWhile_cons_of_pos hx]; rfl
  · rw [List.rdropWhile_concat, if_pos hx]

theorem trimRunes_rdropWhile (q : Nat → Bool) (hq : ∀ x, q x = true → isSpace x = true)
    (l : List Nat) : trimRunes (List.rdropWhile q l) = trimRunes l := by
  induction l using List.reverseRecOn with
  | nil => rfl
  | append_singleton l x ih =>
    rw [List.rdropWhile_concat]
    split_ifs with h
    · rw [ih, trimRunes_concat_space l x (hq x h)]
    · rfl

theorem trimRunes_trimRight (l : List Nat) :
    trimRunes (trimRight l [0x20, 0x09]) = trimRunes l :=
  trimRunes_rdropWhile _ (fun x h => isSpace_of_mem_cutset (by simpa using h)) l

theorem trimRunes_dropWhile (l : List Nat) : trimRunes (l.dropWhile isSpace) = trimRunes l := by
  unfold trimRunes; rw [List.dropWhile_idempotent]

/-- Whatever comes before a line that is not blank, the loop over the lines
writes that line, right-trimmed, and goes on from `emptyRun = 0`. -/
theorem collapseFrom_append_content (A : List (List Nat)) :
    ∀ b, ∃ Z, ∀ (c : List Nat) (R : List (List Nat)), trimRunes c ≠ [] →
      collapseFrom b (A ++ c :: R) = Z ++ trimRight c [0x20, 0x09] :: collapseFrom false R := by
  induction A with
  | nil =>
    intro b
    refine ⟨[], fun c R hc => ?_⟩
    rw [List.nil_append, collapseFrom, if_neg (by rw [trimRunes_trimRight]; exact hc)]; rfl
  | cons a A ih =>
    intro b
    obtain ⟨Zt, hZt⟩ := ih true
    obtain ⟨Zf, hZf⟩ := ih false
    by_cases h1 : trimRunes (trimRight a [0x20, 0x09]) = []
    · by_cases h2 : b = true
      · refine ⟨Zt, fun c R hc => ?_⟩
        rw [List.cons_append, collapseFrom, if_pos h1, if_pos h2, hZt c R hc]
      · refine ⟨[] :: Zt, fun c R hc => ?_⟩
        rw [List.cons_append, collapseFrom, if_pos h1, if_neg h2, hZt c R hc]; rfl
    · refine ⟨trimRight a [0x20, 0x09] :: Zf, fun c R hc => ?_⟩
      rw [List.cons_append, collapseFrom, if_neg h1, hZf c R hc]; rfl

theorem collapseFrom_true_blanks (blanks : List (List Nat)) (c : List Nat)
    (R : List (List Nat)) (hb : ∀ l ∈ blanks, trimRunes l = []) (hc : trimRunes c ≠ []) :
    collapseFrom true (blanks ++ c :: R)
      = trimRight c [0x20, 0x09] :: collapseFrom false R := by
  induction blanks with
  | nil =>
    rw [List.nil_append, collapseFrom, if_neg (by rw [trimRunes_trimRight]; exact hc)]
  | cons l ls ih =>
    rw [List.cons_append, collapseFrom,
      if_pos (by rw [trimRunes_trimRight]; exact hb l (by simp)), if_pos rfl,
      ih (fun l' hl' => hb l' (by simp [hl']))]

/-- A run of blank lines between two lines that are not blank becomes one empty
line, and no line at all when the run is empty. -/
theorem collapseFrom_false_blanks (blanks : List (List Nat)) (c : List Nat)
    (R : List (List Nat)) (hb : ∀ l ∈ blanks, trimRunes l = []) (hc : trimRunes c ≠ []) :
    collapseFrom false (blanks ++ c :: R)
      = (if blanks = [] then [] else [[]])
          ++ trimRight c [0x20, 0x09] :: collapseFrom false R := by
  cases blanks with
  | nil =>
    rw [List.nil_append, collapseFrom, if_neg (by rw [trimRunes_trimRight]; exact hc)]; rfl
  | cons l ls =>
    rw [List.cons_append, collapseFrom,
      if_pos (by rw [trimRunes_trimRight]; exact hb l (by simp)), if_neg (by simp),
      collapseFrom_true_blanks ls c R (fun l' hl' => hb l' (by simp [hl'])) hc]
    rfl

theorem ltrimLines_append_content (A R : List (List Nat)) (c : List Nat)
    (hc : trimRunes c ≠ []) :
    ∃ A' c', ltrimLines (A ++ c :: R) = A' ++ c' :: R ∧ trimRunes c' = trimRunes c
      ∧ ∀ r ∈ c', r ∈ c := by
  induction A with
  | nil =>
    refine ⟨[], c.dropWhile isSpace, ?_, trimRunes_dropWhile c,
      fun r hr => (List.dropWhile_suffix _).subset hr⟩
    rw [List.nil_append, ltrimLines, if_neg]
    · rfl
    · intro h; apply hc; unfold trimRunes; rw [h]; rfl
  | cons a A ih =>
    rw [List.cons_append, ltrimLines]
    split_ifs with h
    · exact ih
    · exact ⟨a.dropWhile isSpace :: A, c, rfl, rfl, fun r hr => hr⟩

theorem rtrimLines_append_content (A R : List (List Nat)) (c : List Nat)
    (hc : trimRunes c ≠ []) :
    ∃ c' R', rtrimLines (A ++ c :: R) = A ++ c' :: R' ∧ trimRunes c' = trimRunes c
      ∧ ∀ r ∈ c', r ∈ c := by
  induction A with
  | nil =>
    rw [List.nil_append, rtrimLines]
    split_ifs with h1 h2
    · exact absurd h2 (content_rdropWhile hc).1
    · exact ⟨List.rdropWhile isSpace c, [], rfl,
        trimRunes_rdropWhile isSpace (fun _ h => h) c,
        fun r hr => (List.rdropWhile_prefix _ _).subset hr⟩
    · exact ⟨c, rtrimLines R, rfl, rfl, fun r hr => hr⟩
  | cons a A ih =>
    obtain ⟨c', R', h, h', h''⟩ := ih
    refine ⟨c', R', ?_, h', h''⟩
    rw [List.cons_append, rtrimLines, h, if_neg (by simp)]
    rfl

/-- The lines of the normal form, where the lines of the text hold two lines
that are not blank with only blank lines between them. -/
theorem normal_lines_between (pre blanks post : List (List Nat)) (c1 c2 : List Nat)
    (b : Bool) (h1 : trimRunes c1 ≠ []) (h2 : trimRunes c2 ≠ [])
    (hb : ∀ l ∈ blanks, trimRunes l = []) :
    ∃ pre' c1' c2' post',
      rtrimLines (ltrimLines (collapseFrom b (pre ++ c1 :: (blanks ++ c2 :: post))))
        = pre' ++ c1' :: ((if blanks = [] then [] else [[]]) ++ c2' :: post')
      ∧ trimRunes c1' = trimRunes c1 ∧ trimRunes c2' = trimRunes c2
      ∧ (∀ r ∈ c1', r ∈ c1) ∧ (∀ r ∈ c2', r ∈ c2) := by
  obtain ⟨Z, hZ⟩ := collapseFrom_append_content pre b
  rw [hZ c1 _ h1, collapseFrom_false_blanks blanks c2 post hb h2]
  have ht1 : trimRunes (trimRight c1 [0x20, 0x09]) ≠ [] := by rw [trimRunes_trimRight]; exact h1
  have ht2 : trimRunes (trimRight c2 [0x20, 0x09]) ≠ [] := by rw [trimRunes_trimRight]; exact h2
  obtain ⟨A', c1', hl, hl', hl''⟩ := ltrimLines_append_content Z
    ((if blanks = [] then [] else [[]]) ++ trimRight c2 [0x20, 0x09] :: collapseFrom false post)
    (trimRight c1 [0x20, 0x09]) ht1
  rw [hl]
  obtain ⟨c2', R', hr, hr', hr''⟩ := rtrimLines_append_content
    (A' ++ c1' :: (if blanks = [] then [] else [[]])) (collapseFrom false post)
    (trimRight c2 [0x20, 0x09]) ht2
  refine ⟨A', c1', c2', R', ?_, by rw [hl', trimRunes_trimRight],
    by rw [hr', trimRunes_trimRight], fun r hr => mem_of_mem_trimRight (hl'' r hr),
    fun r hr => mem_of_mem_trimRight (hr'' r hr)⟩
  have e1 : A' ++ c1' :: ((if blanks = [] then [] else [[]])
      ++ trimRight c2 [0x20, 0x09] :: collapseFrom false post)
      = (A' ++ c1' :: (if blanks = [] then [] else [[]]))
          ++ trimRight c2 [0x20, 0x09] :: collapseFrom false post := by
    simp
  rw [e1, hr]
  simp

theorem map_encodeAll_eq_cons {L : List (List Nat)} {c : List Nat} {rest : List (List Nat)}
    (h : L.map encodeAll = c :: rest) :
    ∃ cR restR, L = cR :: restR ∧ encodeAll cR = c ∧ restR.map encodeAll = rest := by
  cases L with
  | nil => simp at h
  | cons a L => exact ⟨a, L, rfl, (List.cons.inj h).1, (List.cons.inj h).2⟩

theorem normal_lines_no_two_empty (rs : List Nat) (A R : List (List Nat)) :
    rtrimLines (ltrimLines (collapseFrom false (split 0x0A rs))) ≠ A ++ [] :: [] :: R :=
  fun e => not_fixed_two_empty A R false (e ▸ fixed_normal_lines rs)

/-- The lines of a successful result are the lines of the normal form. -/
theorem split_normalizeText_ok {x y : GoString} (h : normalizeText x = .ok y) :
    split 0x0A y
      = (rtrimLines (ltrimLines (collapseFrom false (split 0x0A (cleanedRunes x))))).map
          encodeAll := by
  obtain ⟨-, -, h3, h4, -⟩ := normalizeText_ok h
  rw [normalizeRunes_eq_join] at h3 h4
  have hW : rtrimLines (ltrimLines (collapseFrom false (split 0x0A (cleanedRunes x)))) ≠ [] := by
    intro e; rw [e] at h3; exact h3 rfl
  rw [h4, split_encodeAll, split_join _ hW (fun l hl => not_mem_normal_lines hl)]

/-- C10: on success the output has no two consecutive empty lines (no
"\n\n\n"); two lines of the cleaned text that are not blank and have only
blank lines between them come out with exactly one empty line between them
when there is a blank line between them, and next to each other when there is
none; each is the line it was, up to the white space at its ends. -/
theorem normalizeText_blank_lines (x y : GoString) (h : normalizeText x = .ok y) :
    ¬ ([0x0A, 0x0A, 0x0A] <:+: y)
      ∧ (∀ pre post, split 0x0A y ≠ pre ++ [] :: [] :: post)
      ∧ (∀ pre c1 blanks c2 post,
          split 0x0A (cleanedText x) = pre ++ c1 :: (blanks ++ c2 :: post) →
          trimSpace c1 ≠ [] → trimSpace c2 ≠ [] → (∀ l ∈ blanks, trimSpace l = []) →
          ∃ pre' c1' c2' post',
            split 0x0A y
              = pre' ++ c1' :: ((if blanks = [] then [] else [[]]) ++ c2' :: post')
            ∧ trimSpace c1' = trimSpace c1 ∧ trimSpace c2' = trimSpace c2) := by
  have hsplit := split_normalizeText_ok h
  have hlv : ∀ l ∈ split 0x0A (cleanedRunes x), ∀ r ∈ l, validRune r :=
    fun l hl r hr => cleanedRunes_valid x r (mem_of_mem_split hl hr)
  have h2 : ∀ pre post, split 0x0A y ≠ pre ++ [] :: [] :: post := by
    intro pre post e
    rw [hsplit] at e
    obtain ⟨A, B, hW, -, hB⟩ := List.map_eq_append_iff.mp e
    obtain ⟨a1, B1, rfl, ha1, hB1⟩ := map_encodeAll_eq_cons hB
    obtain ⟨a2, B2, rfl, ha2, -⟩ := map_encodeAll_eq_cons hB1
    rw [encodeAll_eq_nil] at ha1 ha2
    subst ha1 ha2
    exact normal_lines_no_two_empty (cleanedRunes x) A B2 hW
  refine ⟨?_, h2, ?_⟩
  · rintro ⟨s, t, e⟩
    apply h2 (split 0x0A s) (split 0x0A t)
    rw [← e]
    have e1 : s ++ [0x0A, 0x0A, 0x0A] ++ t = s ++ 0x0A :: (0x0A :: 0x0A :: t) := by simp
    rw [e1, split_append_sep, split_cons_eq, split_cons_eq]
  · intro pre c1 blanks c2 post hL hc1 hc2 hbl
    rw [cleanedText, cleaned_eq_encodeAll, split_encodeAll] at hL
    obtain ⟨preR, B, hLR, hpre, hB⟩ := List.map_eq_append_iff.mp hL
    obtain ⟨c1R, B1, rfl, rfl, hB1⟩ := map_encodeAll_eq_cons hB
    obtain ⟨blanksR, B2, rfl, hblanks, hB2⟩ := List.map_eq_append_iff.mp hB1
    obtain ⟨c2R, postR, rfl, rfl, hpost⟩ := map_encodeAll_eq_cons hB2
    have hv1 : ∀ r ∈ c1R, validRune r := hlv c1R (by rw [hLR]; simp)
    have hv2 : ∀ r ∈ c2R, validRune r := hlv c2R (by rw [hLR]; simp)
    rw [trimSpace_encodeAll _ hv1, Ne, encodeAll_eq_nil] at hc1
    rw [trimSpace_encodeAll _ hv2, Ne, encodeAll_eq_nil] at hc2
    have hblR : ∀ l ∈ blanksR, trimRunes l = [] := by
      intro l hl
      have hvl : ∀ r ∈ l, validRune r := hlv l (by rw [hLR]; simp [hl])
      have := hbl (encodeAll l) (by rw [← hblanks]; exact List.mem_map_of_mem _ hl)
      rwa [trimSpace_encodeAll _ hvl, encodeAll_eq_nil] at this
    obtain ⟨pre', c1', c2', post', hW, ht1, ht2, hs1, hs2⟩ :=
      normal_lines_between preR blanksR postR c1R c2R false hc1 hc2 hblR
    rw [← hLR] at hW
    refine ⟨pre'.map encodeAll, encodeAll c1', encodeAll c2', post'.map encodeAll, ?_, ?_, ?_⟩
    · rw [hsplit, hW]
      have hsep : (if blanks = [] then ([] : List (List Nat)) else [[]])
          = (if blanksR = [] then ([] : List (List Nat)) else [[]]).map encodeAll := by
        rw [← hblanks]
        cases blanksR <;> simp [encodeAll]
      rw [hsep]
      simp
    · rw [trimSpace_encodeAll _ (fun r hr => hv1 r (hs1 r hr)), trimSpace_encodeAll _ hv1, ht1]
    · rw [trimSpace_encodeAll _ (fun r hr => hv2 r (hs2 r hr)), trimSpace_encodeAll _ hv2, ht2]

/-- C10 witness: "a\n\n\n\nb" gives "a\n\nb". -/
theorem normalizeText_blank_lines_witness :
    normalizeText [0x61, 0x0A, 0x0A, 0x0A, 0x0A, 0x62] = .ok [0x61, 0x0A, 0x0A, 0x62]
      ∧ ¬ ([0x0A, 0x0A, 0x0A] <:+: [0x61, 0x0A, 0x0A, 0x62])
      ∧ ∃ pre' c1' c2' post',
          split 0x0A [0x61, 0x0A, 0x0A, 0x62]
            = pre' ++ c1' :: ((if [[], [], []] = ([] : List (List Nat)) then [] else [[]])
                ++ c2' :: post')
          ∧ trimSpace c1' = trimSpace [0x61] ∧ trimSpace c2' = trimSpace [0x62] :=
  ⟨by decide,
    (normalizeText_blank_lines [0x61, 0x0A, 0x0A, 0x0A, 0x0A, 0x62] [0x61, 0x0A, 0x0A, 0x62]
      (by decide)).1,
    (normalizeText_blank_lines [0x61, 0x0A, 0x0A, 0x0A, 0x0A, 0x62] [0x61, 0x0A, 0x0A, 0x62]
      (by decide)).2.2 [] [0x61] [[], [], []] [0x62] [] (by decide) (by decide) (by decide)
      (by decide)⟩

/-! ## The receive loop -/

theorem writeParts_eq (pcm : List Nat) (parts : List Part) :
    writeParts pcm parts
      = pcm ++ parts.flatMap (fun p => match p.inlineData with
          | some blob => blob.data
          | none => []) := by
  unfold writeParts
  induction parts generalizing pcm with
  | nil => simp
  | cons p ps ih =>
    rw [List.foldl_cons, ih, List.flatMap_cons]
    rcases hp : p.inlineData with _ | blob
    · simp
    · by_cases hlen : blob.data.length > 0
      · simp [hlen, bufWrite]
      · have : blob.data = [] := List.length_eq_zero.mp (by omega)
        simp [this]

theorem writeMessage_eq (pcm : List Nat) (msg : LiveServerMessage) :
    writeMessage pcm msg = pcm ++ messageAudio msg := by
  rcases msg with ⟨_ | ⟨_ | turn, tc, gc⟩⟩
  · simp [writeMessage, messageAudio]
  · simp [writeMessage, messageAudio]
  · exact writeParts_eq pcm turn.parts

theorem receiveLoop_append (pre : List LiveServerMessage)
    (hpre : ∀ m ∈ pre, isTerminal m = false) (rest : List ReceiveResult) :
    ∀ pcm, receiveLoop (pre.map Except.ok ++ rest) pcm
      = receiveLoop rest (pcm ++ (pre.map messageAudio).flatten) := by
  induction pre with
  | nil => intro pcm; simp
  | cons m pre ih =>
    intro pcm
    rw [List.map_cons, List.cons_append, receiveLoop,
      if_neg (by rw [hpre m (by simp)]; simp), ih (fun m' hm' => hpre m' (by simp [hm'])),
      writeMessage_eq]
    simp

/-- C7: the receive loop accumulates the audio in arrival order and stops only
on a terminal message or a read error.  If the messages before `last` do not
signal completion and `last` does, the buffer handed to the encoder is the
inline data of those messages and of `last`, in message and part order,
whatever would have been received afterwards, and the response is 200 with
the container of that buffer; if a read error comes instead of `last`, the
response is 502 with the error text and nothing of the audio; and as long as
neither has come the handler is still receiving. -/
theorem receiveLoop_accumulates (pre : List LiveServerMessage) (last : LiveServerMessage)
    (err : GoString) (rest : List ReceiveResult)
    (hpre : ∀ m ∈ pre, isTerminal m = false) (hlast : isTerminal last = true) :
    receiveLoop (pre.map Except.ok ++ .ok last :: rest) []
        = .complete ((pre ++ [last]).map messageAudio).flatten
      ∧ (∃ wav, pcmToWav ((pre ++ [last]).map messageAudio).flatten = .ok wav
          ∧ receiveAndRespond (pre.map Except.ok ++ .ok last :: rest)
              = some { status := 200, contentType := ascii "audio/wav", body := wav })
      ∧ receiveLoop (pre.map Except.ok ++ .error err :: rest) [] = .readFailed err
      ∧ receiveAndRespond (pre.map Except.ok ++ .error err :: rest)
          = some { status := 502, contentType := ascii "text/plain; charset=utf-8",
                   body := ascii "read failed: " ++ err ++ [0x0A] }
      ∧ receiveLoop (pre.map Except.ok) [] = .receiving (pre.map messageAudio).flatten
      ∧ receiveAndRespond (pre.map Except.ok) = none := by
  have h1 : receiveLoop (pre.map Except.ok ++ .ok last :: rest) []
      = .complete ((pre ++ [last]).map messageAudio).flatten := by
    rw [receiveLoop_append pre hpre, receiveLoop, if_pos hlast, writeMessage_eq]
    simp
  have h3 : receiveLoop (pre.map Except.ok ++ .error err :: rest) [] = .readFailed err := by
    rw [receiveLoop_append pre hpre, receiveLoop]
  have h5 : receiveLoop (pre.map Except.ok) [] = .receiving (pre.map messageAudio).flatten := by
    have := receiveLoop_append pre hpre [] []
    rw [List.append_nil] at this
    rw [this, receiveLoop, List.nil_append]
  refine ⟨h1, ?_, h3, ?_, h5, ?_⟩
  · have hw := pcmToWav_eq ((pre ++ [last]).map messageAudio).flatten
    refine ⟨_, hw, ?_⟩
    rw [receiveAndRespond, h1]
    simp only [hw]
  · rw [receiveAndRespond, h3]
    rfl
  · rw [receiveAndRespond, h5]

/-- C7 witness: two audio messages, one message without content, then a
message that carries audio and signals turn completion; what comes after it
is not read. -/
theorem receiveLoop_accumulates_witness :
    (∀ m ∈ [(⟨some ⟨some ⟨[⟨some ⟨[1, 2]⟩⟩, ⟨none⟩, ⟨some ⟨[3]⟩⟩]⟩, false, false⟩⟩
              : LiveServerMessage), ⟨none⟩, ⟨some ⟨some ⟨[⟨some ⟨[4]⟩⟩]⟩, false, false⟩⟩],
        isTerminal m = false)
      ∧ isTerminal ⟨some ⟨some ⟨[⟨some ⟨[5, 6]⟩⟩]⟩, true, false⟩⟩ = true
      ∧ receiveLoop
          [.ok ⟨some ⟨some ⟨[⟨some ⟨[1, 2]⟩⟩, ⟨none⟩, ⟨some ⟨[3]⟩⟩]⟩, false, false⟩⟩,
           .ok ⟨none⟩,
           .ok ⟨some ⟨some ⟨[⟨some ⟨[4]⟩⟩]⟩, false, false⟩⟩,
           .ok ⟨some ⟨some ⟨[⟨some ⟨[5, 6]⟩⟩]⟩, true, false⟩⟩,
           .ok ⟨some ⟨some ⟨[⟨some ⟨[7]⟩⟩]⟩, false, true⟩⟩] []
        = .complete [1, 2, 3, 4, 5, 6] :=
  ⟨by decide, by decide,
    (receiveLoop_accumulates
      [⟨some ⟨some ⟨[⟨some ⟨[1, 2]⟩⟩, ⟨none⟩, ⟨some ⟨[3]⟩⟩]⟩, false, false⟩⟩, ⟨none⟩,
        ⟨some ⟨some ⟨[⟨some ⟨[4]⟩⟩]⟩, false, false⟩⟩]
      ⟨some ⟨some ⟨[⟨some ⟨[5, 6]⟩⟩]⟩, true, false⟩⟩ []
      [.ok ⟨some ⟨some ⟨[⟨some ⟨[7]⟩⟩]⟩, false, true⟩⟩] (by decide) (by decide)).1⟩

/-! ## parseTTSRequest -/

/-- C4, the failing input: the body `{"text":["a",null]}` is accepted, with the
text "a\n"; so is `{"text":[null]}`, with the empty text. -/
theorem parseTTSRequest_null_element :
    parseTTSRequest (some (.object [(ascii "text", .array [.string [0x61], .null])]))
        = .ok { Text := [0x61, 0x0A], Voice := [], Lang := [] }
      ∧ parseTTSRequest (some (.object [(ascii "text", .array [.null])]))
        = .ok { Text := [], Voice := [], Lang := [] } := by
  constructor <;> rfl

theorem decodeStringElems_ok (elems : List JSON)
    (h : ∀ e ∈ elems, e.isString = true ∨ e.isNull = true) :
    decodeStringElems elems = .ok (elems.map JSON.stringOrEmpty) := by
  induction elems with
  | nil => rfl
  | cons e rest ih =>
    have ih' := ih (fun x hx => h x (by simp [hx]))
    have he := h e (by simp)
    cases e <;> simp_all [decodeStringElems, decodeString, JSON.isString, JSON.isNull,
      JSON.stringOrEmpty]

theorem decodeStringElems_error (elems : List JSON)
    (h : ¬ ∀ e ∈ elems, e.isString = true ∨ e.isNull = true) :
    decodeStringElems elems = .error .unmarshalType := by
  induction elems with
  | nil => exact absurd (by simp) h
  | cons e rest ih =>
    by_cases he : e.isString = true ∨ e.isNull = true
    · have hrest : ¬ ∀ x ∈ rest, x.isString = true ∨ x.isNull = true := by
        intro hr; apply h
        intro x hx
        rcases List.mem_cons.mp hx with rfl | hx
        · exact he
        · exact hr x hx
      have ih' := ih hrest
      cases e <;> simp_all [decodeStringElems, decodeString, JSON.isString, JSON.isNull]
    · cases e <;> simp_all [decodeStringElems, decodeString, JSON.isString, JSON.isNull]

theorem collectStrings_error (elems : List JSON) (h : ¬ ∀ e ∈ elems, e.isString = true) :
    collectStrings elems = .error .textArrayNotStrings := by
  induction elems with
  | nil => exact absurd (by simp) h
  | cons e rest ih =>
    by_cases he : e.isString = true
    · have hrest : ¬ ∀ x ∈ rest, x.isString = true := by
        intro hr; apply h
        intro x hx
        rcases List.mem_cons.mp hx with rfl | hx
        · exact he
        · exact hr x hx
      have ih' := ih hrest
      cases e <;> simp_all [collectStrings, JSON.isString]
    · cases e <;> simp_all [collectStrings, JSON.isString]

/-- What `parseTTSRequest` does with a `text` that is an array: it succeeds
exactly when every element is a JSON string or `null`, with the elements joined
by line feeds, a `null` counting as the empty string; any other element gives
"text array must contain strings only". -/
theorem parseTTSRequest_text_array (members : List (GoString × JSON)) (elems : List JSON)
    (h : rawGet members (ascii "text") = some (.array elems)) :
    ((∀ e ∈ elems, e.isString = true ∨ e.isNull = true) →
        parseTTSRequest (some (.object members))
          = .ok { Text := join [0x0A] (elems.map JSON.stringOrEmpty),
                  Voice := decodeOptionalString (rawGet members (ascii "voice")),
                  Lang := decodeOptionalString (rawGet members (ascii "lang")) })
      ∧ ((¬ ∀ e ∈ elems, e.isString = true ∨ e.isNull = true) →
        parseTTSRequest (some (.object members)) = .error .textArrayNotStrings) := by
  constructor
  · intro hall
    simp only [parseTTSRequest, decodeRawMap, h, decodeString, decodeStringSlice,
      decodeStringElems_ok elems hall]
  · intro hnot
    have hnot' : ¬ ∀ e ∈ elems, e.isString = true := fun hs => hnot (fun e he => Or.inl (hs e he))
    simp only [parseTTSRequest, decodeRawMap, h, decodeString, decodeStringSlice,
      decodeStringElems_error elems hnot, decodeAnySlice, collectStrings_error elems hnot']

/-! ## `strings.TrimSpace` and `strings.ToLower` -/

theorem rdrop_drop_idem {α : Type} (p : α → Bool) (l : List α) :
    List.rdropWhile p ((List.rdropWhile p (l.dropWhile p)).dropWhile p)
      = List.rdropWhile p (l.dropWhile p) := by
  have key : (List.rdropWhile p (l.dropWhile p)).dropWhile p
      = List.rdropWhile p (l.dropWhile p) := by
    rcases ht : List.rdropWhile p (l.dropWhile p) with _ | ⟨a, t⟩
    · rfl
    · have hpre : List.rdropWhile p (l.dropWhile p) <+: l.dropWhile p :=
        List.rdropWhile_prefix _ _
      rw [ht] at hpre
      obtain ⟨u, hu⟩ := hpre
      have h1 := List.head?_dropWhile_not p l
      rw [← hu] at h1
      simp only [List.cons_append, List.head?_cons] at h1
      rw [List.dropWhile_cons_of_neg (by simpa using h1)]
  rw [key]
  exact List.rdropWhile_idempotent _ _

/-- `strings.TrimSpace` is idempotent, whatever the bytes are. -/
theorem trimSpace_idem (s : List Nat) : trimSpace (trimSpace s) = trimSpace s := by
  conv_lhs => rw [trimSpace, units_trimSpace, rdrop_drop_idem]
  rfl

theorem runes_of_ascii (s : List Nat) (h : ∀ b ∈ s, b < 0x80) : runes s = s := by
  induction s with
  | nil => rfl
  | cons b s ih =>
    have hb := h b (by simp)
    rw [runes_cons_ascii b s (by omega), ih (fun x hx => h x (by simp [hx]))]

theorem encodeAll_of_ascii (s : List Nat) (h : ∀ b ∈ s, b < 0x80) : encodeAll s = s := by
  induction s with
  | nil => rfl
  | cons b s ih =>
    have hb := h b (by simp)
    rw [encodeAll_cons, encodeRune_ascii b (by omega), ih (fun x hx => h x (by simp [hx]))]
    rfl

/-- `strings.ToLower` as one formula: the runes, lower-cased, encoded. -/
theorem toLower_eq (env : GoEnv) (s : List Nat) :
    toLower env s = encodeAll ((runes s).map (unicodeToLower env)) := by
  unfold toLower
  split_ifs with h
  · have hs : ∀ b ∈ s, b < 0x80 := by
      intro b hb
      have := List.all_eq_true.mp h b hb
      simpa using this
    rw [runes_of_ascii s hs]
    have hmap : s.map (unicodeToLower env)
        = s.map (fun c => if 0x41 ≤ c ∧ c ≤ 0x5A then c + 32 else c) := by
      apply List.map_congr_left
      intro b hb
      have := hs b hb
      unfold unicodeToLower
      rw [if_pos (by omega)]
    rw [hmap, encodeAll_of_ascii]
    intro b hb
    obtain ⟨c, hc, rfl⟩ := List.mem_map.mp hb
    have := hs c hc
    split_ifs <;> omega
  · rw [encodeAll, List.flatMap_map]

theorem trimRunes_eq_self_of_ends (l : List Nat)
    (hh : ∀ a, l.head? = some a → isSpace a = false)
    (hl : ∀ b, l.getLast? = some b → isSpace b = false) : trimRunes l = l := by
  unfold trimRunes
  have h1 : l.dropWhile isSpace = l := by
    cases l with
    | nil => rfl
    | cons a t => rw [List.dropWhile_cons_of_neg (by simp [hh a rfl])]
  rw [h1, List.rdropWhile_eq_self_iff]
  intro hne
  have := hl (l.getLast hne) (List.getLast?_eq_getLast _ hne)
  simp [this]

theorem trimRunes_map_of_trimmed (f : Nat → Nat) (hf : ∀ r, isSpace (f r) = true → isSpace r = true)
    (l : List Nat) (h : trimRunes l = l) : trimRunes (l.map f) = l.map f := by
  by_cases hne : l = []
  · subst hne; rfl
  · obtain ⟨⟨a, ha, hsa⟩, ⟨b, hb, hsb⟩⟩ := trimRunes_eq_self_ends h hne
    apply trimRunes_eq_self_of_ends
    · intro x hx
      rw [List.head?_map, ha] at hx
      have : x = f a := by simpa using hx.symm
      subst this
      by_contra hc
      have := hf a (by simpa using hc)
      rw [hsa] at this; exact absurd this (by simp)
    · intro x hx
      rw [List.getLast?_map, hb] at hx
      have : x = f b := by simpa using hx.symm
      subst this
      by_contra hc
      have := hf b (by simpa using hc)
      rw [hsb] at this; exact absurd this (by simp)

/-- A trimmed, lower-cased name is its own trimmed, lower-cased form. -/
theorem toLower_trimSpace_fixed (env : GoEnv) (hl : LowerCaseLaws env) (name : List Nat) :
    toLower env (trimSpace (toLower env (trimSpace name))) = toLower env (trimSpace name) := by
  have hv : ∀ r ∈ (runes (trimSpace name)).map (unicodeToLower env), validRune r := by
    intro r hr
    obtain ⟨x, hx, rfl⟩ := List.mem_map.mp hr
    exact hl.valid x (runes_valid _ x hx)
  have htr : trimRunes ((runes (trimSpace name)).map (unicodeToLower env))
      = (runes (trimSpace name)).map (unicodeToLower env) := by
    apply trimRunes_map_of_trimmed _ hl.notSpace
    rw [runes_trimSpace, trimRunes_idem]
  rw [toLower_eq env (trimSpace name), trimSpace_encodeAll _ hv, htr, toLower_eq,
    runes_encodeAll _ hv, List.map_map]
  congr 1
  apply List.map_congr_left
  intro r _
  exact hl.idempotent r

/-! ## The catalog invariant -/

theorem mem_mapSet {m : GoMap} {k v : GoString} {kv : GoString × GoString}
    (h : kv ∈ mapSet m k v) : kv = (k, v) ∨ kv ∈ m := by
  induction m with
  | nil => left; simpa [mapSet] using h
  | cons e rest ih =>
    obtain ⟨k', v'⟩ := e
    simp only [mapSet] at h
    split_ifs at h with hk
    · rcases List.mem_cons.mp h with h | h
      · left; exact h
      · right; simp [h]
    · rcases List.mem_cons.mp h with h | h
      · right; simp [h]
      · rcases ih h with h | h
        · left; exact h
        · right; simp [h]

theorem normalizeVoiceMapLoop_entries (env : GoEnv) (hl : LowerCaseLaws env)
    (entries : List (GoString × GoString)) :
    ∀ out res, (∀ kv ∈ out, EntryNormal env kv) →
      normalizeVoiceMapLoop env out entries = .ok res → ∀ kv ∈ res, EntryNormal env kv := by
  induction entries with
  | nil =>
    intro out res hout h
    simp only [normalizeVoiceMapLoop] at h
    cases h; exact hout
  | cons e rest ih =>
    intro out res hout h
    obtain ⟨name, desc⟩ := e
    simp only [normalizeVoiceMapLoop] at h
    split_ifs at h with hbad
    push_neg at hbad
    apply ih _ res _ h
    intro kv hkv
    rcases mem_mapSet hkv with rfl | hkv
    · exact ⟨hbad.1, toLower_trimSpace_fixed env hl name, hbad.2, trimSpace_idem desc⟩
    · exact hout kv hkv

theorem normalizeVoiceItemsLoop_entries (env : GoEnv) (hl : LowerCaseLaws env)
    (items : List voiceItem) :
    ∀ out res, (∀ kv ∈ out, EntryNormal env kv) →
      normalizeVoiceItemsLoop env out items = .ok res → ∀ kv ∈ res, EntryNormal env kv := by
  induction items with
  | nil =>
    intro out res hout h
    simp only [normalizeVoiceItemsLoop] at h
    cases h; exact hout
  | cons e rest ih =>
    intro out res hout h
    simp only [normalizeVoiceItemsLoop] at h
    split_ifs at h with hbad
    push_neg at hbad
    apply ih _ res _ h
    intro kv hkv
    rcases mem_mapSet hkv with rfl | hkv
    · exact ⟨hbad.1, toLower_trimSpace_fixed env hl e.Name, hbad.2, trimSpace_idem e.Description⟩
    · exact hout kv hkv

theorem normalizeVoiceMap_invariant (env : GoEnv) (hl : LowerCaseLaws env) (input out : GoMap)
    (h : normalizeVoiceMap env input = .ok out) : CatalogInvariant env out := by
  unfold normalizeVoiceMap at h
  split_ifs at h with h0
  rcases hloop : normalizeVoiceMapLoop env [] (env.rangeOrder input) with e | res
  · rw [hloop] at h; cases h
  · rw [hloop] at h
    simp only at h
    split_ifs at h with h1
    have hres : res = out := Except.ok.inj h
    rw [← hres]
    refine ⟨fun e => h1 (by rw [e]; rfl), ?_⟩
    exact normalizeVoiceMapLoop_entries env hl _ [] res (by simp) hloop

theorem normalizeVoiceItems_invariant (env : GoEnv) (hl : LowerCaseLaws env)
    (items : List voiceItem) (out : GoMap)
    (h : normalizeVoiceItems env items = .ok out) : CatalogInvariant env out := by
  unfold normalizeVoiceItems at h
  split_ifs at h with h0
  rcases hloop : normalizeVoiceItemsLoop env [] items with e | res
  · rw [hloop] at h; cases h
  · rw [hloop] at h
    simp only at h
    split_ifs at h with h1
    have hres : res = out := Except.ok.inj h
    rw [← hres]
    refine ⟨fun e => h1 (by rw [e]; rfl), ?_⟩
    exact normalizeVoiceItemsLoop_entries env hl _ [] res (by simp) hloop

/-- Whatever the five calls of `json.Unmarshal` return, a catalog that
`parseVoicesJSONWithTimestamp` returns comes from one of the two normalising
functions. -/
theorem parseVoicesFrom_ok (env : GoEnv)
    (r1 : Except JSONError voicesEnvelope) (r2 : Except JSONError voicesMapEnvelope)
    (r3 : Except JSONError (List voiceItem)) (r4 r5 : Except JSONError GoMap)
    (voices : GoMap) (ts : Option Time)
    (h : parseVoicesFrom env r1 r2 r3 r4 r5 = .ok (voices, ts)) :
    (∃ items, normalizeVoiceItems env items = .ok voices)
      ∨ (∃ m, normalizeVoiceMap env m = .ok voices) := by
  have h5 : ∀ {voices ts}, parseVoicesFrom.parseVoicesFrom5 env r5 = .ok (voices, ts) →
      (∃ items, normalizeVoiceItems env items = .ok voices)
        ∨ (∃ m, normalizeVoiceMap env m = .ok voices) := by
    intro voices ts h
    unfold parseVoicesFrom.parseVoicesFrom5 at h
    rcases r5 with e | m
    · cases h
    · simp only at h
      split_ifs at h
      rcases hn : normalizeVoiceMap env m with e | out
      · rw [hn] at h; cases h
      · rw [hn] at h; cases h; exact Or.inr ⟨m, hn⟩
  have h4 : ∀ {voices ts}, parseVoicesFrom.parseVoicesFrom4 env r4 r5 = .ok (voices, ts) →
      (∃ items, normalizeVoiceItems env items = .ok voices)
        ∨ (∃ m, normalizeVoiceMap env m = .ok voices) := by
    intro voices ts h
    unfold parseVoicesFrom.parseVoicesFrom4 at h
    rcases r4 with e | m
    · exact h5 h
    · simp only at h
      split_ifs at h
      · rcases hn : normalizeVoiceMap env m with e | out
        · rw [hn] at h; cases h
        · rw [hn] at h; cases h; exact Or.inr ⟨m, hn⟩
      · exact h5 h
  have h3 : ∀ {voices ts}, parseVoicesFrom.parseVoicesFrom3 env r3 r4 r5 = .ok (voices, ts) →
      (∃ items, normalizeVoiceItems env items = .ok voices)
        ∨ (∃ m, normalizeVoiceMap env m = .ok voices) := by
    intro voices ts h
    unfold parseVoicesFrom.parseVoicesFrom3 at h
    rcases r3 with e | items
    · exact h4 h
    · simp only at h
      split_ifs at h
      · rcases hn : normalizeVoiceItems env items with e | out
        · rw [hn] at h; cases h
        · rw [hn] at h; cases h; exact Or.inl ⟨items, hn⟩
      · exact h4 h
  have h2 : ∀ {voices ts}, parseVoicesFrom.parseVoicesFrom2 env r3 r4 r5 r2 = .ok (voices, ts) →
      (∃ items, normalizeVoiceItems env items = .ok voices)
        ∨ (∃ m, normalizeVoiceMap env m = .ok voices) := by
    intro voices ts h
    unfold parseVoicesFrom.parseVoicesFrom2 at h
    rcases r2 with e | em
    · exact h3 h
    · simp only at h
      split_ifs at h
      · rcases hn : normalizeVoiceMap env em.Voices with e | out
        · rw [hn] at h; cases h
        · rw [hn] at h
          simp only at h
          rcases hg : parseGeneratedAt env em.GeneratedAt with e | t
          · rw [hg] at h; cases h
          · rw [hg] at h; cases h; exact Or.inr ⟨_, hn⟩
      · exact h3 h
  unfold parseVoicesFrom at h
  rcases r1 with e | ev
  · exact h2 h
  · simp only at h
    split_ifs at h
    · rcases hn : normalizeVoiceItems env ev.Voices with e | out
      · rw [hn] at h; cases h
      · rw [hn] at h
        simp only at h
        rcases hg : parseGeneratedAt env ev.GeneratedAt with e | t
        · rw [hg] at h; cases h
        · rw [hg] at h; cases h; exact Or.inl ⟨_, hn⟩
    · exact h2 h

theorem sampleEnv_laws : LowerCaseLaws sampleEnv where
  idempotent := by
    intro r
    simp only [unicodeToLower, sampleEnv]
    split_ifs <;> omega
  notSpace := by
    intro r
    simp only [unicodeToLower, sampleEnv]
    split_ifs with h1 h2
    · intro h
      simp only [isSpace, decide_eq_true_eq] at h
      omega
    · exact id
    · exact id
  valid := by
    intro r hr
    simp only [unicodeToLower, sampleEnv]
    unfold validRune at *
    split_ifs <;> omega

/-- C6: every catalog a successful load returns satisfies the catalog
invariant: it is not empty, every key is not empty and equals its own trimmed,
lower-cased form, and every value is not empty and equals its own trimmed
form.  This holds of `parseVoicesJSONWithTimestamp`, of `normalizeVoiceItems`
and `normalizeVoiceMap`, and of the body of `parseVoicesJSONWithTimestamp`
whatever its calls of `json.Unmarshal` return. -/
theorem parseVoices_catalog_invariant (env : GoEnv) (hl : LowerCaseLaws env) :
    (∀ data voices ts, parseVoicesJSONWithTimestamp env data = .ok (voices, ts) →
        CatalogInvariant env voices)
      ∧ (∀ items out, normalizeVoiceItems env items = .ok out → CatalogInvariant env out)
      ∧ (∀ input out, normalizeVoiceMap env input = .ok out → CatalogInvariant env out)
      ∧ (∀ r1 r2 r3 r4 r5 voices ts,
          parseVoicesFrom env r1 r2 r3 r4 r5 = .ok (voices, ts) →
            CatalogInvariant env voices) := by
  have hfrom : ∀ r1 r2 r3 r4 r5 voices ts,
      parseVoicesFrom env r1 r2 r3 r4 r5 = .ok (voices, ts) → CatalogInvariant env voices := by
    intro r1 r2 r3 r4 r5 voices ts h
    rcases parseVoicesFrom_ok env r1 r2 r3 r4 r5 voices ts h with ⟨items, hi⟩ | ⟨m, hm⟩
    · exact normalizeVoiceItems_invariant env hl items voices hi
    · exact normalizeVoiceMap_invariant env hl m voices hm
  exact ⟨fun data voices ts h => hfrom _ _ _ _ _ voices ts h,
    normalizeVoiceItems_invariant env hl, normalizeVoiceMap_invariant env hl, hfrom⟩

/-- C6 witness: the envelope
`{"generated_at":"2026-01-01T00:00:00Z","voices":[{"name":" Kore ","description":"Kore - Female voice "},{"name":"CHARON","description":"Male"}]}`
loads as the catalog kore, charon. -/
theorem parseVoices_catalog_invariant_witness :
    LowerCaseLaws sampleEnv
      ∧ parseVoicesJSONWithTimestamp sampleEnv
          (.object [(ascii "generated_at", .string (ascii "2026-01-01T00:00:00Z")),
            (ascii "voices", .array [
              .object [(ascii "name", .string (ascii " Kore ")),
                (ascii "description", .string (ascii "Kore - Female voice "))],
              .object [(ascii "name", .string (ascii "CHARON")),
                (ascii "description", .string (ascii "Male"))]])])
        = .ok ([(ascii "kore", ascii "Kore - Female voice"), (ascii "charon", ascii "Male")],
            some 1767225600)
      ∧ CatalogInvariant sampleEnv
          [(ascii "kore", ascii "Kore - Female voice"), (ascii "charon", ascii "Male")] :=
  ⟨sampleEnv_laws, by decide,
    (parseVoices_catalog_invariant sampleEnv sampleEnv_laws).1
      (.object [(ascii "generated_at", .string (ascii "2026-01-01T00:00:00Z")),
        (ascii "voices", .array [
          .object [(ascii "name", .string (ascii " Kore ")),
            (ascii "description", .string (ascii "Kore - Female voice "))],
          .object [(ascii "name", .string (ascii "CHARON")),
            (ascii "description", .string (ascii "Male"))]])])
      [(ascii "kore", ascii "Kore - Female voice"), (ascii "charon", ascii "Male")]
      (some 1767225600) (by decide)⟩

/-! ## The four shapes -/

/-- C5 counterexample: the pairs ("Kore", "A") and ("kore", "B") have distinct
names; as an envelope with a `voices` array they load as kore = "B", and as an
envelope with a `voices` object, with `range` visiting the entry of "kore"
first, as kore = "A". -/
theorem parseVoices_shapes_differ :
    ([(ascii "Kore", ascii "A"), (ascii "kore", ascii "B")].map Prod.fst).Nodup
      ∧ parseVoicesJSONWithTimestamp sampleEnv
          (shapeEnvelopeArray none [(ascii "Kore", ascii "A"), (ascii "kore", ascii "B")])
        = .ok ([(ascii "kore", ascii "B")], none)
      ∧ parseVoicesJSONWithTimestamp sampleEnv
          (shapeEnvelopeMap none [(ascii "Kore", ascii "A"), (ascii "kore", ascii "B")])
        = .ok ([(ascii "kore", ascii "A")], none)
      ∧ mapGet [(ascii "kore", ascii "B")] (ascii "kore")
          ≠ mapGet [(ascii "kore", ascii "A")] (ascii "kore") := by
  refine ⟨by decide, by decide, by decide, by decide⟩

/-! ### Decoding the four shapes -/

theorem nameMatches_name_name : nameMatches (ascii "name") (ascii "name") = true := by decide
theorem nameMatches_description_name :
    nameMatches (ascii "description") (ascii "name") = false := by decide
theorem nameMatches_description_description :
    nameMatches (ascii "description") (ascii "description") = true := by decide
theorem nameMatches_generated_at :
    nameMatches (ascii "generated_at") (ascii "generated_at") = true := by decide
theorem nameMatches_voices_generated_at :
    nameMatches (ascii "voices") (ascii "generated_at") = false := by decide
theorem nameMatches_voices_voices :
    nameMatches (ascii "voices") (ascii "voices") = true := by decide

theorem decodeVoiceItem_itemObject (p : GoString × GoString) :
    decodeVoiceItem { Name := [], Description := [] } (itemObject p) = .ok (toItem p) := by
  simp [itemObject, decodeVoiceItem, decodeVoiceItemMembers, decodeString,
    nameMatches_name_name, nameMatches_description_name, nameMatches_description_description,
    toItem]

theorem decodeVoiceItemElems_itemObjects (pairs : List (GoString × GoString)) :
    decodeVoiceItemElems [] (pairs.map itemObject) = .ok (pairs.map toItem) := by
  induction pairs with
  | nil => rfl
  | cons p rest ih =>
    simp only [List.map_cons, decodeVoiceItemElems, List.headD_nil, List.tail_nil,
      decodeVoiceItem_itemObject, ih]

theorem decodeVoiceItems_itemObjects (pairs : List (GoString × GoString)) :
    decodeVoiceItems [] (.array (pairs.map itemObject)) = .ok (pairs.map toItem, []) := by
  cases pairs with
  | nil => rfl
  | cons p rest =>
    have h := decodeVoiceItemElems_itemObjects (p :: rest)
    rw [List.map_cons] at h
    simp only [List.map_cons, decodeVoiceItems, h, List.drop_nil]

theorem unmarshalItems_itemObjects (pairs : List (GoString × GoString)) :
    unmarshalItems (.array (pairs.map itemObject)) = .ok (pairs.map toItem) := by
  simp only [unmarshalItems, decodeVoiceItems_itemObjects]

theorem mapSet_ne_nil (m : GoMap) (k v : GoString) : mapSet m k v ≠ [] := by
  cases m with
  | nil => simp [mapSet]
  | cons e rest =>
    obtain ⟨k', v'⟩ := e
    simp only [mapSet]
    split_ifs <;> simp

theorem mapSet_of_not_mem (m : GoMap) (k v : GoString) (h : k ∉ m.map Prod.fst) :
    mapSet m k v = m ++ [(k, v)] := by
  induction m with
  | nil => rfl
  | cons e rest ih =>
    obtain ⟨k', v'⟩ := e
    have h1 : k' ≠ k := fun e => h (by simp [e])
    have h2 : k ∉ rest.map Prod.fst := fun e => h (by simp [e])
    simp only [mapSet, if_neg h1, ih h2, List.cons_append]

theorem assignAll_of_nodup (entries : List (GoString × GoString)) :
    ∀ m : GoMap, ((m ++ entries).map Prod.fst).Nodup → assignAll m entries = m ++ entries := by
  induction entries with
  | nil => intro m _; simp [assignAll]
  | cons e rest ih =>
    intro m h
    have hk : e.1 ∉ m.map Prod.fst := by
      intro hm
      rw [List.map_append, List.map_cons] at h
      have := (List.nodup_append.mp h).2.2
      exact this hm (by simp)
    have h' : ((m ++ [(e.1, e.2)] ++ rest).map Prod.fst).Nodup := by
      simpa using h
    have := ih (m ++ [(e.1, e.2)]) h'
    simp only [assignAll, List.foldl_cons] at this ⊢
    rw [mapSet_of_not_mem m e.1 e.2 hk, this]
    simp

theorem decodeStringMapMembers_strings (pairs : List (GoString × GoString)) :
    ∀ m : GoMap, decodeStringMapMembers m (pairs.map (fun p => (p.1, JSON.string p.2)))
      = .ok (assignAll m pairs) := by
  induction pairs with
  | nil => intro m; rfl
  | cons p rest ih =>
    intro m
    simp only [List.map_cons, decodeStringMapMembers, decodeString, ih, assignAll,
      List.foldl_cons]

theorem decodeStringMap_mapObject (pairs : List (GoString × GoString))
    (h : (pairs.map Prod.fst).Nodup) :
    decodeStringMap [] (mapObject pairs) = .ok pairs := by
  rw [mapObject, decodeStringMap, decodeStringMapMembers_strings,
    assignAll_of_nodup pairs [] (by simpa using h)]
  rfl

theorem unmarshalEnvelope_shapeEnvelopeArray (g : Option GoString)
    (pairs : List (GoString × GoString)) :
    unmarshalEnvelope (shapeEnvelopeArray g pairs)
      = .ok { GeneratedAt := g.getD [], Voices := pairs.map toItem } := by
  cases g <;>
    simp [shapeEnvelopeArray, generatedAtMember, unmarshalEnvelope, decodeEnvelopeMembers,
      nameMatches_generated_at, nameMatches_voices_generated_at, nameMatches_voices_voices,
      decodeString, List.append_nil, decodeVoiceItems_itemObjects]

theorem unmarshalEnvelope_shapeEnvelopeMap (g : Option GoString)
    (pairs : List (GoString × GoString)) :
    unmarshalEnvelope (shapeEnvelopeMap g pairs) = .error .unmarshalType := by
  cases g <;>
    simp [shapeEnvelopeMap, generatedAtMember, unmarshalEnvelope, decodeEnvelopeMembers,
      nameMatches_generated_at, nameMatches_voices_generated_at, nameMatches_voices_voices,
      decodeString, decodeVoiceItems, mapObject]

theorem unmarshalMapEnvelope_shapeEnvelopeMap (g : Option GoString)
    (pairs : List (GoString × GoString)) (h : (pairs.map Prod.fst).Nodup) :
    unmarshalMapEnvelope (shapeEnvelopeMap g pairs)
      = .ok { GeneratedAt := g.getD [], Voices := pairs } := by
  cases g <;>
    simp [shapeEnvelopeMap, generatedAtMember, unmarshalMapEnvelope, decodeMapEnvelopeMembers,
      nameMatches_generated_at, nameMatches_voices_generated_at, nameMatches_voices_voices,
      decodeString, decodeStringMap_mapObject pairs h]

/-- In an object whose values are all strings, no member can fill the `Voices`
of an envelope. -/
theorem decodeEnvelopeMembers_strings (pairs : List (GoString × GoString)) :
    ∀ (e : voicesEnvelope) (spare : List voiceItem),
      (∃ err, decodeEnvelopeMembers e spare (pairs.map (fun p => (p.1, JSON.string p.2)))
          = .error err)
        ∨ ∃ e', decodeEnvelopeMembers e spare (pairs.map (fun p => (p.1, JSON.string p.2)))
            = .ok e' ∧ e'.Voices = e.Voices := by
  induction pairs with
  | nil => intro e spare; exact Or.inr ⟨e, rfl, rfl⟩
  | cons p rest ih =>
    intro e spare
    simp only [List.map_cons, decodeEnvelopeMembers, decodeString, decodeVoiceItems]
    split_ifs with h1 h2
    · rcases ih { e with GeneratedAt := p.2 } spare with h | ⟨e', h, h'⟩
      · exact Or.inl h
      · exact Or.inr ⟨e', h, h'⟩
    · exact Or.inl ⟨_, rfl⟩
    · exact ih e spare

theorem decodeMapEnvelopeMembers_strings (pairs : List (GoString × GoString)) :
    ∀ e : voicesMapEnvelope,
      (∃ err, decodeMapEnvelopeMembers e (pairs.map (fun p => (p.1, JSON.string p.2)))
          = .error err)
        ∨ ∃ e', decodeMapEnvelopeMembers e (pairs.map (fun p => (p.1, JSON.string p.2)))
            = .ok e' ∧ e'.Voices = e.Voices := by
  induction pairs with
  | nil => intro e; exact Or.inr ⟨e, rfl, rfl⟩
  | cons p rest ih =>
    intro e
    simp only [List.map_cons, decodeMapEnvelopeMembers, decodeString, decodeStringMap]
    split_ifs with h1 h2
    · rcases ih { e with GeneratedAt := p.2 } with h | ⟨e', h, h'⟩
      · exact Or.inl h
      · exact Or.inr ⟨e', h, h'⟩
    · exact Or.inl ⟨_, rfl⟩
    · exact ih e

/-! ### The two normalising loops on the same pairs -/

theorem normalizeVoiceItemsLoop_ok (env : GoEnv) (pairs : List (GoString × GoString))
    (h : ∀ p ∈ pairs, normalName env p ≠ [] ∧ trimSpace p.2 ≠ []) :
    ∀ out, normalizeVoiceItemsLoop env out (pairs.map toItem)
      = .ok (assignAll out (pairs.map (normalEntry env))) := by
  induction pairs with
  | nil => intro out; rfl
  | cons p rest ih =>
    intro out
    have hp := h p (by simp)
    simp only [List.map_cons, normalizeVoiceItemsLoop, toItem]
    rw [if_neg (by push_neg; exact hp)]
    have := ih (fun q hq => h q (by simp [hq])) (mapSet out (toLower env (trimSpace p.1))
      (trimSpace p.2))
    simp only [toItem] at this
    rw [this]
    rfl

theorem normalizeVoiceItemsLoop_error (env : GoEnv) (pairs : List (GoString × GoString))
    (h : ∃ p ∈ pairs, normalName env p = [] ∨ trimSpace p.2 = []) :
    ∀ out, ∃ e, normalizeVoiceItemsLoop env out (pairs.map toItem) = .error e := by
  induction pairs with
  | nil => obtain ⟨p, hp, -⟩ := h; simp at hp
  | cons p rest ih =>
    intro out
    simp only [List.map_cons, normalizeVoiceItemsLoop, toItem]
    split_ifs with hbad
    · exact ⟨_, rfl⟩
    · obtain ⟨q, hq, hqbad⟩ := h
      rcases List.mem_cons.mp hq with rfl | hq
      · exact absurd hqbad hbad
      · have := ih ⟨q, hq, hqbad⟩ (mapSet out (toLower env (trimSpace p.1)) (trimSpace p.2))
        simpa only [toItem] using this

theorem normalizeVoiceMapLoop_ok (env : GoEnv) (entries : List (GoString × GoString))
    (h : ∀ p ∈ entries, normalName env p ≠ [] ∧ trimSpace p.2 ≠ []) :
    ∀ out, normalizeVoiceMapLoop env out entries
      = .ok (assignAll out (entries.map (normalEntry env))) := by
  induction entries with
  | nil => intro out; rfl
  | cons p rest ih =>
    intro out
    obtain ⟨name, desc⟩ := p
    have hp := h (name, desc) (by simp)
    simp only [normalizeVoiceMapLoop]
    rw [if_neg (by push_neg; exact hp), ih (fun q hq => h q (by simp [hq]))]
    rfl

theorem normalizeVoiceMapLoop_error (env : GoEnv) (entries : List (GoString × GoString))
    (h : ∃ p ∈ entries, normalName env p = [] ∨ trimSpace p.2 = []) :
    ∀ out, ∃ e, normalizeVoiceMapLoop env out entries = .error e := by
  induction entries with
  | nil => obtain ⟨p, hp, -⟩ := h; simp at hp
  | cons p rest ih =>
    intro out
    obtain ⟨name, desc⟩ := p
    simp only [normalizeVoiceMapLoop]
    split_ifs with hbad
    · exact ⟨_, rfl⟩
    · obtain ⟨q, hq, hqbad⟩ := h
      rcases List.mem_cons.mp hq with rfl | hq
      · exact absurd hqbad hbad
      · exact ih ⟨q, hq, hqbad⟩ _

theorem assignAll_ne_nil (m : GoMap) (entries : List (GoString × GoString))
    (h : m ≠ [] ∨ entries ≠ []) : assignAll m entries ≠ [] := by
  induction entries generalizing m with
  | nil =>
    rcases h with h | h
    · exact h
    · exact absurd rfl h
  | cons e rest ih =>
    exact ih _ (Or.inl (mapSet_ne_nil m e.1 e.2))

theorem mapGet_mapSet (m : GoMap) (k v key : GoString) :
    mapGet (mapSet m k v) key = if k = key then some v else mapGet m key := by
  induction m with
  | nil => simp [mapSet, mapGet]
  | cons e rest ih =>
    obtain ⟨k', v'⟩ := e
    by_cases h1 : k' = k
    · subst h1
      by_cases h2 : k' = key <;> simp [mapSet, mapGet, h2]
    · by_cases h2 : k = key
      · subst h2; simp [mapSet, mapGet, h1, ih]
      · simp [mapSet, mapGet, h1, h2, ih]

/-- With no key assigned twice, the value under a key is the one of the entry
with that key, whatever the order of the assignments. -/
theorem mapGet_assignAll (entries : List (GoString × GoString))
    (hnd : (entries.map Prod.fst).Nodup) :
    ∀ (m : GoMap) (key v : GoString),
      mapGet (assignAll m entries) key = some v
        ↔ (key, v) ∈ entries ∨ (key ∉ entries.map Prod.fst ∧ mapGet m key = some v) := by
  induction entries with
  | nil => intro m key v; simp [assignAll]
  | cons e rest ih =>
    intro m key v
    obtain ⟨k0, v0⟩ := e
    rw [List.map_cons, List.nodup_cons] at hnd
    have hrec := ih hnd.2 (mapSet m k0 v0) key v
    simp only [assignAll, List.foldl_cons] at hrec ⊢
    rw [hrec, mapGet_mapSet]
    by_cases hk : k0 = key
    · subst hk
      simp only [if_true, List.mem_cons, Prod.mk.injEq, true_and, List.map_cons, true_or,
        not_true_eq_false, false_and, or_false, Option.some.injEq]
      constructor
      · rintro (h | ⟨-, h⟩)
        · exact absurd (List.mem_map_of_mem Prod.fst h) hnd.1
        · exact Or.inl h.symm
      · rintro (h | h)
        · exact Or.inr ⟨hnd.1, h.symm⟩
        · exact absurd (List.mem_map_of_mem Prod.fst h) hnd.1
    · have hk' : ¬ key = k0 := fun e => hk e.symm
      simp [hk, hk']

theorem mapGet_assignAll_perm (l1 l2 : List (GoString × GoString)) (hp : l1.Perm l2)
    (hnd : (l1.map Prod.fst).Nodup) (key : GoString) :
    mapGet (assignAll [] l1) key = mapGet (assignAll [] l2) key := by
  have hnd2 : (l2.map Prod.fst).Nodup := (hp.map Prod.fst).nodup_iff.mp hnd
  apply Option.ext
  intro v
  rw [Option.mem_def, Option.mem_def, mapGet_assignAll l1 hnd, mapGet_assignAll l2 hnd2]
  have hm : (key, v) ∈ l1 ↔ (key, v) ∈ l2 := hp.mem_iff
  have hk : key ∈ l1.map Prod.fst ↔ key ∈ l2.map Prod.fst := (hp.map Prod.fst).mem_iff
  rw [hm, hk]

/-! ### What `parseVoicesJSONWithTimestamp` does with each shape -/

theorem length_pos_of_ne_nil {α : Type} {l : List α} (h : l ≠ []) : l.length > 0 :=
  List.length_pos.mpr h

theorem parseVoices_shapeEnvelopeArray (env : GoEnv) (g : Option GoString)
    (pairs : List (GoString × GoString)) (hne : pairs ≠ []) :
    parseVoicesJSONWithTimestamp env (shapeEnvelopeArray g pairs) =
      match normalizeVoiceItems env (pairs.map toItem) with
      | .error err => .error err
      | .ok voices =>
        match parseGeneratedAt env (g.getD []) with
        | .error err => .error err
        | .ok ts => .ok (voices, ts) := by
  have hlen : (pairs.map toItem).length > 0 := by
    rw [List.length_map]; exact length_pos_of_ne_nil hne
  simp only [parseVoicesJSONWithTimestamp, parseVoicesFrom,
    unmarshalEnvelope_shapeEnvelopeArray, if_pos hlen]

theorem parseVoices_shapeEnvelopeMap (env : GoEnv) (g : Option GoString)
    (pairs : List (GoString × GoString)) (hne : pairs ≠ [])
    (hnd : (pairs.map Prod.fst).Nodup) :
    parseVoicesJSONWithTimestamp env (shapeEnvelopeMap g pairs) =
      match normalizeVoiceMap env pairs with
      | .error err => .error err
      | .ok voices =>
        match parseGeneratedAt env (g.getD []) with
        | .error err => .error err
        | .ok ts => .ok (voices, ts) := by
  have hlen : pairs.length > 0 := length_pos_of_ne_nil hne
  simp only [parseVoicesJSONWithTimestamp, parseVoicesFrom, parseVoicesFrom.parseVoicesFrom2,
    unmarshalEnvelope_shapeEnvelopeMap, unmarshalMapEnvelope_shapeEnvelopeMap g pairs hnd,
    if_pos hlen]

theorem parseVoices_shapeArray (env : GoEnv) (pairs : List (GoString × GoString))
    (hne : pairs ≠ []) :
    parseVoicesJSONWithTimestamp env (shapeArray pairs) =
      match normalizeVoiceItems env (pairs.map toItem) with
      | .error err => .error err
      | .ok voices => .ok (voices, none) := by
  have hlen : (pairs.map toItem).length > 0 := by
    rw [List.length_map]; exact length_pos_of_ne_nil hne
  simp only [parseVoicesJSONWithTimestamp, parseVoicesFrom, parseVoicesFrom.parseVoicesFrom2,
    parseVoicesFrom.parseVoicesFrom3, shapeArray, unmarshalEnvelope, unmarshalMapEnvelope,
    unmarshalItems_itemObjects, if_pos hlen]

theorem parseVoices_shapeMap (env : GoEnv) (pairs : List (GoString × GoString))
    (hne : pairs ≠ []) (hnd : (pairs.map Prod.fst).Nodup) :
    parseVoicesJSONWithTimestamp env (shapeMap pairs) =
      match normalizeVoiceMap env pairs with
      | .error err => .error err
      | .ok voices => .ok (voices, none) := by
  have hlen : pairs.length > 0 := length_pos_of_ne_nil hne
  have h3 : parseVoicesFrom.parseVoicesFrom3 env (unmarshalItems (shapeMap pairs))
      (decodeStringMap [] (shapeMap pairs)) (unmarshalWrapper (shapeMap pairs))
      = match normalizeVoiceMap env pairs with
        | .error err => .error err
        | .ok voices => .ok (voices, none) := by
    simp only [parseVoicesFrom.parseVoicesFrom3, parseVoicesFrom.parseVoicesFrom4, shapeMap,
      decodeStringMap_mapObject pairs hnd, if_pos hlen]
    simp only [mapObject, unmarshalItems, decodeVoiceItems]
  have h2 : parseVoicesFrom.parseVoicesFrom2 env (unmarshalItems (shapeMap pairs))
      (decodeStringMap [] (shapeMap pairs)) (unmarshalWrapper (shapeMap pairs))
      (unmarshalMapEnvelope (shapeMap pairs))
      = parseVoicesFrom.parseVoicesFrom3 env (unmarshalItems (shapeMap pairs))
          (decodeStringMap [] (shapeMap pairs)) (unmarshalWrapper (shapeMap pairs)) := by
    rcases decodeMapEnvelopeMembers_strings pairs { GeneratedAt := [], Voices := [] } with
      ⟨err, he⟩ | ⟨e', he, hv⟩
    · simp only [parseVoicesFrom.parseVoicesFrom2, shapeMap, mapObject, unmarshalMapEnvelope, he]
    · have hv' : ¬ e'.Voices.length > 0 := by rw [hv]; simp
      simp only [parseVoicesFrom.parseVoicesFrom2, shapeMap, mapObject, unmarshalMapEnvelope, he,
        if_neg hv']
  rw [← h3, ← h2]
  rcases decodeEnvelopeMembers_strings pairs { GeneratedAt := [], Voices := [] } [] with
    ⟨err, he⟩ | ⟨e', he, hv⟩
  · simp only [parseVoicesJSONWithTimestamp, parseVoicesFrom, shapeMap, mapObject,
      unmarshalEnvelope, he]
  · have hv' : ¬ e'.Voices.length > 0 := by rw [hv]; simp
    simp only [parseVoicesJSONWithTimestamp, parseVoicesFrom, shapeMap, mapObject,
      unmarshalEnvelope, he, if_neg hv']

/-! ### The two normalising functions on the same pairs -/

theorem normalizeVoiceItems_pairs (env : GoEnv) (pairs : List (GoString × GoString))
    (hne : pairs ≠ []) :
    ((∀ p ∈ pairs, normalName env p ≠ [] ∧ trimSpace p.2 ≠ []) →
        normalizeVoiceItems env (pairs.map toItem)
          = .ok (assignAll [] (pairs.map (normalEntry env))))
      ∧ ((∃ p ∈ pairs, normalName env p = [] ∨ trimSpace p.2 = []) →
        ∃ e, normalizeVoiceItems env (pairs.map toItem) = .error e) := by
  have hlen : ¬ (pairs.map toItem).length = 0 := by
    rw [List.length_map]; exact fun h => hne (List.length_eq_zero.mp h)
  constructor
  · intro h
    have hout : ¬ (assignAll [] (pairs.map (normalEntry env))).length = 0 := by
      intro h0
      exact assignAll_ne_nil [] _ (Or.inr (by simpa using hne)) (List.length_eq_zero.mp h0)
    simp only [normalizeVoiceItems, if_neg hlen, normalizeVoiceItemsLoop_ok env pairs h,
      if_neg hout]
  · intro h
    obtain ⟨e, he⟩ := normalizeVoiceItemsLoop_error env pairs h []
    exact ⟨e, by simp only [normalizeVoiceItems, if_neg hlen, he]⟩

theorem normalizeVoiceMap_pairs (env : GoEnv) (pairs : List (GoString × GoString))
    (hne : pairs ≠ []) (hperm : (env.rangeOrder pairs).Perm pairs) :
    ((∀ p ∈ pairs, normalName env p ≠ [] ∧ trimSpace p.2 ≠ []) →
        normalizeVoiceMap env pairs
          = .ok (assignAll [] ((env.rangeOrder pairs).map (normalEntry env))))
      ∧ ((∃ p ∈ pairs, normalName env p = [] ∨ trimSpace p.2 = []) →
        ∃ e, normalizeVoiceMap env pairs = .error e) := by
  have hlen : ¬ pairs.length = 0 := fun h => hne (List.length_eq_zero.mp h)
  have hne' : env.rangeOrder pairs ≠ [] := by
    intro h0
    rw [h0] at hperm
    exact hne (List.Perm.nil_eq hperm).symm
  constructor
  · intro h
    have h' : ∀ p ∈ env.rangeOrder pairs, normalName env p ≠ [] ∧ trimSpace p.2 ≠ [] :=
      fun p hp => h p (hperm.mem_iff.mp hp)
    have hout : ¬ (assignAll [] ((env.rangeOrder pairs).map (normalEntry env))).length = 0 := by
      intro h0
      exact assignAll_ne_nil [] _ (Or.inr (by simpa using hne')) (List.length_eq_zero.mp h0)
    simp only [normalizeVoiceMap, if_neg hlen, normalizeVoiceMapLoop_ok env _ h', if_neg hout]
  · intro h
    obtain ⟨p, hp, hbad⟩ := h
    obtain ⟨e, he⟩ := normalizeVoiceMapLoop_error env (env.rangeOrder pairs)
      ⟨p, hperm.mem_iff.mpr hp, hbad⟩ []
    exact ⟨e, by simp only [normalizeVoiceMap, if_neg hlen, he]⟩

theorem parseGeneratedAt_ok (env : GoEnv) (g : Option GoString)
    (hg : ∀ v, g = some v → ∃ t, env.parseRFC3339 v = some t) :
    ∃ ts, parseGeneratedAt env (g.getD []) = .ok ts := by
  cases g with
  | none => exact ⟨none, rfl⟩
  | some v =>
    obtain ⟨t, ht⟩ := hg v rfl
    simp only [Option.getD_some, parseGeneratedAt]
    split_ifs
    · exact ⟨none, rfl⟩
    · exact ⟨some t, by rw [ht]⟩

/-- C5 (as amended): for a non-empty collection of name/description pairs whose
names are distinct once trimmed and lower-cased, and a `generated_at` that is
absent or parses, the four shapes load as the same catalog (or all fail, when a
pair has an empty name or description), in whatever order `range` visits the
entries of a map. -/
theorem parseVoices_shape_invariant (env : GoEnv)
    (orderB orderD : List (GoString × GoString) → List (GoString × GoString))
    (hB : ∀ m, (orderB m).Perm m) (hD : ∀ m, (orderD m).Perm m)
    (pairs : List (GoString × GoString)) (generatedAt : Option GoString)
    (hne : pairs ≠ [])
    (hnodup : (pairs.map (normalName env)).Nodup)
    (hg : ∀ v, generatedAt = some v → ∃ t, env.parseRFC3339 v = some t) :
    SameCatalog (parseVoicesJSONWithTimestamp env (shapeEnvelopeArray generatedAt pairs))
        (parseVoicesJSONWithTimestamp { env with rangeOrder := orderB }
          (shapeEnvelopeMap generatedAt pairs))
      ∧ SameCatalog (parseVoicesJSONWithTimestamp env (shapeEnvelopeArray generatedAt pairs))
          (parseVoicesJSONWithTimestamp env (shapeArray pairs))
      ∧ SameCatalog (parseVoicesJSONWithTimestamp env (shapeEnvelopeArray generatedAt pairs))
          (parseVoicesJSONWithTimestamp { env with rangeOrder := orderD } (shapeMap pairs)) := by
  have hnd : (pairs.map Prod.fst).Nodup := by
    have : pairs.map (normalName env)
        = (pairs.map Prod.fst).map (fun n => toLower env (trimSpace n)) := by
      rw [List.map_map]; rfl
    rw [this] at hnodup
    exact List.Nodup.of_map _ hnodup
  obtain ⟨t0, ht0⟩ := parseGeneratedAt_ok env generatedAt hg
  have ht0B : parseGeneratedAt { env with rangeOrder := orderB } (generatedAt.getD [])
      = .ok t0 := ht0
  have hkeys : ((pairs.map (normalEntry env)).map Prod.fst).Nodup := by
    rw [List.map_map]; exact hnodup
  rw [parseVoices_shapeEnvelopeArray env generatedAt pairs hne,
    parseVoices_shapeEnvelopeMap _ generatedAt pairs hne hnd,
    parseVoices_shapeArray env pairs hne, parseVoices_shapeMap _ pairs hne hnd, ht0, ht0B]
  by_cases hgood : ∀ p ∈ pairs, normalName env p ≠ [] ∧ trimSpace p.2 ≠ []
  · have hA := (normalizeVoiceItems_pairs env pairs hne).1 hgood
    have hBm := (normalizeVoiceMap_pairs { env with rangeOrder := orderB } pairs hne
      (hB pairs)).1 hgood
    have hDm := (normalizeVoiceMap_pairs { env with rangeOrder := orderD } pairs hne
      (hD pairs)).1 hgood
    rw [hA, hBm, hDm]
    refine ⟨?_, ?_, ?_⟩
    · intro key
      exact mapGet_assignAll_perm _ _ ((hB pairs).symm.map _) hkeys key
    · intro key; rfl
    · intro key
      exact mapGet_assignAll_perm _ _ ((hD pairs).symm.map _) hkeys key
  · have hbad : ∃ p ∈ pairs, normalName env p = [] ∨ trimSpace p.2 = [] := by
      by_contra hc
      apply hgood
      intro p hp
      constructor
      · intro h0; exact hc ⟨p, hp, Or.inl h0⟩
      · intro h0; exact hc ⟨p, hp, Or.inr h0⟩
    obtain ⟨eA, hA⟩ := (normalizeVoiceItems_pairs env pairs hne).2 hbad
    obtain ⟨eB, hBm⟩ := (normalizeVoiceMap_pairs { env with rangeOrder := orderB } pairs hne
      (hB pairs)).2 hbad
    obtain ⟨eD, hDm⟩ := (normalizeVoiceMap_pairs { env with rangeOrder := orderD } pairs hne
      (hD pairs)).2 hbad
    rw [hA, hBm, hDm]
    exact ⟨trivial, trivial, trivial⟩

/-- C5 witness: the pairs (" Kore ", "A ") and ("CHARON", "B") with
`generated_at` "2026-01-01T00:00:00Z", the entries of a map visited last to
first for shape (b) and first to last for shape (d). -/
theorem parseVoices_shape_invariant_witness :
    [((ascii " Kore ", ascii "A ") : GoString × GoString), (ascii "CHARON", ascii "B")] ≠ []
      ∧ ([((ascii " Kore ", ascii "A ") : GoString × GoString), (ascii "CHARON", ascii "B")].map
          (normalName sampleEnv)).Nodup
      ∧ parseVoicesJSONWithTimestamp sampleEnv
          (shapeEnvelopeArray (some (ascii "2026-01-01T00:00:00Z"))
            [(ascii " Kore ", ascii "A "), (ascii "CHARON", ascii "B")])
        = .ok ([(ascii "kore", ascii "A"), (ascii "charon", ascii "B")], some 1767225600)
      ∧ SameCatalog
          (parseVoicesJSONWithTimestamp sampleEnv
            (shapeEnvelopeArray (some (ascii "2026-01-01T00:00:00Z"))
              [(ascii " Kore ", ascii "A "), (ascii "CHARON", ascii "B")]))
          (parseVoicesJSONWithTimestamp { sampleEnv with rangeOrder := fun m => m }
            (shapeMap [(ascii " Kore ", ascii "A "), (ascii "CHARON", ascii "B")])) :=
  ⟨by decide, by decide, by decide,
    (parseVoices_shape_invariant sampleEnv List.reverse (fun m => m)
      (fun m => List.reverse_perm m) (fun m => List.Perm.refl m)
      [(ascii " Kore ", ascii "A "), (ascii "CHARON", ascii "B")]
      (some (ascii "2026-01-01T00:00:00Z")) (by decide) (by decide)
      (fun v hv => ⟨1767225600, by
        have : v = ascii "2026-01-01T00:00:00Z" := (Option.some.inj hv).symm
        subst this; rfl⟩)).2.2⟩

/-! ## C11: no control characters in the output -/

theorem not_mem_crToLF (l : List Nat) : ∀ r ∈ l.map crToLF, r ≠ 0x0D := by
  intro r hr
  obtain ⟨a, -, rfl⟩ := List.mem_map.mp hr
  unfold crToLF
  split_ifs with h
  · decide
  · exact h

theorem keepRune_spec {r : Nat} (h : keepRune r = true) :
    (r < 0x20 → r = 0x0A ∨ r = 0x09) ∧ r ≠ 0x7F ∧ r ≠ 0x0D := by
  simp only [keepRune, decide_eq_true_eq] at h
  omega

theorem mem_encodeAll {rs : List Nat} {b : Nat} (h : b ∈ encodeAll rs) :
    ∃ r ∈ rs, b ∈ encodeRune r := by
  simpa [encodeAll, List.mem_flatMap] using h

theorem dropCRBeforeLF_of_no_cr (s : List Nat) (h : ∀ b ∈ s, b ≠ 0x0D) : dropCRBeforeLF s = s := by
  induction s using dropCRBeforeLF.induct with
  | case1 => rfl
  | case2 b => rfl
  | case3 a b rest hab ih =>
    exact absurd hab.1 (h a (by simp))
  | case4 a b rest hab ih =>
    rw [dropCRBeforeLF, if_neg hab, ih (fun c hc => h c (List.mem_cons_of_mem _ hc))]

theorem map_crToLF_of_no_cr (s : List Nat) (h : ∀ b ∈ s, b ≠ 0x0D) : s.map crToLF = s := by
  conv_rhs => rw [← List.map_id s]
  apply List.map_congr_left
  intro b hb
  simp only [crToLF, if_neg (h b hb), id]

theorem runes_unifyAndTrim (x : GoString) :
    runes (unifyAndTrim x) = trimRunes ((dropCRBeforeLF (runes x)).map crToLF) := by
  rw [unifyAndTrim, runes_trimSpace, replaceAll_cr, replaceAll_crlf, runes_map_crToLF,
    runes_dropCRBeforeLF]

theorem unifyAndTrim_unified (x : GoString) :
    unifyAndTrim (replaceAll (replaceAll x [0x0D, 0x0A] [0x0A]) [0x0D] [0x0A])
      = unifyAndTrim x := by
  have hno : ∀ b ∈ (dropCRBeforeLF x).map crToLF, b ≠ 0x0D := not_mem_crToLF _
  simp only [unifyAndTrim, replaceAll_cr, replaceAll_crlf]
  rw [dropCRBeforeLF_of_no_cr _ hno, map_crToLF_of_no_cr _ hno]

/-- C11: when `normalizeText` succeeds, no rune of the result is below 0x20
other than line feed and tab, none is 0x7F, and none is a carriage return; the
same holds of the bytes of the result.  The carriage returns have become line
feeds: the runes of the result are what the trimming, the cleaning and the loop
over the lines make of the runes of the input with every CR LF turned into LF
and then every CR into LF, so `normalizeText` gives the same for the input and
for the input with its line ends unified, which holds no carriage return;
"a\rb" and "a\r\nb" both give "a\nb". -/
theorem normalizeText_no_control (x : GoString) :
    (∀ y, normalizeText x = .ok y →
        (∀ r ∈ runes y, (r < 0x20 → r = 0x0A ∨ r = 0x09) ∧ r ≠ 0x7F ∧ r ≠ 0x0D)
          ∧ (∀ b ∈ y, (b < 0x20 → b = 0x0A ∨ b = 0x09) ∧ b ≠ 0x7F ∧ b ≠ 0x0D)
          ∧ runes y = normalizeRunes
              ((trimRunes ((dropCRBeforeLF (runes x)).map crToLF)).filter keepRune))
      ∧ normalizeText x
          = normalizeText (replaceAll (replaceAll x [0x0D, 0x0A] [0x0A]) [0x0D] [0x0A])
      ∧ replaceAll (replaceAll x [0x0D, 0x0A] [0x0A]) [0x0D] [0x0A]
          = (dropCRBeforeLF x).map crToLF
      ∧ (∀ b ∈ (dropCRBeforeLF x).map crToLF, b ≠ 0x0D)
      ∧ normalizeText [0x61, 0x0D, 0x62] = .ok [0x61, 0x0A, 0x62]
      ∧ normalizeText [0x61, 0x0D, 0x0A, 0x62] = .ok [0x61, 0x0A, 0x62] := by
  refine ⟨?_, ?_, ?_, not_mem_crToLF _, by decide, by decide⟩
  · intro y hy
    obtain ⟨-, -, -, hyeq, -⟩ := normalizeText_ok hy
    have hkeep := normalizeRunes_keep (cleanedRunes_keep x)
    have hvalid := normalizeRunes_valid (cleanedRunes_valid x)
    refine ⟨?_, ?_, ?_⟩
    · intro r hr
      rw [hyeq, runes_encodeAll _ hvalid] at hr
      exact keepRune_spec (hkeep r hr)
    · intro b hb
      rw [hyeq] at hb
      obtain ⟨r, hr, hbr⟩ := mem_encodeAll hb
      by_cases hascii : r ≤ 0x7F
      · rw [encodeRune_ascii r hascii, List.mem_singleton] at hbr
        subst hbr
        exact keepRune_spec (hkeep b hr)
      · have := encodeRune_bytes_ge r (by omega) b hbr
        omega
    · rw [hyeq, runes_encodeAll _ hvalid, cleanedRunes, runes_unifyAndTrim]
  · rw [normalizeText_eq x, normalizeText_eq (replaceAll (replaceAll x _ _) _ _)]
    simp only [cleanedRunes, unifyAndTrim_unified]
  · rw [replaceAll_cr, replaceAll_crlf]

/-! ## C12: an invalid entry fails the load -/

theorem decodeOptionalString_not_string (v : JSON) (h : v.isString = false) :
    decodeOptionalString (some v) = [] := by
  cases v <;> first | rfl | (simp [JSON.isString] at h)

/-- C14 counterexample: the bodies `{"text":"hi","voice":5}`,
`{"text":"hi","voice":{"a":"b"}}`, `{"text":"hi","lang":["en"]}` and
`{"text":["a","b"],"voice":true}` parse without error; the field that is not a
string is left empty. -/
theorem parseTTSRequest_voice_number :
    parseTTSRequest (some (.object [(ascii "text", .string (ascii "hi")),
        (ascii "voice", .number (ascii "5"))]))
      = .ok { Text := ascii "hi", Voice := [], Lang := [] }
    ∧ parseTTSRequest (some (.object [(ascii "text", .string (ascii "hi")),
        (ascii "voice", .object [(ascii "a", .string (ascii "b"))])]))
      = .ok { Text := ascii "hi", Voice := [], Lang := [] }
    ∧ parseTTSRequest (some (.object [(ascii "text", .string (ascii "hi")),
        (ascii "lang", .array [.string (ascii "en")])]))
      = .ok { Text := ascii "hi", Voice := [], Lang := [] }
    ∧ parseTTSRequest (some (.object [(ascii "text", .array [.string (ascii "a"),
        .string (ascii "b")]), (ascii "voice", .bool true)]))
      = .ok { Text := ascii "a" ++ [0x0A] ++ ascii "b", Voice := [], Lang := [] } := by
  refine ⟨by decide, by decide, by decide, by decide⟩

theorem parseTTSRequest_text_strings (members : List (GoString × JSON)) (parts : List GoString)
    (h : rawGet members (ascii "text") = some (.array (parts.map JSON.string))) :
    parseTTSRequest (some (.object members))
      = .ok { Text := join [0x0A] parts,
              Voice := decodeOptionalString (rawGet members (ascii "voice")),
              Lang := decodeOptionalString (rawGet members (ascii "lang")) } := by
  have hall : ∀ e ∈ parts.map JSON.string, e.isString = true ∨ e.isNull = true := by
    intro e he
    obtain ⟨s, -, rfl⟩ := List.mem_map.mp he
    exact Or.inl rfl
  have hmap : (parts.map JSON.string).map JSON.stringOrEmpty = parts := by
    rw [List.map_map]
    exact List.map_id' _
  have := (parseTTSRequest_text_array members _ h).1 hall
  rwa [hmap] at this

/-- C14 (as amended): in a JSON-object body whose `text` is valid, that is a
string or an array of strings, a `voice` or `lang` that is present and is not a
JSON string does not fail the parse: `parseTTSRequest` succeeds with the text
(the strings of an array joined by line feeds), the field that is not a string
is left empty, and a field that is a string is taken as it is. -/
theorem parseTTSRequest_voice_lang_ignored (members : List (GoString × JSON)) (t : GoString)
    (h : rawGet members (ascii "text") = some (.string t)
      ∨ ∃ parts : List GoString,
          rawGet members (ascii "text") = some (.array (parts.map JSON.string))
            ∧ t = join [0x0A] parts) :
    parseTTSRequest (some (.object members))
        = .ok { Text := t,
                Voice := decodeOptionalString (rawGet members (ascii "voice")),
                Lang := decodeOptionalString (rawGet members (ascii "lang")) }
      ∧ (∀ v, rawGet members (ascii "voice") = some v → v.isString = false →
          parseTTSRequest (some (.object members))
            = .ok { Text := t, Voice := [],
                    Lang := decodeOptionalString (rawGet members (ascii "lang")) })
      ∧ (∀ v, rawGet members (ascii "lang") = some v → v.isString = false →
          parseTTSRequest (some (.object members))
            = .ok { Text := t,
                    Voice := decodeOptionalString (rawGet members (ascii "voice")),
                    Lang := [] })
      ∧ (∀ s, rawGet members (ascii "voice") = some (.string s) →
          parseTTSRequest (some (.object members))
            = .ok { Text := t, Voice := s,
                    Lang := decodeOptionalString (rawGet members (ascii "lang")) })
      ∧ (∀ s, rawGet members (ascii "lang") = some (.string s) →
          parseTTSRequest (some (.object members))
            = .ok { Text := t,
                    Voice := decodeOptionalString (rawGet members (ascii "voice")),
                    Lang := s }) := by
  have h0 : parseTTSRequest (some (.object members))
      = .ok { Text := t,
              Voice := decodeOptionalString (rawGet members (ascii "voice")),
              Lang := decodeOptionalString (rawGet members (ascii "lang")) } := by
    rcases h with h | ⟨parts, h, ht⟩
    · simp only [parseTTSRequest, decodeRawMap, h, decodeString]
    · rw [ht]
      exact parseTTSRequest_text_strings members parts h
  refine ⟨h0, ?_, ?_, ?_, ?_⟩
  · intro v hv hns
    rw [h0, hv, decodeOptionalString_not_string v hns]
  · intro v hv hns
    rw [h0, hv, decodeOptionalString_not_string v hns]
  · intro s hs
    rw [h0, hs]
    rfl
  · intro s hs
    rw [h0, hs]
    rfl

/-- C14 witness: the bodies `{"text":"hi","voice":5,"lang":"en"}` and
`{"text":["a","b"],"lang":{"x":"y"}}`. -/
theorem parseTTSRequest_voice_lang_ignored_witness :
    parseTTSRequest (some (.object [(ascii "text", .string (ascii "hi")),
        (ascii "voice", .number (ascii "5")), (ascii "lang", .string (ascii "en"))]))
      = .ok { Text := ascii "hi", Voice := [], Lang := ascii "en" }
    ∧ parseTTSRequest (some (.object [(ascii "text", .array [.string (ascii "a"),
        .string (ascii "b")]), (ascii "lang", .object [(ascii "x", .string (ascii "y"))])]))
      = .ok { Text := ascii "a" ++ [0x0A] ++ ascii "b", Voice := [], Lang := [] } :=
  ⟨(parseTTSRequest_voice_lang_ignored
      [(ascii "text", .string (ascii "hi")), (ascii "voice", .number (ascii "5")),
        (ascii "lang", .string (ascii "en"))]
      (ascii "hi") (Or.inl rfl)).2.1 (.number (ascii "5")) rfl rfl,
    (parseTTSRequest_voice_lang_ignored
      [(ascii "text", .array [.string (ascii "a"), .string (ascii "b")]),
        (ascii "lang", .object [(ascii "x", .string (ascii "y"))])]
      (ascii "a" ++ [0x0A] ++ ascii "b")
      (Or.inr ⟨[ascii "a", ascii "b"], rfl, rfl⟩)).2.2.1
      (.object [(ascii "x", .string (ascii "y"))]) rfl rfl⟩

/-! ## C15: the order in which a credential is looked up -/

theorem runes_eq_self_of_lt (s : List Nat) : (∀ r ∈ runes s, r < 0x80) → runes s = s := by
  refine units_induction (P := fun s => (∀ r ∈ runes s, r < 0x80) → runes s = s) ?_ ?_ ?_ s
  · intro _; rfl
  · intro r q hr ih h
    rw [runes_encodeRune r q hr] at h ⊢
    have hr' : r < 0x80 := h r (by simp)
    rw [encodeRune_ascii r (by omega), ih (fun x hx => h x (by simp [hx]))]
    rfl
  · intro b q hb _ h
    rw [runes_bad b q hb] at h
    have := h runeError (by simp)
    simp [runeError] at this

theorem foldRune_lt {r : Nat} (h : foldRune r < 0x80) (hK : foldRune r ≠ 0x4B)
    (hS : foldRune r ≠ 0x53) : r < 0x80 := by
  unfold foldRune at h hK hS
  split_ifs at h hK hS <;> omega

theorem lowerASCII_foldRune {b : Nat} (h : b < 0x80) : lowerASCII (foldRune b) = lowerASCII b := by
  unfold lowerASCII foldRune
  split_ifs <;> omega

theorem foldRune_lowerASCII {b : Nat} (h : b < 0x80) : foldRune (lowerASCII b) = foldRune b := by
  unfold lowerASCII foldRune
  split_ifs <;> omega

theorem lowerASCII_lt {b : Nat} (h : lowerASCII b < 0x80) : b < 0x80 := by
  unfold lowerASCII at h
  split_ifs at h <;> omega

/-- `strings.EqualFold(s, "Bearer ")` holds exactly of the strings that are
"bearer " once their ASCII letters are put in lower case. -/
theorem equalFold_bearer (s : GoString) :
    equalFold s (ascii "Bearer ") = true ↔ s.map lowerASCII = ascii "bearer " := by
  have ht : (runes (ascii "Bearer ")).map foldRune = [0x42, 0x45, 0x41, 0x52, 0x45, 0x52, 0x20] := by
    decide
  simp only [equalFold, decide_eq_true_eq, ht]
  constructor
  · intro h
    have hlt : ∀ r ∈ runes s, r < 0x80 := by
      intro r hr
      have hm : foldRune r ∈ (runes s).map foldRune := List.mem_map_of_mem _ hr
      rw [h] at hm
      simp only [List.mem_cons, List.mem_singleton, List.not_mem_nil, or_false] at hm
      apply foldRune_lt <;> omega
    have hs := runes_eq_self_of_lt s hlt
    rw [hs] at h hlt
    have h2 : s.map lowerASCII = (s.map foldRune).map lowerASCII := by
      rw [List.map_map]
      apply List.map_congr_left
      intro b hb
      exact (lowerASCII_foldRune (hlt b hb)).symm
    rw [h2, h]
    decide
  · intro h
    have hlt : ∀ b ∈ s, b < 0x80 := by
      intro b hb
      have hm : lowerASCII b ∈ s.map lowerASCII := List.mem_map_of_mem _ hb
      rw [h] at hm
      apply lowerASCII_lt
      have : ∀ c ∈ ascii "bearer ", c < 0x80 := by decide
      exact this _ hm
    rw [runes_of_ascii s hlt]
    have h2 : s.map foldRune = (s.map lowerASCII).map foldRune := by
      rw [List.map_map]
      apply List.map_congr_left
      intro b hb
      exact (foldRune_lowerASCII (hlt b hb)).symm
    rw [h2, h]
    decide

theorem getRequestAPIKey_eq (r : Request) :
    getRequestAPIKey (some r) =
      if trimSpace (r.header (ascii "X-Gemini-Api-Key")) ≠ [] then
        trimSpace (r.header (ascii "X-Gemini-Api-Key"))
      else if trimSpace (r.header (ascii "X-API-Key")) ≠ [] then
        trimSpace (r.header (ascii "X-API-Key"))
      else bearerToken (r.header (ascii "Authorization")) := by
  have hb : ∀ auth : GoString,
      (auth.length ≥ 7 ∧ equalFold (auth.take 7) (ascii "Bearer ") = true)
        ↔ (auth.take 7).map lowerASCII = ascii "bearer " := by
    intro auth
    rw [equalFold_bearer]
    constructor
    · exact fun h => h.2
    · intro h
      refine ⟨?_, h⟩
      have := congrArg List.length h
      rw [List.length_map, List.length_take] at this
      have h7 : (ascii "bearer ").length = 7 := by decide
      omega
  simp only [getRequestAPIKey, bearerToken, hb]

/-- C15: the credential `ttsHandler` goes on with.  It is the trimmed value of
header `X-Gemini-Api-Key` when that is not empty; else the trimmed value of
header `X-API-Key` when that is not empty; else the trimmed rest of the
trimmed `Authorization` header that starts with "Bearer " in any letter case,
when that is not empty.  Only when none of the three gives a key is the
trimmed value of `GEMINI_API_KEY` taken, and when that is empty or is
"your_api_key_here" there is no credential. -/
theorem resolveAPIKey_precedence (r : Request) (getenvKey : GoString) :
    (trimSpace (r.header (ascii "X-Gemini-Api-Key")) ≠ [] →
        resolveAPIKey r getenvKey = some (trimSpace (r.header (ascii "X-Gemini-Api-Key"))))
      ∧ (trimSpace (r.header (ascii "X-Gemini-Api-Key")) = [] →
          trimSpace (r.header (ascii "X-API-Key")) ≠ [] →
          resolveAPIKey r getenvKey = some (trimSpace (r.header (ascii "X-API-Key"))))
      ∧ (trimSpace (r.header (ascii "X-Gemini-Api-Key")) = [] →
          trimSpace (r.header (ascii "X-API-Key")) = [] →
          bearerToken (r.header (ascii "Authorization")) ≠ [] →
          resolveAPIKey r getenvKey = some (bearerToken (r.header (ascii "Authorization"))))
      ∧ (trimSpace (r.header (ascii "X-Gemini-Api-Key")) = [] →
          trimSpace (r.header (ascii "X-API-Key")) = [] →
          bearerToken (r.header (ascii "Authorization")) = [] →
          ((trimSpace getenvKey = [] ∨ trimSpace getenvKey = ascii "your_api_key_here") →
              resolveAPIKey r getenvKey = none)
            ∧ (trimSpace getenvKey ≠ [] → trimSpace getenvKey ≠ ascii "your_api_key_here" →
              resolveAPIKey r getenvKey = some (trimSpace getenvKey)))
      ∧ getRequestAPIKey (some r) =
          (if trimSpace (r.header (ascii "X-Gemini-Api-Key")) ≠ [] then
            trimSpace (r.header (ascii "X-Gemini-Api-Key"))
          else if trimSpace (r.header (ascii "X-API-Key")) ≠ [] then
            trimSpace (r.header (ascii "X-API-Key"))
          else bearerToken (r.header (ascii "Authorization")))
      ∧ getRequestAPIKey none = [] := by
  refine ⟨?_, ?_, ?_, ?_, getRequestAPIKey_eq r, rfl⟩
  · intro h1
    simp only [resolveAPIKey, getRequestAPIKey_eq, if_pos h1, if_neg h1]
  · intro h1 h2
    simp only [resolveAPIKey, getRequestAPIKey_eq, h1, ne_eq, not_true_eq_false, if_false,
      if_pos h2, if_neg h2]
  · intro h1 h2 h3
    simp only [resolveAPIKey, getRequestAPIKey_eq, h1, h2, ne_eq, not_true_eq_false, if_false,
      if_neg h3]
  · intro h1 h2 h3
    constructor
    · intro he
      simp only [resolveAPIKey, getRequestAPIKey_eq, h1, h2, h3, ne_eq, not_true_eq_false,
        if_false, if_true, if_pos he]
    · intro he1 he2
      have : ¬ (trimSpace getenvKey = [] ∨ trimSpace getenvKey = ascii "your_api_key_here") := by
        push_neg; exact ⟨he1, he2⟩
      simp only [resolveAPIKey, getRequestAPIKey_eq, h1, h2, h3, ne_eq, not_true_eq_false,
        if_false, if_true, if_neg this]

/-! ## C16, C17: `ttsHandler` after parsing and normalising -/

/-- What `ttsHandler` does with a POST request whose body parses and whose text
normalises. -/
theorem ttsHandler_post (env : GoEnv) (supportedVoices : GoMap) (getenvKey : GoString)
    (r : Request) (req : ttsReq) (text : GoString)
    (hm : r.method = ascii "POST") (hp : parseTTSRequest r.body = .ok req)
    (hn : normalizeText req.Text = .ok text) :
    ttsHandler env supportedVoices getenvKey r =
      if req.Voice ≠ [] then
        if mapGet supportedVoices (toLower env req.Voice) = none then
          .responded (httpError
            (ascii "unsupported voice: " ++ toLower env req.Voice
              ++ ascii ", supported voices: "
              ++ formatStrings (getSupportedVoiceNames env supportedVoices)) 400)
        else
          ttsHandler.credentials getenvKey r
            { Text := text, Voice := toLower env req.Voice, Lang := req.Lang }
      else
        ttsHandler.credentials getenvKey r
          { Text := text, Voice := req.Voice, Lang := req.Lang } := by
  have h1 : ¬ r.method = ascii "OPTIONS" := by rw [hm]; decide
  have h2 : ¬ r.method ≠ ascii "POST" := by rw [hm]; simp
  simp only [ttsHandler, if_neg h1, if_neg h2, hp, hn]

theorem credentials_none (getenvKey : GoString) (r : Request) (req : ttsReq)
    (h : resolveAPIKey r getenvKey = none) :
    ttsHandler.credentials getenvKey r req
      = .responded (httpError (ascii "missing api key") 401) := by
  simp only [ttsHandler.credentials, h]

theorem credentials_some (getenvKey : GoString) (r : Request) (req : ttsReq) (k : GoString)
    (h : resolveAPIKey r getenvKey = some k) :
    ttsHandler.credentials getenvKey r req = .upstream k req := by
  simp only [ttsHandler.credentials, h]

theorem resolveAPIKey_eq_none (r : Request) (getenvKey : GoString) :
    resolveAPIKey r getenvKey = none
      ↔ getRequestAPIKey (some r) = []
        ∧ (trimSpace getenvKey = [] ∨ trimSpace getenvKey = ascii "your_api_key_here") := by
  simp only [resolveAPIKey]
  split_ifs with h1 h2
  · simp [h1, h2]
  · simp [h1, h2]
  · simp [h1]

theorem resolveAPIKey_header (r : Request) (getenvKey : GoString)
    (h : getRequestAPIKey (some r) ≠ []) :
    resolveAPIKey r getenvKey = some (getRequestAPIKey (some r)) := by
  simp only [resolveAPIKey, if_neg h]

theorem resolveAPIKey_env (r : Request) (getenvKey : GoString)
    (h : getRequestAPIKey (some r) = []) (h1 : trimSpace getenvKey ≠ [])
    (h2 : trimSpace getenvKey ≠ ascii "your_api_key_here") :
    resolveAPIKey r getenvKey = some (trimSpace getenvKey) := by
  have : ¬ (trimSpace getenvKey = [] ∨ trimSpace getenvKey = ascii "your_api_key_here") := by
    push_neg; exact ⟨h1, h2⟩
  simp only [resolveAPIKey, h, if_true, if_neg this]

/-- C16 counterexample: a POST of `{"text":"hi"}` with the header
`X-API-Key: your_api_key_here` and no `GEMINI_API_KEY`.  The credential taken
from the header is the placeholder, the handler does not answer 401, and it
calls `genai.NewClient` with the placeholder as the key. -/
theorem ttsHandler_header_placeholder :
    getRequestAPIKey (some (mkRequest (ascii "POST")
        [(ascii "X-API-Key", ascii "your_api_key_here")]
        (some (.object [(ascii "text", .string (ascii "hi"))]))))
      = ascii "your_api_key_here"
    ∧ ttsHandler sampleEnv [(ascii "kore", ascii "Firm")] []
        (mkRequest (ascii "POST") [(ascii "X-API-Key", ascii "your_api_key_here")]
          (some (.object [(ascii "text", .string (ascii "hi"))])))
      = .upstream (ascii "your_api_key_here") { Text := ascii "hi", Voice := [], Lang := [] } := by
  refine ⟨by decide, by decide⟩

/-- C16 (as amended): for a POST request that passes parsing, text
normalisation and voice validation.  When no request header gives a key and
`GEMINI_API_KEY`, trimmed, is empty or "your_api_key_here", the handler
answers 401 "missing api key" and does not call `genai.NewClient`.  In every
other case it calls `genai.NewClient`: with the key from the request headers
when there is one, whatever it is (the placeholder included), and else with
the trimmed `GEMINI_API_KEY`. -/
theorem ttsHandler_missing_key (env : GoEnv) (supportedVoices : GoMap) (getenvKey : GoString)
    (r : Request) (req : ttsReq) (text : GoString)
    (hm : r.method = ascii "POST") (hp : parseTTSRequest r.body = .ok req)
    (hn : normalizeText req.Text = .ok text)
    (hv : req.Voice = [] ∨ mapGet supportedVoices (toLower env req.Voice) ≠ none) :
    (getRequestAPIKey (some r) = [] →
        (trimSpace getenvKey = [] ∨ trimSpace getenvKey = ascii "your_api_key_here") →
        ttsHandler env supportedVoices getenvKey r
          = .responded (httpError (ascii "missing api key") 401))
      ∧ (getRequestAPIKey (some r) ≠ [] →
        ttsHandler env supportedVoices getenvKey r
          = .upstream (getRequestAPIKey (some r))
              { Text := text, Voice := toLower env req.Voice, Lang := req.Lang })
      ∧ (getRequestAPIKey (some r) = [] → trimSpace getenvKey ≠ [] →
        trimSpace getenvKey ≠ ascii "your_api_key_here" →
        ttsHandler env supportedVoices getenvKey r
          = .upstream (trimSpace getenvKey)
              { Text := text, Voice := toLower env req.Voice, Lang := req.Lang }) := by
  have hgo : ttsHandler env supportedVoices getenvKey r =
      ttsHandler.credentials getenvKey r
        { Text := text, Voice := toLower env req.Voice, Lang := req.Lang } := by
    rw [ttsHandler_post env supportedVoices getenvKey r req text hm hp hn]
    rcases hv with hv | hv
    · have h0 : toLower env req.Voice = req.Voice := by rw [hv]; simp [toLower]
      rw [if_neg (by simp [hv]), h0]
    · by_cases hne : req.Voice = []
      · have h0 : toLower env req.Voice = req.Voice := by rw [hne]; simp [toLower]
        rw [if_neg (by simp [hne]), h0]
      · rw [if_pos hne, if_neg hv]
  refine ⟨?_, ?_, ?_⟩
  · intro h1 h2
    rw [hgo, credentials_none _ _ _ ((resolveAPIKey_eq_none r getenvKey).mpr ⟨h1, h2⟩)]
  · intro h1
    rw [hgo, credentials_some _ _ _ _ (resolveAPIKey_header r getenvKey h1)]
  · intro h1 h2 h3
    rw [hgo, credentials_some _ _ _ _ (resolveAPIKey_env r getenvKey h1 h2 h3)]

/-- C16 witness: a POST of `{"text":"hi"}` without any credential header, with
`GEMINI_API_KEY` set to " your_api_key_here ", is answered 401. -/
theorem ttsHandler_missing_key_witness :
    ttsHandler sampleEnv [(ascii "kore", ascii "Firm")] (ascii " your_api_key_here ")
        (mkRequest (ascii "POST") [] (some (.object [(ascii "text", .string (ascii "hi"))])))
      = .responded (httpError (ascii "missing api key") 401) :=
  (ttsHandler_missing_key sampleEnv [(ascii "kore", ascii "Firm")] (ascii " your_api_key_here ")
    (mkRequest (ascii "POST") [] (some (.object [(ascii "text", .string (ascii "hi"))])))
    { Text := ascii "hi", Voice := [], Lang := [] } (ascii "hi") rfl (by decide) (by decide)
    (Or.inl rfl)).1 (by decide) (Or.inr (by decide))

/-- C17: for a POST request that passes parsing and text normalisation and
names a voice.  The voice is rejected exactly when its lower-cased form is not
a key of the catalog, and then the answer is 400 "unsupported voice: ..." with
the sorted names of the catalog; otherwise the handler goes on to the
credential with the lower-cased voice.  So two such requests whose voices have
the same lower-cased form are both rejected or both accepted. -/
theorem ttsHandler_voice_case_insensitive (env : GoEnv) (supportedVoices : GoMap)
    (getenvKey : GoString) (r : Request) (req : ttsReq) (text : GoString)
    (hm : r.method = ascii "POST") (hp : parseTTSRequest r.body = .ok req)
    (hn : normalizeText req.Text = .ok text) (hv : req.Voice ≠ []) :
    (mapGet supportedVoices (toLower env req.Voice) = none →
        ttsHandler env supportedVoices getenvKey r
          = .responded (httpError
              (ascii "unsupported voice: " ++ toLower env req.Voice
                ++ ascii ", supported voices: "
                ++ formatStrings (getSupportedVoiceNames env supportedVoices)) 400))
      ∧ (mapGet supportedVoices (toLower env req.Voice) ≠ none →
        (resolveAPIKey r getenvKey = none →
            ttsHandler env supportedVoices getenvKey r
              = .responded (httpError (ascii "missing api key") 401))
          ∧ ∀ apiKey, resolveAPIKey r getenvKey = some apiKey →
            ttsHandler env supportedVoices getenvKey r
              = .upstream apiKey
                  { Text := text, Voice := toLower env req.Voice, Lang := req.Lang })
      ∧ ((∃ resp, ttsHandler env supportedVoices getenvKey r = .responded resp
            ∧ resp.status = 400)
          ↔ mapGet supportedVoices (toLower env req.Voice) = none)
      ∧ ∀ (r2 : Request) (req2 : ttsReq) (text2 : GoString),
          r2.method = ascii "POST" → parseTTSRequest r2.body = .ok req2 →
          normalizeText req2.Text = .ok text2 → req2.Voice ≠ [] →
          toLower env req2.Voice = toLower env req.Voice →
          ((∃ resp, ttsHandler env supportedVoices getenvKey r2 = .responded resp
              ∧ resp.status = 400)
            ↔ ∃ resp, ttsHandler env supportedVoices getenvKey r = .responded resp
              ∧ resp.status = 400) := by
  have key : ∀ (r : Request) (req : ttsReq) (text : GoString),
      r.method = ascii "POST" → parseTTSRequest r.body = .ok req →
      normalizeText req.Text = .ok text → req.Voice ≠ [] →
      ((∃ resp, ttsHandler env supportedVoices getenvKey r = .responded resp
          ∧ resp.status = 400)
        ↔ mapGet supportedVoices (toLower env req.Voice) = none) := by
    intro r req text hm hp hn hv
    rw [ttsHandler_post env supportedVoices getenvKey r req text hm hp hn, if_pos hv]
    constructor
    · rintro ⟨resp, h, hs⟩
      by_contra hc
      rw [if_neg hc] at h
      rcases hk : resolveAPIKey r getenvKey with _ | k
      · rw [credentials_none _ _ _ hk] at h
        simp only [Handled.responded.injEq] at h
        rw [← h] at hs
        simp [httpError] at hs
      · rw [credentials_some _ _ _ _ hk] at h
        simp at h
    · intro hnone
      rw [if_pos hnone]
      exact ⟨_, rfl, rfl⟩
  refine ⟨?_, ?_, key r req text hm hp hn hv, ?_⟩
  · intro hnone
    rw [ttsHandler_post env supportedVoices getenvKey r req text hm hp hn, if_pos hv,
      if_pos hnone]
  · intro hsome
    rw [ttsHandler_post env supportedVoices getenvKey r req text hm hp hn, if_pos hv,
      if_neg hsome]
    exact ⟨fun hk => credentials_none _ _ _ hk, fun k hk => credentials_some _ _ _ _ hk⟩
  · intro r2 req2 text2 hm2 hp2 hn2 hv2 heq
    rw [key r2 req2 text2 hm2 hp2 hn2 hv2, key r req text hm hp hn hv, heq]

/-- C17 witness: against the catalog with the one key "kore", a POST of
`{"text":"hi","voice":"Kore"}` is accepted like one with the voice "kore";
the voice "nonexistent" is answered 400. -/
theorem ttsHandler_voice_case_insensitive_witness :
    ttsHandler sampleEnv [(ascii "kore", ascii "Firm")] (ascii "key")
        (mkRequest (ascii "POST") []
          (some (.object [(ascii "text", .string (ascii "hi")),
            (ascii "voice", .string (ascii "Kore"))])))
      = .upstream (ascii "key") { Text := ascii "hi", Voice := ascii "kore", Lang := [] }
    ∧ ttsHandler sampleEnv [(ascii "kore", ascii "Firm")] (ascii "key")
        (mkRequest (ascii "POST") []
          (some (.object [(ascii "text", .string (ascii "hi")),
            (ascii "voice", .string (ascii "kore"))])))
      = .upstream (ascii "key") { Text := ascii "hi", Voice := ascii "kore", Lang := [] }
    ∧ ttsHandler sampleEnv [(ascii "kore", ascii "Firm")] (ascii "key")
        (mkRequest (ascii "POST") []
          (some (.object [(ascii "text", .string (ascii "hi")),
            (ascii "voice", .string (ascii "nonexistent"))])))
      = .responded (httpError
          (ascii "unsupported voice: nonexistent, supported voices: [kore]") 400) :=
  ⟨(ttsHandler_voice_case_insensitive sampleEnv [(ascii "kore", ascii "Firm")] (ascii "key")
      (mkRequest (ascii "POST") []
        (some (.object [(ascii "text", .string (ascii "hi")),
          (ascii "voice", .string (ascii "Kore"))])))
      { Text := ascii "hi", Voice := ascii "Kore", Lang := [] } (ascii "hi") rfl (by decide)
      (by decide) (by decide)).2.1 (by decide) |>.2 (ascii "key") (by decide),
    by decide, by decide⟩

/-! ## C18: the listings are sorted -/

theorem stringLess_irrefl (a : GoString) : stringLess a a = false := by
  induction a with
  | nil => rfl
  | cons x xs ih => simp [stringLess, ih]

theorem stringLess_cons (x y : Nat) (xs ys : GoString) :
    stringLess (x :: xs) (y :: ys)
      = if x < y then true else if y < x then false else stringLess xs ys := rfl

theorem stringLess_asymm : ∀ a b : GoString, stringLess a b = true → stringLess b a = false := by
  intro a
  induction a with
  | nil => intro b _; cases b <;> rfl
  | cons x xs ih =>
    intro b h
    cases b with
    | nil => simp [stringLess] at h
    | cons y ys =>
      rw [stringLess_cons] at h ⊢
      rcases Nat.lt_trichotomy x y with hlt | heq | hgt
      · rw [if_neg (by omega), if_pos hlt]
      · subst heq
        rw [if_neg (by omega), if_neg (by omega)] at h ⊢
        exact ih ys h
      · rw [if_neg (by omega), if_pos hgt] at h
        cases h

theorem stringLE_total (a b : GoString) : stringLE a b ∨ stringLE b a := by
  unfold stringLE
  cases h : stringLess b a with
  | false => exact Or.inl rfl
  | true => exact Or.inr (stringLess_asymm b a h)

theorem stringLE_trans : ∀ a b c : GoString, stringLE a b → stringLE b c → stringLE a c := by
  unfold stringLE
  intro a
  induction a with
  | nil =>
    intro b c _ _
    cases c <;> rfl
  | cons x xs ih =>
    intro b c hab hbc
    cases b with
    | nil => simp [stringLess] at hab
    | cons y ys =>
      cases c with
      | nil => simp [stringLess] at hbc
      | cons z zs =>
        rw [stringLess_cons] at hab hbc ⊢
        rcases Nat.lt_trichotomy y x with h1 | h1 | h1
        · rw [if_pos h1] at hab; cases hab
        · subst h1
          rw [if_neg (by omega), if_neg (by omega)] at hab
          rcases Nat.lt_trichotomy z y with h2 | h2 | h2
          · rw [if_pos h2] at hbc; cases hbc
          · subst h2
            rw [if_neg (by omega), if_neg (by omega)] at hbc ⊢
            exact ih ys zs hab hbc
          · rw [if_neg (by omega), if_pos h2]
        · rcases Nat.lt_trichotomy z y with h2 | h2 | h2
          · rw [if_pos h2] at hbc; cases hbc
          · subst h2
            rw [if_neg (by omega), if_pos h1]
          · rw [if_neg (by omega), if_pos (by omega)]

theorem stringLE_antisymm : ∀ a b : GoString, stringLE a b → stringLE b a → a = b := by
  unfold stringLE
  intro a
  induction a with
  | nil =>
    intro b _ h2
    cases b with
    | nil => rfl
    | cons y ys => simp [stringLess] at h2
  | cons x xs ih =>
    intro b h1 h2
    cases b with
    | nil => simp [stringLess] at h1
    | cons y ys =>
      rw [stringLess_cons] at h1 h2
      rcases Nat.lt_trichotomy x y with hlt | heq | hgt
      · rw [if_pos hlt] at h2; cases h2
      · subst heq
        rw [if_neg (by omega), if_neg (by omega)] at h1 h2
        rw [ih ys h1 h2]
      · rw [if_pos hgt] at h1; cases h1

theorem sortStrings_perm (l : List GoString) : (sortStrings l).Perm l :=
  List.perm_insertionSort stringLE l

theorem sortStrings_sorted (l : List GoString) : (sortStrings l).Pairwise stringLE := by
  haveI : IsTotal GoString stringLE := ⟨stringLE_total⟩
  haveI : IsTrans GoString stringLE := ⟨stringLE_trans⟩
  exact List.sorted_insertionSort stringLE l

theorem sortStrings_strict (l : List GoString) (h : l.Nodup) :
    (sortStrings l).Pairwise (fun a b => stringLess a b = true) := by
  have hnd : (sortStrings l).Nodup := (sortStrings_perm l).nodup_iff.mpr h
  have := (sortStrings_sorted l).and hnd
  refine this.imp ?_
  intro a b hab
  obtain ⟨hle, hne⟩ := hab
  cases hlt : stringLess a b with
  | true => rfl
  | false => exact absurd (stringLE_antisymm a b hle hlt) hne

/-- Whatever the library does to sort, it gives what `sortStrings` gives: a list
in ascending order with the same elements is that list. -/
theorem sortStrings_unique (l l' : List GoString) (hp : l'.Perm l)
    (hs : l'.Pairwise stringLE) : l' = sortStrings l := by
  haveI : IsAntisymm GoString stringLE := ⟨stringLE_antisymm⟩
  exact List.eq_of_perm_of_sorted (hp.trans (sortStrings_perm l).symm) hs (sortStrings_sorted l)

theorem mapGet_of_mem_keys (m : GoMap) (key : GoString) (h : key ∈ m.map Prod.fst) :
    ∃ v, mapGet m key = some v := by
  induction m with
  | nil => simp at h
  | cons e rest ih =>
    obtain ⟨k, v⟩ := e
    simp only [mapGet]
    split_ifs with hk
    · exact ⟨v, rfl⟩
    · apply ih
      simp only [List.map_cons, List.mem_cons] at h
      rcases h with h | h
      · exact absurd h.symm hk
      · exact h

theorem mapGet_mapIndex (m : GoMap) (key : GoString) (h : key ∈ m.map Prod.fst) :
    mapGet m key = some (mapIndex m key) := by
  obtain ⟨v, hv⟩ := mapGet_of_mem_keys m key h
  rw [mapIndex, hv]
  rfl

theorem getSupportedVoiceNames_perm (env : GoEnv) (hperm : ∀ m, (env.rangeOrder m).Perm m)
    (m : GoMap) : (getSupportedVoiceNames env m).Perm (m.map Prod.fst) :=
  (sortStrings_perm _).trans ((hperm m).map Prod.fst)

/-- C18: for a catalog (a map: no key twice), in whatever order `range` visits
its entries.  `getSupportedVoiceNames` returns the keys of the catalog, each
once, in strictly ascending order of their bytes.  The list `voicesHandler`
encodes and the list `writeVoicesFile` writes hold one item per name that
`getSupportedVoiceNames` returns, in that order, and the description of each
item is the value the catalog has under its name. -/
theorem listings_sorted (env : GoEnv) (hperm : ∀ m, (env.rangeOrder m).Perm m)
    (m : GoMap) (hkeys : (m.map Prod.fst).Nodup) :
    (getSupportedVoiceNames env m).Perm (m.map Prod.fst)
      ∧ (getSupportedVoiceNames env m).Nodup
      ∧ (getSupportedVoiceNames env m).Pairwise (fun a b => stringLess a b = true)
      ∧ (voicesHandler env m).map (fun item => item.Name) = getSupportedVoiceNames env m
      ∧ (∀ item ∈ voicesHandler env m, mapGet m item.Name = some item.Description)
      ∧ (writeVoicesList env m).map (fun item => item.Name) = getSupportedVoiceNames env m
      ∧ (∀ item ∈ writeVoicesList env m, mapGet m item.Name = some item.Description)
      ∧ ∀ now, m ≠ [] →
          writeVoicesFile env now m
            = .ok (marshalEnvelope { GeneratedAt := now, Voices := writeVoicesList env m }) := by
  have hp := getSupportedVoiceNames_perm env hperm m
  have hnd0 : ((env.rangeOrder m).map Prod.fst).Nodup :=
    ((hperm m).map Prod.fst).nodup_iff.mpr hkeys
  have hitems : ∀ item ∈ (getSupportedVoiceNames env m).map
      (fun name => ({ Name := name, Description := mapIndex m name } : voiceItem)),
      mapGet m item.Name = some item.Description := by
    intro item hi
    obtain ⟨n, hn, rfl⟩ := List.mem_map.mp hi
    exact mapGet_mapIndex m n (hp.mem_iff.mp hn)
  refine ⟨hp, hp.nodup_iff.mpr hkeys, sortStrings_strict _ hnd0, ?_, hitems, ?_, hitems, ?_⟩
  · simp only [voicesHandler, List.map_map]
    exact List.map_id' _
  · simp only [writeVoicesList, getSupportedVoiceNames, List.map_map]
    exact List.map_id' _
  · intro now hne
    have : ¬ m.length = 0 := fun h => hne (List.length_eq_zero.mp h)
    simp only [writeVoicesFile, if_neg this]

/-- C18 witness: the catalog with the entries "kore", "charon", "Zed", with
`range` visiting them last to first. -/
theorem listings_sorted_witness :
    (∀ m, (sampleEnv.rangeOrder m).Perm m)
      ∧ getSupportedVoiceNames sampleEnv
          [(ascii "kore", ascii "K"), (ascii "charon", ascii "C"), (ascii "Zed", ascii "Z")]
        = [ascii "Zed", ascii "charon", ascii "kore"]
      ∧ voicesHandler sampleEnv
          [(ascii "kore", ascii "K"), (ascii "charon", ascii "C"), (ascii "Zed", ascii "Z")]
        = [{ Name := ascii "Zed", Description := ascii "Z" },
            { Name := ascii "charon", Description := ascii "C" },
            { Name := ascii "kore", Description := ascii "K" }]
      ∧ (getSupportedVoiceNames sampleEnv
          [(ascii "kore", ascii "K"), (ascii "charon", ascii "C"),
            (ascii "Zed", ascii "Z")]).Pairwise (fun a b => stringLess a b = true) :=
  ⟨fun m => List.reverse_perm m, by decide, by decide,
    (listings_sorted sampleEnv (fun m => List.reverse_perm m)
      [(ascii "kore", ascii "K"), (ascii "charon", ascii "C"), (ascii "Zed", ascii "Z")]
      (by decide)).2.2.1⟩

/-! ## C19: persisting and reloading a catalog -/

theorem encodeRune_invalid (r : Nat) (h : ¬ validRune r) : encodeRune r = encodeRune runeError := by
  unfold validRune at h
  have h2 : encodeRune runeError = [0xEF, 0xBF, 0xBD] := by decide
  rw [h2, encodeRune, if_neg (by omega), if_neg (by omega), if_neg (by omega),
    if_neg (by omega)]

theorem marshalString_encodeAll (rs : List Nat) :
    marshalString (encodeAll rs) = encodeAll rs := by
  induction rs with
  | nil => rfl
  | cons r rest ih =>
    unfold marshalString at ih ⊢
    rw [encodeAll_cons]
    by_cases hv : validRune r
    · rw [runes_encodeRune r _ hv, encodeAll_cons, ih]
    · rw [encodeRune_invalid r hv,
        runes_encodeRune runeError _ (by unfold validRune runeError; omega), encodeAll_cons, ih]

theorem marshalString_of_lower (env : GoEnv) (k : GoString) (h : toLower env k = k) :
    marshalString k = k := by
  rw [toLower_eq] at h
  rw [← h]
  exact marshalString_encodeAll _

theorem marshalString_of_ascii (s : GoString) (h : ∀ b ∈ s, b < 0x80) : marshalString s = s := by
  rw [marshalString, runes_of_ascii s h, encodeAll_of_ascii s h]

theorem mapGet_of_mem (c : GoMap) (hkeys : (c.map Prod.fst).Nodup) (k v : GoString)
    (h : (k, v) ∈ c) : mapGet c k = some v := by
  have h1 := (mapGet_assignAll c hkeys [] k v).mpr (Or.inl h)
  rwa [assignAll_of_nodup c [] (by simpa using hkeys), List.nil_append] at h1

theorem map_mapIndex_self (c : GoMap) (hkeys : (c.map Prod.fst).Nodup) :
    (c.map Prod.fst).map (fun n => (n, mapIndex c n)) = c := by
  rw [List.map_map]
  conv_rhs => rw [← List.map_id c]
  apply List.map_congr_left
  intro kv hkv
  obtain ⟨k, v⟩ := kv
  simp only [Function.comp, mapIndex, mapGet_of_mem c hkeys k v hkv, Option.getD_some, id]

/-- The data `writeVoicesFile` writes is the envelope with a `voices` array of
the entries in ascending order of their names, as long as `json.Marshal` leaves
the strings as they are. -/
theorem writeVoicesFile_shape (env : GoEnv) (now : GoString) (c : GoMap) (hne : c ≠ [])
    (hnow : marshalString now = now)
    (hc : ∀ kv ∈ c, marshalString kv.1 = kv.1 ∧ marshalString kv.2 = kv.2)
    (hperm : (env.rangeOrder c).Perm c) :
    writeVoicesFile env now c
      = .ok (shapeEnvelopeArray (some now)
          ((sortStrings ((env.rangeOrder c).map Prod.fst)).map (fun n => (n, mapIndex c n)))) := by
  have hlen : ¬ c.length = 0 := fun h => hne (List.length_eq_zero.mp h)
  have hmem : ∀ n ∈ sortStrings ((env.rangeOrder c).map Prod.fst), (n, mapIndex c n) ∈ c := by
    intro n hn
    have hn' : n ∈ c.map Prod.fst :=
      ((sortStrings_perm _).trans (hperm.map Prod.fst)).mem_iff.mp hn
    obtain ⟨kv, hkv, rfl⟩ := List.mem_map.mp hn'
    obtain ⟨v, hv⟩ := mapGet_of_mem_keys c kv.1 hn'
    have hmemc : ∀ (m : GoMap) (k v : GoString), mapGet m k = some v → (k, v) ∈ m := by
      intro m
      induction m with
      | nil => intro k v h; simp [mapGet] at h
      | cons e rest ih =>
        intro k v h
        obtain ⟨k0, v0⟩ := e
        simp only [mapGet] at h
        split_ifs at h with hk
        · cases h; subst hk; simp
        · exact List.mem_cons_of_mem _ (ih k v h)
    have := hmemc c kv.1 v hv
    rw [mapIndex, hv]
    exact this
  have hl : (sortStrings ((env.rangeOrder c).map Prod.fst)).map
        (marshalVoiceItem ∘ fun name => { Name := name, Description := mapIndex c name })
      = (sortStrings ((env.rangeOrder c).map Prod.fst)).map
        (itemObject ∘ fun n => (n, mapIndex c n)) := by
    apply List.map_congr_left
    intro n hn
    have h := hc _ (hmem n hn)
    simp only [Function.comp, marshalVoiceItem, itemObject, h.1, h.2]
  simp only [writeVoicesFile, if_neg hlen, marshalEnvelope, shapeEnvelopeArray,
    generatedAtMember, writeVoicesList, hnow, List.map_map, List.singleton_append, hl]

/-- C19 counterexample: the catalog with the one entry "kore", whose value is
the byte 0xFF, meets every condition of the claim; `json.Marshal` writes the
byte as U+FFFD, so the catalog that is read back has another value under
"kore". -/
theorem writeThenLoad_invalid_utf8 :
    ([(ascii "kore", [0xFF])] : GoMap) ≠ []
      ∧ (∀ kv ∈ ([(ascii "kore", [0xFF])] : GoMap),
          kv.1 ≠ [] ∧ trimSpace kv.1 = kv.1 ∧ toLower sampleEnv kv.1 = kv.1
            ∧ kv.2 ≠ [] ∧ trimSpace kv.2 = kv.2)
      ∧ writeThenLoad sampleEnv (ascii "2026-01-01T00:00:00Z") [(ascii "kore", [0xFF])]
        = .ok ([(ascii "kore", [0xEF, 0xBF, 0xBD])], some 1767225600)
      ∧ mapGet [(ascii "kore", [0xEF, 0xBF, 0xBD])] (ascii "kore")
        ≠ mapGet [(ascii "kore", [0xFF])] (ascii "kore") := by
  refine ⟨by decide, by decide, by decide, by decide⟩

/-- C19 (as amended): for a non-empty catalog (a map: no key twice) whose keys
are not empty, trimmed and lower-case and whose values are not empty, trimmed
and valid UTF-8 (`json.Marshal` writes them unchanged), and a timestamp text
that `time.Parse` reads back.  Loading what `writeVoicesFile` writes succeeds,
reports the timestamp, and returns a catalog with the same value under every
key, in whatever order `range` visits the entries of a map. -/
theorem writeThenLoad_lossless (env : GoEnv) (hperm : ∀ m, (env.rangeOrder m).Perm m)
    (now : GoString) (t : Time) (hnow : TimestampLaws env now t)
    (c : GoMap) (hne : c ≠ []) (hkeys : (c.map Prod.fst).Nodup)
    (hc : ∀ kv ∈ c, kv.1 ≠ [] ∧ trimSpace kv.1 = kv.1 ∧ toLower env kv.1 = kv.1
      ∧ kv.2 ≠ [] ∧ trimSpace kv.2 = kv.2 ∧ marshalString kv.2 = kv.2) :
    ∃ m, writeThenLoad env now c = .ok (m, some t) ∧ ∀ key, mapGet m key = mapGet c key := by
  have hnames : (sortStrings ((env.rangeOrder c).map Prod.fst)).Perm (c.map Prod.fst) :=
    (sortStrings_perm _).trans ((hperm c).map Prod.fst)
  have hpairs : ((sortStrings ((env.rangeOrder c).map Prod.fst)).map
      (fun n => (n, mapIndex c n))).Perm c := by
    have := hnames.map (fun n => (n, mapIndex c n))
    rwa [map_mapIndex_self c hkeys] at this
  have hw := writeVoicesFile_shape env now c hne (marshalString_of_ascii now hnow.isASCII)
    (fun kv hkv => ⟨marshalString_of_lower env kv.1 (hc kv hkv).2.2.1, (hc kv hkv).2.2.2.2.2⟩)
    (hperm c)
  have hpne : (sortStrings ((env.rangeOrder c).map Prod.fst)).map
      (fun n => (n, mapIndex c n)) ≠ [] := by
    intro h0
    rw [h0] at hpairs
    exact hne (List.Perm.nil_eq hpairs).symm
  have hfix : ∀ p ∈ (sortStrings ((env.rangeOrder c).map Prod.fst)).map
      (fun n => (n, mapIndex c n)), normalEntry env p = p := by
    intro p hp
    have h := hc p (hpairs.mem_iff.mp hp)
    obtain ⟨k, v⟩ := p
    simp only [normalEntry, normalName] at h ⊢
    rw [h.2.1, h.2.2.1, h.2.2.2.2.1]
  have hgood : ∀ p ∈ (sortStrings ((env.rangeOrder c).map Prod.fst)).map
      (fun n => (n, mapIndex c n)), normalName env p ≠ [] ∧ trimSpace p.2 ≠ [] := by
    intro p hp
    have h := hc p (hpairs.mem_iff.mp hp)
    simp only [normalName]
    rw [h.2.1, h.2.2.1, h.2.2.2.2.1]
    exact ⟨h.1, h.2.2.2.1⟩
  have hI := (normalizeVoiceItems_pairs env _ hpne).1 hgood
  rw [List.map_congr_left hfix, List.map_id'] at hI
  refine ⟨assignAll [] ((sortStrings ((env.rangeOrder c).map Prod.fst)).map
      (fun n => (n, mapIndex c n))), ?_, ?_⟩
  · simp only [writeThenLoad, hw]
    rw [parseVoices_shapeEnvelopeArray env (some now) _ hpne, hI, Option.getD_some]
    simp only [parseGeneratedAt, if_neg hnow.notBlank, hnow.parses]
  · intro key
    have hnd : (((sortStrings ((env.rangeOrder c).map Prod.fst)).map
        (fun n => (n, mapIndex c n))).map Prod.fst).Nodup :=
      (hpairs.map Prod.fst).nodup_iff.mpr hkeys
    rw [mapGet_assignAll_perm _ c hpairs hnd key,
      assignAll_of_nodup c [] (by simpa using hkeys), List.nil_append]

/-- C19 witness: the catalog with the entries "kore" and "charon", written with
the timestamp "2026-01-01T00:00:00Z" and read back. -/
theorem writeThenLoad_lossless_witness :
    TimestampLaws sampleEnv (ascii "2026-01-01T00:00:00Z") 1767225600
      ∧ writeThenLoad sampleEnv (ascii "2026-01-01T00:00:00Z")
          [(ascii "kore", ascii "Kore - Female voice"), (ascii "charon", ascii "Male")]
        = .ok ([(ascii "charon", ascii "Male"), (ascii "kore", ascii "Kore - Female voice")],
            some 1767225600)
      ∧ ∃ m, writeThenLoad sampleEnv (ascii "2026-01-01T00:00:00Z")
            [(ascii "kore", ascii "Kore - Female voice"), (ascii "charon", ascii "Male")]
          = .ok (m, some 1767225600)
        ∧ ∀ key, mapGet m key
          = mapGet [(ascii "kore", ascii "Kore - Female voice"), (ascii "charon", ascii "Male")]
              key :=
  ⟨⟨by decide, by decide, by decide⟩, by decide,
    writeThenLoad_lossless sampleEnv (fun m => List.reverse_perm m)
      (ascii "2026-01-01T00:00:00Z") 1767225600 ⟨by decide, by decide, by decide⟩
      [(ascii "kore", ascii "Kore - Female voice"), (ascii "charon", ascii "Male")]
      (by decide) (by decide) (by decide)⟩

end Voxlattice
